import Mathlib

/-!
# File I/O engine of radosfs (`src/src/FileIO.cc`)

A shallow embedding of `FileIO`: the chunk arithmetic, the lock state, the
op registry and the calls the engine makes on its pool.  The pool, the
clock, the uuid generator and the inline buffer adapter are collaborators
whose code is outside `FileIO.cc`; they are modelled by the `World` record
below (a sequential object store in which every submitted operation takes
effect at once, in submission order).
-/

namespace RadosFs

/-! ## Machine integers and error numbers -/

def EINVAL : Int := 22
def ENOENT : Int := 2
def EFBIG : Int := 27
def ENODATA : Int := 61
def ECANCELED : Int := 125

/-- Number of values of a 64-bit word (`size_t`, `off_t`, `ssize_t`): 2^64. -/
def word64 : Nat := 18446744073709551616

/-- Conversion of a signed 64-bit value (`off_t`, `ssize_t`) to `size_t`. -/
def toSizeT (x : Int) : Nat := (x % 18446744073709551616).toNat

/-- Conversion of a `size_t` value to `ssize_t` (two's complement). -/
def toSSizeT (n : Nat) : Int :=
  if n % word64 < 9223372036854775808 then ((n % word64 : Nat) : Int)
  else ((n % word64 : Nat) : Int) - 18446744073709551616

/-- Conversion of an unsigned length to the C `int` parameter of
`addReturnValue` (32 bits, two's complement). -/
def toCInt (n : Nat) : Int :=
  if n % 4294967296 < 2147483648 then ((n % 4294967296 : Nat) : Int)
  else ((n % 4294967296 : Nat) : Int) - 4294967296

/-- Addition of two `size_t` values. -/
def uadd (a b : Nat) : Nat := (a + b) % word64

/-- Multiplication of two `size_t` values. -/
def umul (a b : Nat) : Nat := (a * b) % word64

/-- Subtraction of two `size_t` values: the difference modulo 2^64. -/
def usub (a b : Nat) : Nat :=
  if b % word64 ≤ a % word64 then a % word64 - b % word64
  else word64 - (b % word64 - a % word64)

/-! ## Time

`boost::chrono::system_clock` time points are counted in nanoseconds. -/

def ticksPerSecond : Int := 1000000000

/-- The constant `FILE_LOCK_DURATION` of `FileIO.hh`, in seconds. -/
def FILE_LOCK_DURATION : Int := 120

/-! ## The pool and its objects -/

abbrev Byte := UInt8

/-- Modelled from the spec: the pool handle (class `Pool` is declared outside
`FileIO.cc`): its maximum object size `size` and its alignment, where
0 means no alignment requirement. -/
structure Pool where
  size : Nat
  alignment : Nat
  deriving DecidableEq, Repr

/-- Modelled from the spec: `Pool::hasAlignment()`, true when the pool has an
alignment requirement (alignment other than 0). -/
def Pool.hasAlignment (p : Pool) : Bool := p.alignment != 0

/-- An object of the pool: its bytes and its `XATTR_FILE_SIZE` extended
attribute (the hexadecimal string, decoded). -/
structure Obj where
  data : List Byte
  size : Option Nat
  deriving DecidableEq, Repr

/-- The object a call addresses: the inode object `inode()` or the chunk
`makeFileChunkName(inode(), i)`. -/
inductive Target where
  | inode
  | chunk (i : Nat)
  deriving DecidableEq, Repr

/-- The write operations `FileIO` builds (`librados::ObjectWriteOperation`). -/
inductive ObjOp where
  /-- `op.write(off, contents)` -/
  | write (off : Nat) (contents : List Byte)
  /-- `op.truncate(size); op.assert_exists()` -/
  | truncate (size : Nat)
  /-- `op.remove()` -/
  | remove
  /-- `op.remove()` (failure tolerated), `op.create(false)`, `op.setxattr` of the
  attributes read before, `op.append(contents)`; `assertExists` when
  `op.assert_exists()` follows (truncate). -/
  | alignedWrite (size : Option Nat) (contents : List Byte) (assertExists : Bool)
  /-- `setxattr(XATTR_FILE_SIZE, size); cmpxattr(XATTR_FILE_SIZE, GT, size)`, with
  the backlink when it is still to be set. -/
  | setSizeIfBigger (size : Nat) (backLink : Option String)
  /-- `create(false); setxattr(XATTR_FILE_SIZE, size)`, with the backlink when it
  is still to be set. -/
  | setSize (size : Nat) (backLink : Option String)
  /-- `updateTimeAsyncInXAttr(pool, inode, XATTR_MTIME)` -/
  | updateTime
  deriving DecidableEq, Repr

/-- The read operations `FileIO` builds (`librados::ObjectReadOperation`). -/
inductive Query where
  /-- `getxattr(XATTR_FILE_SIZE); assert_exists()` -/
  | sizeXAttr
  /-- one `op.read(offset, length)` per sub-interval -/
  | chunkRead (intervals : List (Nat × Nat))
  /-- `read(0, mChunkSize); getxattrs()` of `setAlignedChunkWriteOp` -/
  | alignedRead
  /-- `omap_get_vals_by_keys` on the parent object (inline buffer) -/
  | inlineRead
  deriving DecidableEq, Repr

/-- The two cookies of the advisory lock `FILE_CHUNK_LOCKER`. -/
inductive Cookie where
  /-- `FILE_CHUNK_LOCKER_COOKIE_WRITE`, used by `lock_shared` -/
  | write
  /-- `FILE_CHUNK_LOCKER_COOKIE_OTHER`, used by `lock_exclusive` -/
  | other
  deriving DecidableEq, Repr

/-- A call on the pool, as recorded in the trace of the world. -/
inductive Call where
  /-- `operate` / `aio_operate` with a write operation -/
  | op (t : Target) (o : ObjOp)
  /-- `operate` / `aio_operate` with a read operation -/
  | query (t : Target) (q : Query)
  /-- `lock_shared` (cookie `write`) or `lock_exclusive` (cookie `other`),
  repeated while the pool answered `-EBUSY`, `busy` times -/
  | lock (c : Cookie) (busy : Nat)
  /-- `unlock` with the given cookie -/
  | unlock (c : Cookie)
  /-- a write of the inline buffer adapter on the parent object -/
  | inlineSet
  deriving DecidableEq, Repr

/-- Bytes of an object after `write(off, contents)`: a gap below `off` is filled
with zero bytes. -/
def writeAt (d : List Byte) (off : Nat) (contents : List Byte) : List Byte :=
  (d ++ List.replicate (off - d.length) 0).take off ++ contents ++ d.drop (off + contents.length)

/-- Bytes of an object after `truncate(size)`: cut, or extended with zero bytes. -/
def truncateTo (d : List Byte) (size : Nat) : List Byte :=
  d.take size ++ List.replicate (size - d.length) 0

/-- Bytes a `read(off, len)` of an object returns. -/
def readAt (d : List Byte) (off len : Nat) : List Byte := (d.drop off).take len

/-- Modelled from the spec: the effect of one write operation on an object of
the pool (`none`: the object does not exist) and its return code (librados is
outside the repository).  The size attribute is raised only by a compare-and-swap
that takes effect when the new value is greater than the stored one. -/
def applyOp (o : Option Obj) : ObjOp → Option Obj × Int
  | .write off contents =>
      (some { data := writeAt ((o.map (·.data)).getD []) off contents, size := o.bind (·.size) }, 0)
  | .truncate size =>
      match o with
      | none => (none, -ENOENT)
      | some x => (some { x with data := truncateTo x.data size }, 0)
  | .remove =>
      match o with
      | none => (none, -ENOENT)
      | some _ => (none, 0)
  | .alignedWrite size contents _ => (some { data := contents, size := size }, 0)
  | .setSizeIfBigger size _ =>
      match o.bind (·.size) with
      | none => (some { data := (o.map (·.data)).getD [], size := some size }, 0)
      | some cur =>
          if size > cur then (some { data := (o.map (·.data)).getD [], size := some size }, 0)
          else (o, -ECANCELED)
  | .setSize size _ => (some { data := (o.map (·.data)).getD [], size := some size }, 0)
  | .updateTime => (some (o.getD { data := [], size := none }), 0)

/-! ## Async operations and the op registry -/

/-- Modelled from the spec: an `AsyncOp` (class declared in `AsyncOp.hh`,
outside `FileIO.cc`): its id, the return code of each completion with the
override the engine may have set for it, and the ready flag. -/
structure AsyncOp where
  id : String
  completions : List (Int × Option Int)
  ready : Bool
  deriving DecidableEq, Repr

/-- The return code a completion counts with: the override when one is set. -/
def effectiveCode (c : Int × Option Int) : Int := c.2.getD c.1

/-- Modelled from the spec: the aggregate return code computed at wait time, the
first negative code that has not been overridden, else 0.  In this sequential
world every completion has resolved when it is added. -/
def AsyncOp.waitForCompletion (op : AsyncOp) : Int :=
  ((op.completions.map effectiveCode).find? (· < 0)).getD 0

def AsyncOp.addCompletion (op : AsyncOp) (code : Int) : AsyncOp :=
  { op with completions := op.completions ++ [(code, none)] }

/-- Adds a completion whose return code is overridden
(`addCompletion` followed by `setOverriddenReturnCode`). -/
def AsyncOp.addOverridden (op : AsyncOp) (code : Int) (override : Option Int) : AsyncOp :=
  { op with completions := op.completions ++ [(code, override)] }

def AsyncOp.setReady (op : AsyncOp) : AsyncOp := { op with ready := true }

/-- `OpsManager::mOperations`, a `std::map` from op id to op: the entries in
ascending key order. -/
abbrev OpsManager := List (String × AsyncOp)

/-- `OpsManager::addOperation`: `mOperations[op->id()] = op`. -/
def OpsManager.addOperation : OpsManager → AsyncOp → OpsManager
  | [], op => [(op.id, op)]
  | (k, v) :: rest, op =>
      if op.id < k then (op.id, op) :: (k, v) :: rest
      else if op.id = k then (k, op) :: rest
      else (k, v) :: OpsManager.addOperation rest op

/-- Applies `f` to the op registered under `opId` (the registry and the caller
share the op through a pointer). -/
def OpsManager.modify (m : OpsManager) (opId : String) (f : AsyncOp → AsyncOp) : OpsManager :=
  m.map (fun e => if e.1 = opId then (e.1, f e.2) else e)

def OpsManager.find (m : OpsManager) (opId : String) : Option AsyncOp :=
  (m.find? (fun e => e.1 = opId)).map (·.2)

/-- `OpsManager::sync(opId, lock, removeOps)`. -/
def OpsManager.syncOp (m : OpsManager) (opId : String) (removeOps : Bool) : Int × OpsManager :=
  match OpsManager.find m opId with
  | none => (-ENOENT, m)
  | some op => (op.waitForCompletion, if removeOps then m.filter (fun e => e.1 ≠ opId) else m)

/-- The loop of `OpsManager::sync(removeOps)` over the entries still to visit. -/
def OpsManager.syncLoop (removeOps : Bool) : List String → Int → OpsManager → Int × OpsManager
  | [], ret, m => (ret, m)
  | k :: ks, ret, m =>
      let r := OpsManager.syncOp m k removeOps
      OpsManager.syncLoop removeOps ks (if ret = 0 then r.1 else ret) r.2

/-- `OpsManager::sync(removeOps)`. -/
def OpsManager.sync (m : OpsManager) (removeOps : Bool) : Int × OpsManager :=
  OpsManager.syncLoop removeOps (m.map (·.1)) 0 m

/-! ## The world outside `FileIO` -/

/-- The return slot of a read interval: a slot of the caller, or the local
variable `opRet` of the scalar `read`. -/
inductive Slot where
  | caller (a : Nat)
  | opRet
  deriving DecidableEq, Repr

/-- Everything `FileIO` talks to: the objects of the pool by name, the inline
buffer entry on the parent object (its payload), the advisory lock as this
client holds it at the pool, the calls made so far, the clock, the uuid
generator, the number of `-EBUSY` answers before each lock is granted, the
result the inline adapter is forced to return (a failure, when set), and the
caller's memory and return slots. -/
structure World where
  objects : String → Option Obj
  inlineEntry : Option (List Byte)
  lockHeld : Option Cookie
  trace : List Call
  clock : Nat → Int
  ticks : Nat
  uuid : Nat → String
  uuids : Nat
  busy : Nat → Nat
  locks : Nat
  inlineFault : Option Int
  mem : Nat → Byte
  slots : Slot → Int

/-- `boost::chrono::system_clock::now()`. -/
def World.now (w : World) : Int × World :=
  (w.clock w.ticks, { w with ticks := w.ticks + 1 })

/-- `generateUuid()`. -/
def World.generateUuid (w : World) : String × World :=
  (w.uuid w.uuids, { w with uuids := w.uuids + 1 })

def World.log (w : World) (c : Call) : World := { w with trace := w.trace ++ [c] }

/-- Modelled from the spec: `lock_shared` / `lock_exclusive` of the pool, called
again while it answers `-EBUSY` (the empty `while` loops of `lockShared` and
`lockExclusive`); the pool answers busy finitely often and then grants. -/
def World.lock (w : World) (c : Cookie) : World :=
  { w with lockHeld := some c, locks := w.locks + 1, trace := w.trace ++ [Call.lock c (w.busy w.locks)] }

/-- Modelled from the spec: `unlock(obj, name, cookie)` of the pool: 0 when this
client held the lock under that cookie, `-ENOENT` otherwise. -/
def World.unlock (w : World) (c : Cookie) : Int × World :=
  if w.lockHeld = some c then (0, { w with lockHeld := none, trace := w.trace ++ [Call.unlock c] })
  else (-ENOENT, { w with trace := w.trace ++ [Call.unlock c] })

/-- `memcpy(dst, src, |src|)` into the caller's memory. -/
def World.memcpy (w : World) (dst : Nat) (src : List Byte) : World :=
  { w with mem := fun a => if dst ≤ a ∧ a < dst + src.length then src.getD (a - dst) 0 else w.mem a }

/-- `memset(dst, 0, n)` on the caller's memory. -/
def World.memzero (w : World) (dst n : Nat) : World :=
  { w with mem := fun a => if dst ≤ a ∧ a < dst + n then 0 else w.mem a }

/-! ## FileIO -/

/-- Modelled from the spec: the inline buffer adapter (class `FileInlineBuffer`,
outside `FileIO.cc`): its capacity; the entry itself is `World.inlineEntry`. -/
structure FileInlineBuffer where
  capacity : Nat
  deriving DecidableEq, Repr

/-- The members of `class FileIO` (`FileIO.hh`); `makeFileChunkName`, declared
outside `FileIO.cc`, is carried as the member `chunkName`, already applied to the
inode. -/
structure FileIO where
  mPool : Pool
  mInode : String
  mPath : String
  mChunkSize : Nat
  mLazyRemoval : Bool
  mLockStart : Int
  mLockUpdated : Int
  mLocker : String
  mOpManager : OpsManager
  mInlineBuffer : Option FileInlineBuffer
  mHasBackLink : Bool
  chunkName : Nat → String

/-- Name of the object a call addresses. -/
def objName (io : FileIO) : Target → String
  | .inode => io.mInode
  | .chunk i => io.chunkName i

/-- `mPool->ioctx.operate` / `aio_operate` with a write operation: the operation
takes effect on the object at once; the result is the completion's return code. -/
def operate (io : FileIO) (w : World) (t : Target) (o : ObjOp) : Int × World :=
  let r := applyOp (w.objects (objName io t)) o
  (r.2, { w with objects := fun n => if n = objName io t then r.1 else w.objects n,
                 trace := w.trace ++ [Call.op t o] })

/-- `expiredLockDuration()`: a time point `FILE_LOCK_DURATION + 1` seconds ago. -/
def expiredLockDuration (w : World) : Int × World :=
  let r := w.now
  (r.1 - (FILE_LOCK_DURATION + 1) * ticksPerSecond, r.2)

/-- The part of `lockShared` / `lockExclusive` run under `mLockMutex`: whether the
lease is kept (the function returns early), and the members after it. -/
def keepLock (io : FileIO) (now : Int) (uuid : String) : Bool × FileIO :=
  if now - io.mLockStart < (FILE_LOCK_DURATION - 1) * ticksPerSecond then
    let io1 := { io with mLockUpdated := now }
    let io2 := if io1.mLocker = "" then { io1 with mLocker := uuid } else io1
    (decide (io2.mLocker = uuid), io2)
  else (false, io)

/-- `FileIO::lockShared`. -/
def lockShared (io : FileIO) (w : World) (uuid : String) : FileIO × World :=
  let t := w.now
  let k := keepLock io t.1 uuid
  if k.1 then (k.2, t.2)
  else
    let t2 := (t.2.lock Cookie.write).now
    ({ k.2 with mLocker := uuid, mLockStart := t2.1, mLockUpdated := t2.1 }, t2.2)

/-- `FileIO::lockExclusive`. -/
def lockExclusive (io : FileIO) (w : World) (uuid : String) : FileIO × World :=
  let t := w.now
  let k := keepLock io t.1 uuid
  if k.1 then (k.2, t.2)
  else
    let t2 := (t.2.lock Cookie.other).now
    ({ k.2 with mLocker := uuid, mLockStart := t2.1, mLockUpdated := t2.1 }, t2.2)

/-- `FileIO::unlockShared`. -/
def unlockShared (io : FileIO) (w : World) : Int × FileIO × World :=
  let r := w.unlock Cookie.write
  (r.1, { io with mLocker := "" }, r.2)

/-- `FileIO::unlockExclusive`. -/
def unlockExclusive (io : FileIO) (w : World) : Int × FileIO × World :=
  let r := w.unlock Cookie.other
  (r.1, { io with mLocker := "" }, r.2)

/-- `FileIO::unlock`. -/
def unlock (io : FileIO) (w : World) : Int × FileIO × World :=
  let r := unlockShared io w
  if r.1 ≠ 0 then unlockExclusive r.2.1 r.2.2 else (0, r.2.1, r.2.2)

/-- `FileIO::unlockIfTimeIsOut`; `idleTimeout` in clock ticks. -/
def unlockIfTimeIsOut (io : FileIO) (w : World) (idleTimeout : Int) : FileIO × World :=
  let t := w.now
  let seconds := t.1 - io.mLockUpdated
  let lockIsIdle := decide (seconds ≥ idleTimeout)
  let lockTimedOut := decide (seconds > FILE_LOCK_DURATION * ticksPerSecond)
  if lockIsIdle && !lockTimedOut then
    let u := unlock io t.2
    let e := expiredLockDuration u.2.2
    ({ u.2.1 with mLockStart := e.1, mLockUpdated := e.1 }, e.2)
  else (io, t.2)

/-- `FileIO::manageIdleLock` (the mutex is free in this sequential world). -/
def manageIdleLock (io : FileIO) (w : World) (idleTimeout : Int) : FileIO × World :=
  if io.mLocker = "" then unlockIfTimeIsOut io w idleTimeout else (io, w)

/-- `FileIO::syncAndResetLocker`. -/
def syncAndResetLocker (io : FileIO) (_opId : String) : FileIO :=
  { io with mLocker := "" }

/-- `FileIO::verifyWriteParams`; `offset` is the signed `off_t`, `length` the
`size_t`, and the sum is computed in `size_t`. -/
def verifyWriteParams (io : FileIO) (offset : Int) (length : Nat) : Int :=
  let ret := if length = 0 then -EINVAL else 0
  if uadd (toSizeT offset) length > io.mPool.size then -EFBIG else ret

/-- `FileIO::shouldSetBacklink`. -/
def shouldSetBacklink (io : FileIO) : Bool := !io.mHasBackLink && !(io.mPath = "")

/-- `FileIO::getLastChunkIndexAndSize`: the return value and the value stored
through the `size` pointer (`none`: nothing is stored, the call failed). -/
def getLastChunkIndexAndSize (io : FileIO) (w : World) : Int × Option Nat × World :=
  let w1 := w.log (Call.query Target.inode Query.sizeXAttr)
  match w.objects io.mInode with
  | none => (-ENOENT, none, w1)
  | some o =>
      match o.size with
      | none => (-ENODATA, none, w1)
      | some sz =>
          let fileSize := toSSizeT sz
          (if fileSize > 0 then toSSizeT ((toSizeT (fileSize - 1)) / io.mChunkSize) else fileSize,
           some (toSizeT fileSize), w1)

/-- `FileIO::getLastChunkIndex`. -/
def getLastChunkIndex (io : FileIO) (w : World) : Int × World :=
  let r := getLastChunkIndexAndSize io w
  (r.1, r.2.2)

/-- `FileIO::getSize`: `size` starts as 0 and keeps it when the query fails. -/
def getSize (io : FileIO) (w : World) : Nat × World :=
  let r := getLastChunkIndexAndSize io w
  (r.2.1.getD 0, r.2.2)

/-- `FileIO::setSizeIfBigger`: the operation is submitted and its completion is
added to the op. -/
def setSizeIfBigger (io : FileIO) (w : World) (size : Nat) (opId : String) : FileIO × World :=
  let backLink := if !(io.mPath = "") && shouldSetBacklink io then some io.mPath else none
  let r := operate io w Target.inode (ObjOp.setSizeIfBigger size backLink)
  ({ io with mOpManager := OpsManager.modify io.mOpManager opId (·.addCompletion r.1) }, r.2)

/-- `FileIO::setSize`. -/
def setSize (io : FileIO) (w : World) (size : Nat) : Int × FileIO × World :=
  let backLinkIsSet := !shouldSetBacklink io
  let backLink := if !(io.mPath = "") && !backLinkIsSet then some io.mPath else none
  let r := operate io w Target.inode (ObjOp.setSize size backLink)
  (r.1, if r.1 = 0 ∧ !backLinkIsSet then { io with mHasBackLink := true } else io, r.2)

/-- `std::string::replace(pos, len, str)` for `pos` within the string. -/
def replaceStr (s : List Byte) (pos len : Nat) (str : List Byte) : List Byte :=
  s.take pos ++ str ++ s.drop (pos + len)

/-- `FileIO::setAlignedChunkWriteOp`: reads the chunk, and builds the operation
that writes it anew; `none` when `contents.replace` throws `std::out_of_range`
(`offset` beyond the end of `contents`). -/
def setAlignedChunkWriteOp (io : FileIO) (w : World) (chunk : Nat) (offset : Nat)
    (newContents : List Byte) (assertExists : Bool) : Option (ObjOp × World) :=
  let w1 := w.log (Call.query (Target.chunk chunk) Query.alignedRead)
  let existing := w.objects (io.chunkName chunk)
  let contentsBl := readAt ((existing.map (·.data)).getD []) 0 io.mChunkSize
  let xattrs := existing.bind (·.size)
  let contents :=
    if contentsBl.length > 0 then contentsBl
    else if newContents.length ≠ io.mChunkSize then List.replicate io.mChunkSize (0 : Byte)
    else []
  if offset > contents.length then none
  else some (ObjOp.alignedWrite xattrs (replaceStr contents offset newContents.length newContents)
               assertExists, w1)

/-! ## The inline buffer adapter -/

/-- Modelled from the spec: `FileInlineBuffer::write(buff, offset, blen)` clamps
the write to the capacity, stores the bytes in the entry and returns the number
of bytes placed in the inline buffer (or the failure forced by the world). -/
def inlineWrite (ib : FileInlineBuffer) (w : World) (buff : List Byte) (offset blen : Nat) :
    Int × World :=
  match w.inlineFault with
  | some e => (e, w)
  | none =>
      let n := min blen (ib.capacity - offset)
      (n, { w with inlineEntry := some (writeAt (w.inlineEntry.getD []) offset (buff.take n)),
                   trace := w.trace ++ [Call.inlineSet] })

/-- Modelled from the spec: `FileInlineBuffer::fillRemainingInlineBuffer()` extends
the inline length with zero padding so that the inline region covers its whole
capacity; returns 0 (or the failure forced by the world). -/
def fillRemainingInlineBuffer (ib : FileInlineBuffer) (w : World) : Int × World :=
  match w.inlineFault with
  | some e => (e, w)
  | none =>
      (0, { w with inlineEntry := some (truncateTo (w.inlineEntry.getD [])
                                     (max ib.capacity (w.inlineEntry.getD []).length)),
                   trace := w.trace ++ [Call.inlineSet] })

/-- Modelled from the spec: `FileInlineBuffer::truncate(N)`: no change if `N` is at
least the capacity or the entry is shorter, else the payload is kept up to `N`. -/
def inlineTruncate (ib : FileInlineBuffer) (w : World) (newSize : Nat) : World :=
  match w.inlineEntry with
  | none => w
  | some payload =>
      if newSize < ib.capacity ∧ newSize < payload.length then
        { w with inlineEntry := some (payload.take newSize), trace := w.trace ++ [Call.inlineSet] }
      else w

/-! ## Write -/

/-- The `for` loop of `FileIO::realWrite` over the chunks: `n` rounds are left,
`i` is the loop variable. -/
def realWriteLoop (opId : String) (buff : List Byte) (blen firstChunk totalChunks : Nat) :
    Nat → Nat → Nat → Nat → FileIO → World → Option ( FileIO × World)
  | 0, _, _, _, io, w => some (io, w)
  | n + 1, i, currentOffset, bytesToWrite, io, w =>
      let l := if totalChunks > 1 then lockExclusive io w opId else lockShared io w opId
      let length := min (io.mChunkSize - currentOffset) bytesToWrite
      let contentsStr := (buff.drop (blen - bytesToWrite)).take length
      let built :=
        if io.mPool.hasAlignment then
          setAlignedChunkWriteOp l.1 l.2 (firstChunk + i) currentOffset contentsStr false
        else some (ObjOp.write currentOffset contentsStr, l.2)
      match built with
      | none => none
      | some b =>
          let r := operate l.1 b.2 (Target.chunk (firstChunk + i)) b.1
          realWriteLoop opId buff blen firstChunk totalChunks n (i + 1) 0 (bytesToWrite - length)
            { l.1 with mOpManager := OpsManager.modify l.1.mOpManager opId (·.addCompletion r.1) }
            r.2

/-- The part of `FileIO::realWrite` after the inline buffer block, from
`updateTimeAsyncInXAttr` on; `offset` and `blen` are the values left by the
inline buffer block. -/
def realWriteInode (io : FileIO) (w : World) (buff : List Byte) (offset blen : Nat)
    (opId : String) : Option (Int × FileIO × World) :=
  let w1 := (operate io w Target.inode ObjOp.updateTime).2
  let currentOffset := offset % io.mChunkSize
  let firstChunk := offset / io.mChunkSize
  let lastChunk := usub (uadd offset blen) 1 / io.mChunkSize
  let totalChunks := uadd (usub lastChunk firstChunk) 1
  let totalSize := uadd offset blen
  let l := if totalChunks > 1 then lockExclusive io w1 opId else lockShared io w1 opId
  let s := setSizeIfBigger l.1 l.2 totalSize opId
  match realWriteLoop opId buff blen firstChunk totalChunks totalChunks 0 currentOffset blen s.1 s.2 with
  | none => none
  | some r =>
      some (0, syncAndResetLocker
                 { r.1 with mOpManager := OpsManager.modify r.1.mOpManager opId AsyncOp.setReady } opId,
            r.2)

/-- The part of the inline buffer block of `FileIO::realWrite` after the call of
the adapter, which returned `opResult` and placed `inlineContentsSize` bytes. -/
def realWriteAfterInline (io : FileIO) (w : World) (buff : List Byte) (offset blen : Nat)
    (opResult : Int) (inlineContentsSize : Nat) (opId : String) : Option (Int × FileIO × World) :=
  if opResult < 0 then
    some (0, { io with mOpManager := OpsManager.modify io.mOpManager opId AsyncOp.setReady }, w)
  else if usub blen inlineContentsSize = 0 then
    some (0, { io with mOpManager := OpsManager.modify io.mOpManager opId AsyncOp.setReady }, w)
  else
    realWriteInode io w (buff.drop inlineContentsSize) (uadd offset inlineContentsSize)
      (usub blen inlineContentsSize) opId

/-- `FileIO::realWrite`; `offset` is the `off_t` argument as the code uses it,
converted to `size_t`. -/
def realWrite (io : FileIO) (w : World) (buff : List Byte) (offset blen : Nat)
    (_deleteBuffer : Bool) (opId : String) : Option (Int × FileIO × World) :=
  match io.mInlineBuffer with
  | none => realWriteInode io w buff offset blen opId
  | some ib =>
      if ib.capacity > 0 then
        if offset < ib.capacity then
          realWriteAfterInline io (inlineWrite ib w buff offset blen).2 buff offset blen
            (inlineWrite ib w buff offset blen).1 (toSizeT (inlineWrite ib w buff offset blen).1) opId
        else
          realWriteAfterInline io (fillRemainingInlineBuffer ib w).2 buff offset blen
            (fillRemainingInlineBuffer ib w).1 0 opId
      else realWriteInode io w buff offset blen opId

/-- `FileIO::writeSync`. -/
def writeSync (io : FileIO) (w : World) (buff : List Byte) (offset : Int) (blen : Nat) :
    Option (Int × FileIO × World) :=
  let u := w.generateUuid
  let io1 := { io with mOpManager :=
                 OpsManager.addOperation io.mOpManager { id := u.1, completions := [], ready := false } }
  if verifyWriteParams io1 offset blen ≠ 0 then some (verifyWriteParams io1 offset blen, io1, u.2)
  else realWrite io1 u.2 buff (toSizeT offset) blen false u.1

/-- `FileIO::write`: the posted `realWrite` runs at once in this sequential world
and `write` returns 0 whatever it returns. -/
def write (io : FileIO) (w : World) (buff : List Byte) (offset : Int) (blen : Nat)
    (copyBuffer : Bool) : Option (Int × FileIO × World) :=
  if verifyWriteParams io offset blen ≠ 0 then some (verifyWriteParams io offset blen, io, w)
  else
    let u := w.generateUuid
    let io1 := { io with mOpManager :=
                   OpsManager.addOperation io.mOpManager { id := u.1, completions := [], ready := false } }
    match realWrite io1 u.2 buff (toSizeT offset) blen copyBuffer u.1 with
    | none => none
    | some r => some (0, r.2.1, r.2.2)

/-! ## Remove and truncate -/

/-- Conversion of an `ssize_t` value to the `int` a function returns. -/
def ssizeToInt (x : Int) : Int := toCInt (toSizeT x)

/-- The `for` loop of `FileIO::remove`: `n` rounds are left, `i` is the loop
variable. -/
def removeLoop (opId : String) : Nat → Nat → FileIO → World → FileIO × World
  | 0, _, io, w => (io, w)
  | n + 1, i, io, w =>
      let l := lockExclusive io w opId
      let r := operate l.1 l.2 (Target.chunk i) ObjOp.remove
      removeLoop opId n (i + 1)
        { l.1 with mOpManager := OpsManager.modify l.1.mOpManager opId (·.addCompletion r.1) } r.2

/-- The part of `FileIO::remove` from the call of `getLastChunkIndex` on, under
the op id `opId`. -/
def removeChunks (io : FileIO) (w : World) (opId : String) : Int × FileIO × World :=
  let q := getLastChunkIndex io w
  if q.1 < 0 then (ssizeToInt q.1, io, q.2)
  else
    let io1 := { io with mOpManager :=
                   OpsManager.addOperation io.mOpManager { id := opId, completions := [], ready := false } }
    let r := removeLoop opId (toSizeT q.1 + 1) 0 io1 q.2
    (0, syncAndResetLocker
          { r.1 with mOpManager := OpsManager.modify r.1.mOpManager opId AsyncOp.setReady } opId, r.2)

/-- `FileIO::remove`. -/
def remove (io : FileIO) (w : World) : Int × FileIO × World :=
  let u := w.generateUuid
  let s := OpsManager.sync io.mOpManager true
  let us := unlockShared { io with mOpManager := s.2 } u.2
  let l := lockExclusive us.2.1 us.2.2 u.1
  removeChunks l.1 l.2 u.1

/-- The `for` loop of `FileIO::truncate`, `for (ssize_t i = totalChunks - 1; i >= 0; i--)`:
the first argument is `i + 1`. -/
def truncateLoop (opId : String) (newLastChunk newLastChunkSize : Nat) :
    Nat → FileIO → World → Option ( FileIO × World)
  | 0, io, w => some (io, w)
  | i + 1, io, w =>
      let l := lockExclusive io w opId
      let built :=
        if i = 0 then
          if io.mPool.hasAlignment then
            setAlignedChunkWriteOp l.1 l.2 (uadd newLastChunk i) newLastChunkSize
              (List.replicate (io.mChunkSize - newLastChunkSize) (0 : Byte)) true
          else some (ObjOp.truncate newLastChunkSize, l.2)
        else some (ObjOp.remove, l.2)
      match built with
      | none => none
      | some b =>
          let r := operate l.1 b.2 (Target.chunk (uadd newLastChunk i)) b.1
          truncateLoop opId newLastChunk newLastChunkSize i
            { l.1 with mOpManager := OpsManager.modify l.1.mOpManager opId (·.addCompletion r.1) }
            r.2

/-- The chunk index `FileIO::truncate` takes for the new last chunk, after its
adjustment `if (newLastChunk == 0 && newSize > chunkSize())`. -/
def truncateNewLastChunk (io : FileIO) (newSize : Nat) : Nat :=
  let newLastChunk := if newSize = 0 then 0 else (newSize - 1) / io.mChunkSize
  if newLastChunk = 0 ∧ newSize > io.mChunkSize then io.mChunkSize else newLastChunk

/-- The value of `totalChunks` in `FileIO::truncate`. -/
def truncateTotalChunks (io : FileIO) (newSize currentSize : Nat) (lastChunk : Int) : Nat :=
  if currentSize > newSize then uadd (usub (toSizeT lastChunk) (truncateNewLastChunk io newSize)) 1
  else 1

/-- Number of rounds of `for (ssize_t i = totalChunks - 1; i >= 0; i--)`. -/
def truncateRounds (totalChunks : Nat) : Nat := (toSSizeT (usub totalChunks 1) + 1).toNat

/-- The part of `FileIO::truncate` from the computation of `newLastChunk` on, under
the op id `opId`, for the values `currentSize` and `lastChunk` left by the size
query. -/
def truncateApply (io : FileIO) (w : World) (newSize currentSize : Nat) (lastChunk : Int)
    (opId : String) : Option (Int × FileIO × World) :=
  match truncateLoop opId (truncateNewLastChunk io newSize) (newSize % io.mChunkSize)
      (truncateRounds (truncateTotalChunks io newSize currentSize lastChunk))
      { (setSize io w newSize).2.1 with
          mOpManager := OpsManager.addOperation (setSize io w newSize).2.1.mOpManager
            { id := opId, completions := [], ready := false } }
      (setSize io w newSize).2.2 with
  | none => none
  | some r =>
      some (0, syncAndResetLocker
                 { r.1 with mOpManager := OpsManager.modify r.1.mOpManager opId AsyncOp.setReady }
                 opId,
            r.2)

/-- The part of `FileIO::truncate` from the call of `getLastChunkIndexAndSize` on,
under the op id `opId`; `currentSize0` is the indeterminate value the local
`currentSize` holds before `getLastChunkIndexAndSize` stores into it. -/
def truncateChunks (io : FileIO) (w : World) (newSize currentSize0 : Nat) (opId : String) :
    Option (Int × FileIO × World) :=
  if (getLastChunkIndexAndSize io w).1 < 0 ∧
      ¬ ((getLastChunkIndexAndSize io w).1 = -ENOENT ∨ (getLastChunkIndexAndSize io w).1 = -ENODATA)
  then some (ssizeToInt (getLastChunkIndexAndSize io w).1, io, (getLastChunkIndexAndSize io w).2.2)
  else
    truncateApply io (getLastChunkIndexAndSize io w).2.2 newSize
      ((getLastChunkIndexAndSize io w).2.1.getD currentSize0)
      (if (getLastChunkIndexAndSize io w).1 < 0 then 0 else (getLastChunkIndexAndSize io w).1)
      opId

/-- `FileIO::truncate`; `currentSize0` is the indeterminate value the local
`currentSize` holds before `getLastChunkIndexAndSize` stores into it. -/
def truncate (io : FileIO) (w : World) (newSize : Nat) (currentSize0 : Nat) :
    Option (Int × FileIO × World) :=
  if newSize > io.mPool.size then some (-EFBIG, io, w)
  else
    let s := OpsManager.sync io.mOpManager true
    let w1 := (operate io w Target.inode ObjOp.updateTime).2
    let us := unlockShared { io with mOpManager := s.2 } w1
    let u := us.2.2.generateUuid
    let l := lockExclusive us.2.1 u.2 u.1
    let w2 := match io.mInlineBuffer with
              | some ib => inlineTruncate ib l.2 newSize
              | none => l.2
    truncateChunks l.1 w2 newSize currentSize0 u.1

/-! ## Read -/

/-- `struct FileReadData`: the caller's buffer (its address), the file offset (the
`off_t` as the code uses it, converted to `size_t`), the length and the return
slot (`none`: a null pointer). -/
structure FileReadData where
  buff : Nat
  offset : Nat
  length : Nat
  retValue : Option Slot
  deriving DecidableEq, Repr

/-- `class FileReadDataImp`: a `FileReadData` with the result of its read op. -/
structure FileReadDataImp where
  buff : Nat
  offset : Nat
  length : Nat
  retValue : Option Slot
  opResult : Int
  deriving DecidableEq, Repr

/-- `FileReadDataImp::addReturnValue(int value)`. -/
def addReturnValue (w : World) (data : FileReadDataImp) (value : Int) : World :=
  match data.retValue with
  | none => w
  | some slot =>
      if value ≥ 0 then
        { w with slots := fun s => if s = slot then w.slots slot + value else w.slots s }
      else if w.slots slot = 0 then
        { w with slots := fun s => if s = slot then value else w.slots s }
      else w

/-- `FileIO::separateReadData`: the inline part and the inode part. -/
def separateReadData (ib : FileInlineBuffer) (readData : FileReadDataImp) :
    FileReadDataImp × FileReadDataImp :=
  let inlineLength := usub ib.capacity readData.offset
  ({ readData with length := inlineLength },
   { readData with buff := readData.buff + inlineLength,
                   offset := uadd readData.offset inlineLength,
                   length := usub readData.length inlineLength })

/-- `FileIO::getInlineAndInodeReadData` over the intervals still to visit: the
inline parts, the inode parts and the world (the return slots are reset). -/
def getInlineAndInodeReadData (io : FileIO) :
    List FileReadData → List FileReadDataImp → List FileReadDataImp → World →
      List FileReadDataImp × List FileReadDataImp × World
  | [], dataInline, dataInode, w => (dataInline, dataInode, w)
  | iv :: rest, dataInline, dataInode, w =>
      let readData : FileReadDataImp :=
        { buff := iv.buff, offset := iv.offset, length := iv.length, retValue := iv.retValue,
          opResult := 0 }
      let w1 := match iv.retValue with
                | none => w
                | some slot => { w with slots := fun s => if s = slot then 0 else w.slots s }
      match io.mInlineBuffer with
      | none => getInlineAndInodeReadData io rest dataInline (dataInode ++ [readData]) w1
      | some ib =>
          if readData.offset < ib.capacity then
            if uadd readData.offset readData.length > ib.capacity then
              getInlineAndInodeReadData io rest (dataInline ++ [(separateReadData ib readData).1])
                (dataInode ++ [(separateReadData ib readData).2]) w1
            else getInlineAndInodeReadData io rest (dataInline ++ [readData]) dataInode w1
          else getInlineAndInodeReadData io rest dataInline (dataInode ++ [readData]) w1

/-- The `std::map<size_t, std::vector<FileReadDataImpSP> >` of read data per
chunk: the entries in ascending chunk order. -/
abbrev ChunkMap := List (Nat × List FileReadDataImp)

/-- `inodeData->operator[](chunkIndex).push_back(data)`. -/
def ChunkMap.push : ChunkMap → Nat → FileReadDataImp → ChunkMap
  | [], k, d => [(k, [d])]
  | (k', ds) :: rest, k, d =>
      if k < k' then (k, [d]) :: (k', ds) :: rest
      else if k = k' then (k', ds ++ [d]) :: rest
      else (k', ds) :: ChunkMap.push rest k d

/-- The `while (remainingLength > 0)` loop of `FileIO::getReadDataPerChunk` for
one interval.  The first argument bounds the number of rounds: every round takes
at least one byte (`mChunkSize` is not 0 by the constructor's assertion), so
`originalLength` rounds are enough. -/
def splitPerChunk (mChunkSize : Nat) (readData : FileReadDataImp) (originalLength : Nat) :
    Nat → Nat → Nat → Nat → ChunkMap → ChunkMap
  | 0, _, _, _, m => m
  | fuel + 1, chunkIndex, localOffset, remainingLength, m =>
      if remainingLength > 0 then
        let length := min (mChunkSize - localOffset) remainingLength
        splitPerChunk mChunkSize readData originalLength fuel (chunkIndex + 1) 0
          (remainingLength - length)
          (ChunkMap.push m chunkIndex
            { readData with opResult := -1,
                            buff := readData.buff + originalLength - remainingLength,
                            offset := localOffset,
                            length := length })
      else m

/-- `FileIO::getReadDataPerChunk`. -/
def getReadDataPerChunk (io : FileIO) : List FileReadDataImp → ChunkMap → ChunkMap
  | [], m => m
  | readData :: rest, m =>
      getReadDataPerChunk io rest
        (splitPerChunk io.mChunkSize readData readData.length readData.length
          (readData.offset / io.mChunkSize) (readData.offset % io.mChunkSize) readData.length m)

/-- `assignInodeSize`: the size of the file, fetched once per read request into
the shared `ssize_t` cell (-1: not fetched yet). -/
def assignInodeSize (io : FileIO) (w : World) (cell : Int) : Nat × Int × World :=
  if cell = -1 then
    let g := getSize io w
    (toSizeT (toSSizeT g.1), toSSizeT g.1, g.2)
  else (toSizeT cell, cell, w)

/-- `assignRemainingReadData`. -/
def assignRemainingReadData (w : World) (data : FileReadDataImp) (byteOffset inodeSize
    currentReadDataSize : Nat) : World :=
  if inodeSize > 0 ∧ byteOffset < inodeSize then
    let length := usub (min data.length (inodeSize - byteOffset)) currentReadDataSize
    addReturnValue (w.memzero (data.buff + currentReadDataSize) length) data (toCInt length)
  else w

/-- The loop of `FileIO::onReadCompleted` over the sub-intervals of one chunk read,
each with the bytes the pool returned for it: the override set for the
completion (if any), the size cell and the world. -/
def onReadCompleted (io : FileIO) (fileChunk : Nat) (ret : Int) :
    List (FileReadDataImp × List Byte) → Option Int → Int → World → Option Int × Int × World
  | [], override, cell, w => (override, cell, w)
  | (data, buff) :: rest, override, cell, w =>
      let w1 := if buff.length > 0 then
                  addReturnValue (w.memcpy data.buff buff) data (toCInt buff.length)
                else w
      if buff.length < data.length then
        let a := assignInodeSize io w1 cell
        let byteOffset := uadd (umul fileChunk io.mChunkSize) data.offset
        let override1 :=
          if ret = -ENOENT ∧ a.1 ≥ uadd byteOffset data.length then some 0 else override
        onReadCompleted io fileChunk ret rest override1 a.2.1
          (assignRemainingReadData a.2.2 data byteOffset a.1 buff.length)
      else onReadCompleted io fileChunk ret rest override cell w1

/-- `FileIO::vectorReadChunk` with its completion: one read operation on the chunk
carrying every sub-interval; a chunk that does not exist answers `-ENOENT` with
empty buffers. -/
def vectorReadChunk (io : FileIO) (w : World) (cell : Int) (opId : String) (fileChunk : Nat)
    (readDataVector : List FileReadDataImp) : FileIO × Int × World :=
  let w1 := w.log (Call.query (Target.chunk fileChunk)
                    (Query.chunkRead (readDataVector.map (fun d => (d.offset, d.length)))))
  let obj := w.objects (io.chunkName fileChunk)
  let ret : Int := if obj.isNone then -ENOENT else 0
  let answers := readDataVector.map
    (fun d => (d, match obj with
                  | none => []
                  | some o => readAt o.data d.offset d.length))
  let c := onReadCompleted io fileChunk ret answers none cell w1
  ({ io with mOpManager := OpsManager.modify io.mOpManager opId (·.addOverridden ret c.1) },
   c.2.1, c.2.2)

/-- The loop of `FileIO::read` over the chunks of the map. -/
def readChunks (opId : String) : ChunkMap → FileIO → Int → World → FileIO × Int × World
  | [], io, cell, w => (io, cell, w)
  | (fileChunk, readDataVector) :: rest, io, cell, w =>
      let r := vectorReadChunk io w cell opId fileChunk readDataVector
      readChunks opId rest r.1 r.2.1 r.2.2

/-- The loop of `FileIO::onReadInlineBufferCompleted` over the inline parts, given
the payload `contents` of the entry.  Modelled from the spec: bytes of the inline
region beyond the live length read as zero bytes. -/
def onReadInlineBufferCompleted (io : FileIO) (contents : List Byte) :
    List FileReadDataImp → Int → World → Int × World
  | [], cell, w => (cell, w)
  | data :: rest, cell, w =>
      if contents ≠ [] then
        let bytes := readAt (contents ++ List.replicate (data.offset + data.length) 0)
                       data.offset data.length
        onReadInlineBufferCompleted io contents rest cell
          (addReturnValue (w.memcpy data.buff bytes) data (toCInt data.length))
      else
        let a := assignInodeSize io w cell
        onReadInlineBufferCompleted io contents rest a.2.1
          (assignRemainingReadData a.2.2 data data.offset a.1 0)

/-- `FileIO::vectorReadInlineBuffer` with its completion. -/
def vectorReadInlineBuffer (io : FileIO) (w : World) (cell : Int) (opId : String)
    (readData : List FileReadDataImp) : FileIO × Int × World :=
  let w1 := w.log (Call.query Target.inode Query.inlineRead)
  let c := match w.inlineEntry with
           | none => (cell, w1)
           | some contents => onReadInlineBufferCompleted io contents readData cell w1
  ({ io with mOpManager := OpsManager.modify io.mOpManager opId (·.addCompletion 0) }, c.1, c.2)

/-- `FileIO::read` (vector): the return code, the op id and the new state. -/
def readVector (io : FileIO) (w : World) (intervals : List FileReadData) :
    Int × String × FileIO × World :=
  let s := OpsManager.sync io.mOpManager true
  if intervals.length = 0 then (-EINVAL, "", { io with mOpManager := s.2 }, w)
  else
    let u := w.generateUuid
    let newOp : AsyncOp := { id := u.1, completions := [], ready := false }
    let io1 := { io with mOpManager := OpsManager.addOperation s.2 newOp }
    let g := getInlineAndInodeReadData io1 intervals [] [] u.2
    let i := if io1.mInlineBuffer.isSome ∧ g.1.length > 0 then
               vectorReadInlineBuffer io1 g.2.2 (-1) u.1 g.1
             else (io1, -1, g.2.2)
    let r := readChunks u.1 (getReadDataPerChunk io1 g.2.1 []) i.1 i.2.1 i.2.2
    (0, u.1, r.1, r.2.2)

/-- `FileIO::read` (scalar). -/
def read (io : FileIO) (w : World) (buff offset blen : Nat) : Int × FileIO × World :=
  let s := OpsManager.sync io.mOpManager true
  if blen = 0 then (-EINVAL, { io with mOpManager := s.2 }, w)
  else
    let r := readVector { io with mOpManager := s.2 }
               { w with slots := fun x => if x = Slot.opRet then 0 else w.slots x }
               [{ buff := buff, offset := offset, length := blen, retValue := some Slot.opRet }]
    if r.1 ≠ 0 then (r.1, r.2.2.1, r.2.2.2)
    else
      let y := OpsManager.syncOp r.2.2.1.mOpManager r.2.1 true
      if y.1 ≠ 0 then (y.1, { r.2.2.1 with mOpManager := y.2 }, r.2.2.2)
      else (r.2.2.2.slots Slot.opRet, { r.2.2.1 with mOpManager := y.2 }, r.2.2.2)

/-! ## Well-formed states and example states -/

/-- The states the engine works on: the chunk size is not 0 (asserted by the
constructors), sizes fit the signed 64-bit range of `off_t` and `ssize_t`,
`makeFileChunkName` gives different chunks different names and names no chunk but
the base chunk like the inode, and on a pool with alignment every chunk object is
empty or holds at least a whole chunk. -/
structure WellFormed (io : FileIO) (w : World) : Prop where
  chunkSize_pos : 0 < io.mChunkSize
  poolSize_lt : io.mPool.size < 2 ^ 63
  chunkName_inj : ∀ i j, io.chunkName i = io.chunkName j → i = j
  inode_chunk : ∀ i, io.chunkName i = io.mInode → i = 0
  size_lt : ∀ o s, w.objects io.mInode = some o → o.size = some s → s < 2 ^ 63
  aligned : io.mPool.hasAlignment = true →
    ∀ k o, w.objects (io.chunkName k) = some o → o.data = [] ∨ io.mChunkSize ≤ o.data.length

/-- The calls of a trace that are write operations on chunks, as (chunk index,
operation). -/
def chunkOps : List Call → List (Nat × ObjOp)
  | [] => []
  | Call.op (Target.chunk i) o :: rest => (i, o) :: chunkOps rest
  | _ :: rest => chunkOps rest

/-- An example pool: maximum object size 100, no alignment. -/
def demoPool : Pool := { size := 100, alignment := 0 }

/-- An example `FileIO` on `demoPool` with chunk size 4 and no inline buffer, whose
base chunk is the inode object. -/
def demoIO : FileIO :=
  { mPool := demoPool, mInode := "ino", mPath := "", mChunkSize := 4, mLazyRemoval := false,
    mLockStart := 0, mLockUpdated := 0, mLocker := "", mOpManager := [], mInlineBuffer := none,
    mHasBackLink := true,
    chunkName := fun i => if i = 0 then "ino" else String.mk (List.replicate i 'c') }

/-- An example world: an empty pool, a clock that starts at second 1000 and
advances one tick per reading, and a pool that grants every lock at once. -/
def demoWorld : World :=
  { objects := fun _ => none, inlineEntry := none, lockHeld := none, trace := [],
    clock := fun n => 1000 * ticksPerSecond + n, ticks := 0,
    uuid := fun n => String.mk (List.replicate (n + 1) 'u'), uuids := 0,
    busy := fun _ => 0, locks := 0, inlineFault := none, mem := fun _ => 7, slots := fun _ => 0 }

/-- An example `FileIO` with one op in its registry. -/
def demoBusyIO : FileIO :=
  { demoIO with mOpManager := [("a", { id := "a", completions := [(0, none)], ready := true })] }

/-- The size an object shows: its size attribute, 0 when it has none. -/
def storedSize (o : Option Obj) : Nat := (o.bind (·.size)).getD 0

/-- The size updates `sizes` applied to an object one after the other. -/
def applySizeUpdates (o : Option Obj) (sizes : List Nat) : Option Obj :=
  sizes.foldl (fun x n => (applyOp x (ObjOp.setSizeIfBigger n none)).1) o

/-- A trace `t'` continues a trace `t`. -/
def Continues (t t' : List Call) : Prop := ∃ new, t' = t ++ new

/-- The write is left with bytes for the chunks after the inline buffer block of
`realWrite`: there is no inline buffer (or one of capacity 0), or the adapter does
not fail and the write ends beyond the inline capacity. -/
def reachesChunks (io : FileIO) (w : World) (offset blen : Nat) : Prop :=
  match io.mInlineBuffer with
  | none => True
  | some ib => ib.capacity = 0 ∨ (w.inlineFault = none ∧ ib.capacity < offset + blen)

/-- An example `FileIO` with an inline buffer of capacity 16. -/
def demoInlineIO : FileIO := { demoIO with mInlineBuffer := some { capacity := 16 } }

/-- The chunk operations of the `for` loop of `FileIO::truncate` with `n` rounds,
in the order they are issued: removes for the loop variable above 0, and the
operation `last` on the new last chunk. -/
def truncateLoopOps (newLastChunk : Nat) (last : ObjOp) : Nat → List (Nat × ObjOp)
  | 0 => []
  | i + 1 =>
      (uadd newLastChunk i, if i = 0 then last else ObjOp.remove)
        :: truncateLoopOps newLastChunk last i

/-- The operation `FileIO::truncate` issues on the new last chunk: a truncate to
`size` with `assert_exists`, or the aligned rewrite with `assert_exists`. -/
def IsTruncateOp (size : Nat) (o : ObjOp) : Prop :=
  o = ObjOp.truncate size ∨ ∃ xattr contents, o = ObjOp.alignedWrite xattr contents true

/-- Index of the last chunk of a file of `size` bytes with chunks of `cs` bytes. -/
def lastChunkOf (cs size : Nat) : Nat := if size > 0 then (size - 1) / cs else 0

/-- An example world: a file of 10 bytes in three chunks of `demoIO`. -/
def demoFileWorld : World :=
  { demoWorld with
      objects := fun n =>
        if n = "ino" then some { data := [1, 2, 3, 4], size := some 10 }
        else if n = "c" then some { data := [5, 6, 7, 8], size := none }
        else if n = "cc" then some { data := [9, 10], size := none }
        else none }

/-- An example `FileIO` with chunks of `2^31` bytes on a pool of maximum object
size `2^33`, without alignment and without inline buffer. -/
def wideIO : FileIO :=
  { demoIO with mChunkSize := 2147483648, mPool := { size := 8589934592, alignment := 0 } }

/-- The aggregate code of a vector read: `read(intervals, &opId)` followed by
`sync(opId)`; the code of `read` when it is not 0. -/
def readVectorSync (io : FileIO) (w : World) (intervals : List FileReadData) : Int :=
  let r := readVector io w intervals
  if r.1 ≠ 0 then r.1 else (OpsManager.syncOp r.2.2.1.mOpManager r.2.1 true).1

/-- The first aggregate code that is not 0 among the ops of a registry, in
iteration order; 0 when there is none. -/
def firstFailure (m : OpsManager) : Int :=
  ((m.map (fun e => e.2.waitForCompletion)).find? (· ≠ 0)).getD 0

/-- An example registry of three ops, in key order: one that succeeded, one whose
completion failed with `-ENOENT` and one whose completion failed with `-EFBIG`. -/
def demoOps : OpsManager :=
  [("a", { id := "a", completions := [(0, none)], ready := true }),
   ("b", { id := "b", completions := [(-2, none)], ready := true }),
   ("c", { id := "c", completions := [(-27, none)], ready := true })]

/-- The example FileIO of scenario S2: inline capacity 8, chunk size 16, on the
example pool without alignment. -/
def demoS2IO : FileIO :=
  { demoIO with mChunkSize := 16, mInlineBuffer := some { capacity := 8 } }

/-- The bytes of `"0123456789abcdefGHIJ"`. -/
def demoS2Bytes : List Byte :=
  [48, 49, 50, 51, 52, 53, 54, 55, 56, 57, 97, 98, 99, 100, 101, 102, 71, 72, 73, 74]

/-- The example FileIO of scenario S3: a pool with alignment 3 and the chunk size
126 (the chunk size 128 aligned down to a multiple of 3 by the caller of the
constructor). -/
def demoS3IO : FileIO :=
  { demoIO with mChunkSize := 126, mPool := { size := 1000, alignment := 3 } }

/-- Stored length of chunk `i`: the length of its object's data, `none` when the
object does not exist. -/
def storedLength (io : FileIO) (w : World) (i : Nat) : Option Nat :=
  (w.objects (io.chunkName i)).map (·.data.length)

/-- The world after `*readData->retValue = 0` for the return slot `ret` (nothing
changes when the pointer is null). -/
def resetSlot (w : World) (ret : Option Slot) : World :=
  match ret with
  | none => w
  | some slot => { w with slots := fun s => if s = slot then 0 else w.slots s }

/-- The `FileReadDataImp` built from an interval. -/
def FileReadData.toImp (iv : FileReadData) : FileReadDataImp :=
  { buff := iv.buff, offset := iv.offset, length := iv.length, retValue := iv.retValue,
    opResult := 0 }

/-- The reference definition of the aligned read-modify-write, in the spec's
words: the base is the existing content `e` of the chunk if it is not empty and
`cs` zero bytes otherwise; the result is the base with the bytes
`[offset, offset + len(s))` replaced by the slice `s`. -/
def alignedReference (cs : Nat) (e : List Byte) (offset : Nat) (s : List Byte) : List Byte :=
  (if e ≠ [] then e else List.replicate cs 0).take offset ++ s ++
    (if e ≠ [] then e else List.replicate cs 0).drop (offset + s.length)

/-- The content of chunk `i` as stored: empty when the object does not exist. -/
def chunkData (io : FileIO) (w : World) (i : Nat) : List Byte :=
  ((w.objects (io.chunkName i)).map (·.data)).getD []

/-- An example world for the example FileIO of scenario S3: chunk 1 exists and
holds 126 bytes of value 7. -/
def demoS3World : World :=
  { demoWorld with
      objects := fun n =>
        if n = "c" then some { data := List.replicate 126 7, size := none } else none }

/-- Chunking of an interval of `len` bytes at offset `off` into chunks of `cs`
bytes, in the spec's words: the object-local offset of its `k`-th piece,
`off mod cs` for the first piece and 0 for the later ones. -/
def pieceLocal (cs off k : Nat) : Nat := if k = 0 then off % cs else 0

/-- Number of bytes of the interval that lie before its `k`-th piece. -/
def pieceBefore (cs off len k : Nat) : Nat := if k = 0 then 0 else min len (k * cs - off % cs)

/-- Length of the `k`-th piece: `min(cs - local_off, remaining)`. -/
def pieceLength (cs off len k : Nat) : Nat :=
  min (cs - pieceLocal cs off k) (len - pieceBefore cs off len k)

/-- Number of pieces: the chunks `off / cs`, ..., `(off + len - 1) / cs`; none when
`len = 0`. -/
def pieceCount (cs off len : Nat) : Nat :=
  if len = 0 then 0 else (off + len - 1) / cs - off / cs + 1

/-- The `k`-th sub-interval of the read data `rd` for chunks of `cs` bytes. -/
def readPiece (cs : Nat) (rd : FileReadDataImp) (k : Nat) : FileReadDataImp :=
  { rd with opResult := -1,
            buff := rd.buff + pieceBefore cs rd.offset rd.length k,
            offset := pieceLocal cs rd.offset k,
            length := pieceLength cs rd.offset rd.length k }

/-- The chunk operation `realWrite` builds for the slice `slice` at the
object-local offset `lo`: on a pool without alignment `op.write(lo, slice)`, on
a pool with alignment the rewrite of the chunk with the bytes
`[lo, lo + len(slice))` of the content `e` read before replaced by `slice`. -/
def IsChunkWrite (aligned : Bool) (lo : Nat) (slice : List Byte) (o : ObjOp) : Prop :=
  if aligned then ∃ xattr e, o = ObjOp.alignedWrite xattr (replaceStr e lo slice.length slice) false
  else o = ObjOp.write lo slice

/-- The cookie of the lock `realWrite` asks for: the exclusive one for a write
over more than one chunk, else the shared one. -/
def writeCookie (totalChunks : Nat) : Cookie :=
  if totalChunks > 1 then Cookie.other else Cookie.write

/-- An example world for the example FileIO of scenario S3 that holds a file of
200 bytes: the base chunk (the inode object, with the size attribute 200) and
chunk 1 hold 126 bytes each. -/
def demoS3FileWorld : World :=
  { demoWorld with
      objects := fun n =>
        if n = "ino" then some { data := List.replicate 126 120, size := some 200 }
        else if n = "c" then some { data := List.replicate 126 120, size := none }
        else none }

/-- The operation `FileIO::truncate` builds for the chunk it keeps (loop variable
0), by the pool: the aligned rewrite with `assert_exists` on a pool with
alignment, the truncate to `size` with `assert_exists` otherwise. -/
def IsKeptChunkOp (pool : Pool) (size : Nat) (o : ObjOp) : Prop :=
  if pool.hasAlignment then ∃ xattr contents, o = ObjOp.alignedWrite xattr contents true
  else o = ObjOp.truncate size

/-- An example world whose clock stands at second 1000 for the first three
readings, at second 1118 for the next two and at second 1125 afterwards. -/
def demoLeaseWorld : World :=
  { demoWorld with
      clock := fun n => if n < 3 then 1000 * ticksPerSecond
                        else if n < 5 then 1118 * ticksPerSecond
                        else 1125 * ticksPerSecond }

/-- An example world in which the inline buffer adapter fails with -5. -/
def demoFaultWorld : World := { demoWorld with inlineFault := some (-5) }

/-- The operations of a trace that address the object `name`, in the order they
were issued. -/
def objOps (io : FileIO) (name : String) : List Call → List ObjOp
  | [] => []
  | Call.op t o :: rest =>
      if objName io t = name then o :: objOps io name rest else objOps io name rest
  | _ :: rest => objOps io name rest

/-- The operations `realWrite` issues on a pool without alignment: the update of
the modification time, the compare-and-swap of the size and the chunk writes. -/
def IsPlainWriteOp (o : ObjOp) : Prop :=
  o = ObjOp.updateTime ∨ (∃ n bl, o = ObjOp.setSizeIfBigger n bl) ∨ ∃ off c, o = ObjOp.write off c

/-- The size value an operation submits for the compare-and-swap, 0 when it is
not a size update. -/
def submittedSize : ObjOp → Nat
  | .setSizeIfBigger n _ => n
  | _ => 0

/-- The operations `ops` applied to an object one after the other. -/
def applyOps (o : Option Obj) (ops : List ObjOp) : Option Obj :=
  ops.foldl (fun x op => (applyOp x op).1) o

/-! ## Theorems -/

theorem toSizeT_of_nonneg (x : Int) (h0 : 0 ≤ x) (h : x < 18446744073709551616) :
    toSizeT x = x.toNat := by
  unfold toSizeT
  rw [Int.emod_eq_of_lt h0 h]

theorem verifyWriteParams_eq (io : FileIO) (offset : Int) (length : Nat) (h0 : 0 ≤ offset)
    (hlt : offset + length < 18446744073709551616) :
    verifyWriteParams io offset length =
      if offset + length > io.mPool.size then -EFBIG else if length = 0 then -EINVAL else 0 := by
  have h1 : toSizeT offset = offset.toNat := toSizeT_of_nonneg offset h0 (by omega)
  unfold verifyWriteParams uadd word64
  rw [h1]
  have h2 : (offset.toNat + length) % 18446744073709551616 = offset.toNat + length := by
    apply Nat.mod_eq_of_lt
    omega
  rw [h2]
  by_cases hb : offset + length > io.mPool.size
  · have : offset.toNat + length > io.mPool.size := by omega
    simp [hb, this]
  · have : ¬ offset.toNat + length > io.mPool.size := by omega
    simp [hb, this]

theorem writeSync_of_invalid (io : FileIO) (w : World) (buff : List Byte) (offset : Int)
    (length : Nat) (h : verifyWriteParams io offset length ≠ 0) :
    (writeSync io w buff offset length).map (·.1) = some (verifyWriteParams io offset length) := by
  have hv : ∀ m, verifyWriteParams { io with mOpManager := m } offset length
      = verifyWriteParams io offset length := fun _ => rfl
  simp [writeSync, hv, h]

theorem write_of_invalid (io : FileIO) (w : World) (buff : List Byte) (offset : Int)
    (length : Nat) (copyBuffer : Bool) (h : verifyWriteParams io offset length ≠ 0) :
    write io w buff offset length copyBuffer = some (verifyWriteParams io offset length, io, w) := by
  simp [write, h]

/-- C4 (amended): for an offset that is not negative and a length whose sum with
it stays in the 64-bit range, `write` and `writeSync` fail with `-EFBIG` whenever
`offset + length` exceeds the pool's maximum object size (also when the length
is 0), fail with `-EINVAL` when the length is 0 and the offset is within the
maximum, and pass validation when the length is positive and
`offset + length` is at most the maximum (the bound itself is accepted). -/
theorem write_validation (io : FileIO) (w : World) (buff : List Byte) (copyBuffer : Bool)
    (offset : Int) (length : Nat) (h0 : 0 ≤ offset)
    (hlt : offset + length < 18446744073709551616) :
    (offset + length > io.mPool.size →
      verifyWriteParams io offset length = -EFBIG ∧
      (writeSync io w buff offset length).map (·.1) = some (-EFBIG) ∧
      (write io w buff offset length copyBuffer).map (·.1) = some (-EFBIG)) ∧
    (length = 0 → offset ≤ io.mPool.size →
      verifyWriteParams io offset length = -EINVAL ∧
      (writeSync io w buff offset length).map (·.1) = some (-EINVAL) ∧
      (write io w buff offset length copyBuffer).map (·.1) = some (-EINVAL)) ∧
    (0 < length → offset + length ≤ io.mPool.size → verifyWriteParams io offset length = 0) := by
  have hv := verifyWriteParams_eq io offset length h0 hlt
  refine ⟨fun hbig => ?_, fun hlen hoff => ?_, fun hlen hle => ?_⟩
  · have e : verifyWriteParams io offset length = -EFBIG := by rw [hv, if_pos hbig]
    have ne : verifyWriteParams io offset length ≠ 0 := by rw [e]; decide
    refine ⟨e, ?_, ?_⟩
    · rw [writeSync_of_invalid io w buff offset length ne, e]
    · rw [write_of_invalid io w buff offset length copyBuffer ne, e]; rfl
  · have hnb : ¬ offset + length > io.mPool.size := by subst hlen; simpa using hoff
    have e : verifyWriteParams io offset length = -EINVAL := by rw [hv, if_neg hnb, if_pos hlen]
    have ne : verifyWriteParams io offset length ≠ 0 := by rw [e]; decide
    refine ⟨e, ?_, ?_⟩
    · rw [writeSync_of_invalid io w buff offset length ne, e]
    · rw [write_of_invalid io w buff offset length copyBuffer ne, e]; rfl
  · have hnb : ¬ offset + length > io.mPool.size := by omega
    have hl : length ≠ 0 := by omega
    rw [hv, if_neg hnb, if_neg hl]

/-- Witness of `write_validation`: offset 96 and length 4 on the example pool of
maximum object size 100. -/
theorem write_validation_witness :
    (0 : Int) ≤ 96 ∧ (96 : Int) + (4 : Nat) < 18446744073709551616 ∧
    verifyWriteParams demoIO 96 4 = 0 :=
  ⟨by decide, by decide,
   (write_validation demoIO demoWorld [1, 2, 3, 4] false 96 4 (by decide) (by decide)).2.2
     (by decide) (by decide)⟩

/-- C4, counterexample: on the example pool of maximum object size 100 a write of
length 0 at offset 200 fails with `-EFBIG`, not `-EINVAL`; and a write of length
`2^64 - 1` at offset 1, whose sum wraps to 0, passes validation. -/
theorem write_validation_counterexample :
    verifyWriteParams demoIO 200 0 = -EFBIG ∧
    verifyWriteParams demoIO 200 0 ≠ -EINVAL ∧
    (writeSync demoIO demoWorld [] 200 0).map (·.1) = some (-EFBIG) ∧
    (write demoIO demoWorld [] 200 0 false).map (·.1) = some (-EFBIG) ∧
    verifyWriteParams demoIO 1 18446744073709551615 = 0 := by
  refine ⟨by decide, by decide, by decide, by decide, by decide⟩

theorem syncOp_snd (m : OpsManager) (k : String) :
    (OpsManager.syncOp m k true).2 = m.filter (fun e => e.1 ≠ k) := by
  unfold OpsManager.syncOp OpsManager.find
  cases h : List.find? (fun e => decide (e.1 = k)) m with
  | none =>
      simp only [Option.map_none']
      symm
      rw [List.filter_eq_self]
      intro e he
      have := List.find?_eq_none.mp h e he
      simpa using this
  | some e => simp

theorem syncLoop_snd (ks : List String) :
    ∀ (ret : Int) (m : OpsManager),
      (OpsManager.syncLoop true ks ret m).2 = m.filter (fun e => e.1 ∉ ks) := by
  induction ks with
  | nil => intro ret m; simp [OpsManager.syncLoop]
  | cons k ks ih =>
      intro ret m
      simp only [OpsManager.syncLoop]
      rw [ih, syncOp_snd, List.filter_filter]
      congr 1
      funext e
      simp [Bool.and_comm]

theorem sync_snd (m : OpsManager) : (OpsManager.sync m true).2 = [] := by
  unfold OpsManager.sync
  rw [syncLoop_snd, List.filter_eq_nil_iff]
  intro e he
  simp only [decide_not, Bool.not_eq_true', decide_eq_false_iff_not, not_not]
  exact List.mem_map_of_mem (·.1) he

theorem realWriteInode_fst (io : FileIO) (w : World) (buff : List Byte) (offset blen : Nat)
    (opId : String) (r : Int × FileIO × World)
    (h : realWriteInode io w buff offset blen opId = some r) : r.1 = 0 := by
  unfold realWriteInode at h
  simp only at h
  split at h
  · cases h
  · cases h; rfl

theorem realWriteAfterInline_fst (io : FileIO) (w : World) (buff : List Byte) (offset blen : Nat)
    (opResult : Int) (ics : Nat) (opId : String) (r : Int × FileIO × World)
    (h : realWriteAfterInline io w buff offset blen opResult ics opId = some r) : r.1 = 0 := by
  unfold realWriteAfterInline at h
  split at h
  · cases h; rfl
  · split at h
    · cases h; rfl
    · exact realWriteInode_fst _ _ _ _ _ _ _ h

theorem realWrite_fst (io : FileIO) (w : World) (buff : List Byte) (offset blen : Nat)
    (del : Bool) (opId : String) (r : Int × FileIO × World)
    (h : realWrite io w buff offset blen del opId = some r) : r.1 = 0 := by
  unfold realWrite at h
  split at h
  · exact realWriteInode_fst _ _ _ _ _ _ _ h
  · split at h
    · split at h
      · exact realWriteAfterInline_fst _ _ _ _ _ _ _ _ _ h
      · exact realWriteAfterInline_fst _ _ _ _ _ _ _ _ _ h
    · exact realWriteInode_fst _ _ _ _ _ _ _ h

theorem readVector_nil (io : FileIO) (w : World) :
    readVector io w [] = (-EINVAL, "", { io with mOpManager := [] }, w) := by
  simp [readVector, sync_snd]

theorem readVector_fst (io : FileIO) (w : World) (intervals : List FileReadData) :
    (readVector io w intervals).1 = if intervals = [] then -EINVAL else 0 := by
  cases intervals with
  | nil => rw [readVector_nil]; rfl
  | cons iv rest => simp [readVector]

/-- C5 (amended): a `write` that returns `-EINVAL` or `-EFBIG` and a `truncate`
rejected with `-EFBIG` for a size beyond the pool's maximum leave the FileIO (op
registry, locker, lock_start, lock_updated) and the world exactly as before; a
`writeSync` that returns `-EINVAL` or `-EFBIG` leaves the lock state unchanged
and makes no call on the pool; a vector read that returns `-EINVAL` (empty
interval list) leaves the lock state and the world unchanged, after it has
synced and removed every registered op: its registry is empty afterwards. -/
theorem usage_errors_keep_state (io : FileIO) (w : World) (buff : List Byte) (offset : Int)
    (blen : Nat) (copyBuffer : Bool) (newSize currentSize0 : Nat)
    (intervals : List FileReadData) :
    (∀ r, write io w buff offset blen copyBuffer = some r → (r.1 = -EINVAL ∨ r.1 = -EFBIG) →
      r.2.1 = io ∧ r.2.2 = w) ∧
    (newSize > io.mPool.size → truncate io w newSize currentSize0 = some (-EFBIG, io, w)) ∧
    (∀ r, writeSync io w buff offset blen = some r → (r.1 = -EINVAL ∨ r.1 = -EFBIG) →
      r.2.1.mLocker = io.mLocker ∧ r.2.1.mLockStart = io.mLockStart ∧
      r.2.1.mLockUpdated = io.mLockUpdated ∧ r.2.2.trace = w.trace ∧
      r.2.2.objects = w.objects ∧ r.2.2.lockHeld = w.lockHeld) ∧
    (((readVector io w intervals).1 = -EINVAL ∨ (readVector io w intervals).1 = -EFBIG) →
      (readVector io w intervals).2.2.1 = { io with mOpManager := [] } ∧
      (readVector io w intervals).2.2.2 = w) := by
  have hE : ∀ x : Int, x = 0 → ¬ (x = -EINVAL ∨ x = -EFBIG) := by
    intro x hx h
    subst hx
    rcases h with h | h
    · exact absurd h (by decide)
    · exact absurd h (by decide)
  refine ⟨fun r hr hret => ?_, fun hbig => ?_, fun r hr hret => ?_, fun hret => ?_⟩
  · by_cases hv : verifyWriteParams io offset blen ≠ 0
    · rw [write_of_invalid io w buff offset blen copyBuffer hv] at hr
      cases hr
      exact ⟨rfl, rfl⟩
    · exfalso
      unfold write at hr
      rw [if_neg hv] at hr
      simp only at hr
      split at hr
      · cases hr
      · cases hr
        exact hE _ rfl hret
  · simp [truncate, hbig]
  · have hvio : ∀ m, verifyWriteParams { io with mOpManager := m } offset blen
        = verifyWriteParams io offset blen := fun _ => rfl
    unfold writeSync at hr
    simp only [hvio] at hr
    by_cases hv : verifyWriteParams io offset blen ≠ 0
    · rw [if_pos hv] at hr
      cases hr
      exact ⟨rfl, rfl, rfl, rfl, rfl, rfl⟩
    · exfalso
      rw [if_neg hv] at hr
      exact hE _ (realWrite_fst _ _ _ _ _ _ _ _ hr) hret
  · rw [readVector_fst] at hret
    by_cases hi : intervals = []
    · subst hi
      rw [readVector_nil]
      exact ⟨rfl, rfl⟩
    · exfalso
      rw [if_neg hi] at hret
      exact hE _ rfl hret

/-- Witness of `usage_errors_keep_state`: on the example FileIO with one registered
op, a `write` of length 0 returns `-EINVAL` and changes nothing, and a `truncate`
to 101 bytes on the pool of maximum object size 100 returns `-EFBIG` and changes
nothing. -/
theorem usage_errors_keep_state_witness :
    (write demoBusyIO demoWorld [] 0 0 false).map (·.1) = some (-EINVAL) ∧
    (∀ r, write demoBusyIO demoWorld [] 0 0 false = some r → (r.1 = -EINVAL ∨ r.1 = -EFBIG) →
      r.2.1 = demoBusyIO ∧ r.2.2 = demoWorld) ∧
    truncate demoBusyIO demoWorld 101 0 = some (-EFBIG, demoBusyIO, demoWorld) :=
  ⟨by decide,
   (usage_errors_keep_state demoBusyIO demoWorld [] 0 0 false 101 0 []).1,
   (usage_errors_keep_state demoBusyIO demoWorld [] 0 0 false 101 0 []).2.1 (by decide)⟩

/-- C5, counterexample: on the example FileIO with one registered op, a vector
read of an empty interval list returns `-EINVAL` and leaves the registry empty;
and on the example FileIO with an empty registry a `writeSync` of length 0
returns `-EINVAL` and leaves a new op in the registry, which is not ready. -/
theorem usage_errors_counterexample :
    (readVector demoBusyIO demoWorld []).1 = -EINVAL ∧
    (readVector demoBusyIO demoWorld []).2.2.1.mOpManager = [] ∧
    demoBusyIO.mOpManager ≠ [] ∧
    (writeSync demoIO demoWorld [] 0 0).map (fun r => (r.1, r.2.1.mOpManager))
      = some (-EINVAL, [("u", { id := "u", completions := [], ready := false })]) ∧
    demoIO.mOpManager = [] := by
  refine ⟨by decide, by decide, by decide, by decide, by decide⟩

set_option maxRecDepth 100000 in
/-- C6, evaluation at the failing input: after a single-chunk `writeSync` (which
took the shared lock and left a fresh lease), a `truncate`, a two-chunk
`writeSync` and a `remove` submit their chunk operations without any
`lock_exclusive` call: the calls on the pool hold no `Call.lock Cookie.other`, and
the lock this client holds at the pool is none (truncate, remove: the shared
lock was released by `unlockShared`) or the shared one (two-chunk write). -/
theorem exclusive_lock_not_taken :
    ((writeSync demoIO demoWorld [1] 0 1).bind (fun a => truncate a.2.1 a.2.2 0 0)).map
        (fun r => (r.1, r.2.2.trace, r.2.2.lockHeld))
      = some (0,
          [Call.op Target.inode ObjOp.updateTime,
           Call.lock Cookie.write 0,
           Call.op Target.inode (ObjOp.setSizeIfBigger 1 none),
           Call.op (Target.chunk 0) (ObjOp.write 0 [1]),
           Call.op Target.inode ObjOp.updateTime,
           Call.unlock Cookie.write,
           Call.query Target.inode Query.sizeXAttr,
           Call.op Target.inode (ObjOp.setSize 0 none),
           Call.op (Target.chunk 0) (ObjOp.truncate 0)],
          none) ∧
    ((writeSync demoIO demoWorld [1] 0 1).bind
        (fun a => writeSync a.2.1 a.2.2 [1, 2, 3, 4, 5] 0 5)).map
        (fun r => (r.1, r.2.2.trace, r.2.2.lockHeld))
      = some (0,
          [Call.op Target.inode ObjOp.updateTime,
           Call.lock Cookie.write 0,
           Call.op Target.inode (ObjOp.setSizeIfBigger 1 none),
           Call.op (Target.chunk 0) (ObjOp.write 0 [1]),
           Call.op Target.inode ObjOp.updateTime,
           Call.op Target.inode (ObjOp.setSizeIfBigger 5 none),
           Call.op (Target.chunk 0) (ObjOp.write 0 [1, 2, 3, 4]),
           Call.op (Target.chunk 1) (ObjOp.write 0 [5])],
          some Cookie.write) ∧
    ((writeSync demoIO demoWorld [1] 0 1).map (fun a => remove a.2.1 a.2.2)).map
        (fun r => (r.1, r.2.2.trace, r.2.2.lockHeld))
      = some (0,
          [Call.op Target.inode ObjOp.updateTime,
           Call.lock Cookie.write 0,
           Call.op Target.inode (ObjOp.setSizeIfBigger 1 none),
           Call.op (Target.chunk 0) (ObjOp.write 0 [1]),
           Call.unlock Cookie.write,
           Call.query Target.inode Query.sizeXAttr,
           Call.op (Target.chunk 0) ObjOp.remove],
          none) := by
  refine ⟨by decide, by decide, by decide⟩

theorem Continues.refl (t : List Call) : Continues t t := ⟨[], by simp⟩

theorem Continues.trans {a b c : List Call} (h1 : Continues a b) (h2 : Continues b c) :
    Continues a c := by
  obtain ⟨n1, rfl⟩ := h1
  obtain ⟨n2, rfl⟩ := h2
  exact ⟨n1 ++ n2, by simp⟩

theorem Continues.mem {a b : List Call} (h : Continues a b) {c : Call} (hc : c ∈ a) : c ∈ b := by
  obtain ⟨n, rfl⟩ := h
  exact List.mem_append_left _ hc

theorem lockShared_trace (io : FileIO) (w : World) (uuid : String) :
    Continues w.trace (lockShared io w uuid).2.trace := by
  unfold lockShared
  dsimp only
  split_ifs
  · exact Continues.refl _
  · exact ⟨[Call.lock Cookie.write (w.busy w.locks)], rfl⟩

theorem lockExclusive_trace (io : FileIO) (w : World) (uuid : String) :
    Continues w.trace (lockExclusive io w uuid).2.trace := by
  unfold lockExclusive
  dsimp only
  split_ifs
  · exact Continues.refl _
  · exact ⟨[Call.lock Cookie.other (w.busy w.locks)], rfl⟩

theorem operate_trace (io : FileIO) (w : World) (t : Target) (o : ObjOp) :
    (operate io w t o).2.trace = w.trace ++ [Call.op t o] := rfl

theorem setAligned_trace (io : FileIO) (w : World) (chunk offset : Nat) (nc : List Byte)
    (ae : Bool) (b : ObjOp × World)
    (h : setAlignedChunkWriteOp io w chunk offset nc ae = some b) :
    b.2.trace = w.trace ++ [Call.query (Target.chunk chunk) Query.alignedRead] := by
  unfold setAlignedChunkWriteOp at h
  dsimp only at h
  split_ifs at h <;> cases h <;> rfl

theorem realWriteLoop_trace (opId : String) (buff : List Byte) (blen firstChunk totalChunks : Nat) :
    ∀ (n i cur btw : Nat) (io : FileIO) (w : World) (r : FileIO × World),
      realWriteLoop opId buff blen firstChunk totalChunks n i cur btw io w = some r →
      Continues w.trace r.2.trace := by
  intro n
  induction n with
  | zero =>
      intro i cur btw io w r h
      simp only [realWriteLoop] at h
      cases h
      exact Continues.refl _
  | succ n ih =>
      intro i cur btw io w r h
      simp only [realWriteLoop] at h
      have hl : Continues w.trace
          (if totalChunks > 1 then lockExclusive io w opId else lockShared io w opId).2.trace := by
        split
        · exact lockExclusive_trace _ _ _
        · exact lockShared_trace _ _ _
      split at h
      · cases h
      · rename_i b hb
        have h3 := ih _ _ _ _ _ _ h
        rw [operate_trace] at h3
        refine Continues.trans hl (Continues.trans ?_ (Continues.trans ⟨_, rfl⟩ h3))
        split at hb
        · rw [setAligned_trace _ _ _ _ _ _ _ hb]
          exact ⟨_, rfl⟩
        · cases hb
          exact Continues.refl _


theorem uadd_of_lt (a b : Nat) (h : a + b < 2 ^ 64) : uadd a b = a + b := by
  unfold uadd word64
  exact Nat.mod_eq_of_lt (by omega)

theorem usub_of_le (a b : Nat) (h : b ≤ a) (ha : a < 2 ^ 64) : usub a b = a - b := by
  unfold usub word64
  have ha' : a < 18446744073709551616 := by omega
  rw [Nat.mod_eq_of_lt ha', Nat.mod_eq_of_lt (lt_of_le_of_lt h ha'), if_pos h]

theorem realWriteInode_submits (io : FileIO) (w : World) (buff : List Byte) (offset blen : Nat)
    (opId : String) (r : Int × FileIO × World)
    (h : realWriteInode io w buff offset blen opId = some r) :
    ∃ bl, Call.op Target.inode (ObjOp.setSizeIfBigger (uadd offset blen) bl) ∈ r.2.2.trace := by
  unfold realWriteInode at h
  dsimp only at h
  split at h
  · cases h
  · rename_i x hx
    cases h
    have hc := realWriteLoop_trace _ _ _ _ _ _ _ _ _ _ _ _ hx
    have hs : ∀ (io' : FileIO) (w' : World) (n : Nat),
        ∃ bl, Call.op Target.inode (ObjOp.setSizeIfBigger n bl)
          ∈ (setSizeIfBigger io' w' n opId).2.trace := by
      intro io' w' n
      refine ⟨(if !(io'.mPath = "") && shouldSetBacklink io' then some io'.mPath else none), ?_⟩
      unfold setSizeIfBigger
      dsimp only
      rw [operate_trace]
      exact List.mem_append_right _ (List.mem_singleton.mpr rfl)
    obtain ⟨bl, hbl⟩ := hs _ _ _
    exact ⟨bl, hc.mem hbl⟩

theorem realWrite_submits (io : FileIO) (w : World) (buff : List Byte) (offset blen : Nat)
    (del : Bool) (opId : String) (hlen : 0 < blen) (hsum : offset + blen < 2 ^ 64)
    (hreach : reachesChunks io w offset blen) (r : Int × FileIO × World)
    (h : realWrite io w buff offset blen del opId = some r) :
    ∃ bl, Call.op Target.inode (ObjOp.setSizeIfBigger (offset + blen) bl) ∈ r.2.2.trace := by
  have hdirect : ∀ w', realWriteInode io w' buff offset blen opId = some r →
      ∃ bl, Call.op Target.inode (ObjOp.setSizeIfBigger (offset + blen) bl) ∈ r.2.2.trace := by
    intro w' h'
    have := realWriteInode_submits _ _ _ _ _ _ _ h'
    rwa [uadd_of_lt _ _ hsum] at this
  unfold realWrite at h
  unfold reachesChunks at hreach
  cases hib : io.mInlineBuffer with
  | none =>
      rw [hib] at h
      exact hdirect _ h
  | some ib =>
      rw [hib] at h hreach
      dsimp only at h hreach
      by_cases hcap : ib.capacity > 0
      · rw [if_pos hcap] at h
        have hf : w.inlineFault = none ∧ ib.capacity < offset + blen := by
          rcases hreach with h0 | h1
          · omega
          · exact h1
        by_cases hoff : offset < ib.capacity
        · rw [if_pos hoff] at h
          have hw : inlineWrite ib w buff offset blen =
              (((min blen (ib.capacity - offset) : Nat) : Int),
               { w with inlineEntry := some (writeAt (w.inlineEntry.getD []) offset
                                              (buff.take (min blen (ib.capacity - offset)))),
                        trace := w.trace ++ [Call.inlineSet] }) := by
            unfold inlineWrite
            rw [hf.1]
          rw [hw] at h
          dsimp only at h
          have hmin : min blen (ib.capacity - offset) = ib.capacity - offset := by omega
          rw [hmin] at h
          have hts : toSizeT ((ib.capacity - offset : Nat) : Int) = ib.capacity - offset := by
            rw [toSizeT_of_nonneg _ (by omega) (by omega)]
            simp
          rw [hts] at h
          unfold realWriteAfterInline at h
          rw [if_neg (by omega)] at h
          have hsub : usub blen (ib.capacity - offset) = blen - (ib.capacity - offset) :=
            usub_of_le _ _ (by omega) (by omega)
          rw [hsub, if_neg (by omega), uadd_of_lt _ _ (by omega)] at h
          have := realWriteInode_submits _ _ _ _ _ _ _ h
          rw [uadd_of_lt _ _ (by omega)] at this
          have e : offset + (ib.capacity - offset) + (blen - (ib.capacity - offset)) = offset + blen := by
            omega
          rwa [e] at this
        · rw [if_neg hoff] at h
          have hw : fillRemainingInlineBuffer ib w =
              (0, { w with inlineEntry := some (truncateTo (w.inlineEntry.getD [])
                                     (max ib.capacity (w.inlineEntry.getD []).length)),
                           trace := w.trace ++ [Call.inlineSet] }) := by
            unfold fillRemainingInlineBuffer
            rw [hf.1]
          rw [hw] at h
          dsimp only at h
          unfold realWriteAfterInline at h
          rw [if_neg (by omega)] at h
          have hsub : usub blen 0 = blen := by
            rw [usub_of_le _ _ (by omega) (by omega)]; rfl
          have hadd : uadd offset 0 = offset := by
            rw [uadd_of_lt _ _ (by omega)]; rfl
          rw [hsub, if_neg (by omega), hadd] at h
          exact hdirect _ h
      · rw [if_neg hcap] at h
        exact hdirect _ h

theorem storedSize_setSizeIfBigger (o : Option Obj) (n : Nat) (bl : Option String) :
    storedSize (applyOp o (ObjOp.setSizeIfBigger n bl)).1 = max (storedSize o) n := by
  unfold applyOp storedSize
  cases h : o.bind (·.size) with
  | none => simp
  | some cur =>
      dsimp only
      by_cases hc : n > cur
      · rw [if_pos hc]
        simp
        omega
      · rw [if_neg hc, h]
        simp
        omega

theorem storedSize_applySizeUpdates (sizes : List Nat) :
    ∀ o : Option Obj, storedSize (applySizeUpdates o sizes) = max (storedSize o) (sizes.foldr max 0) := by
  induction sizes with
  | nil => intro o; simp [applySizeUpdates]
  | cons n ns ih =>
      intro o
      have := ih (applyOp o (ObjOp.setSizeIfBigger n none)).1
      unfold applySizeUpdates at this ⊢
      rw [List.foldl_cons, this, storedSize_setSizeIfBigger, List.foldr_cons]
      omega

theorem foldr_max_perm {l l' : List Nat} (h : l'.Perm l) : l'.foldr max 0 = l.foldr max 0 := by
  induction h with
  | nil => rfl
  | cons x _ ih => simp [ih]
  | swap x y l => simp only [List.foldr_cons]; omega
  | trans _ _ ih1 ih2 => rw [ih1, ih2]


set_option maxRecDepth 100000 in
/-- C7, counterexample: on a fresh file with an inline buffer of capacity 16, a
`writeSync` of 5 bytes at offset 0 returns 0 and makes one call, the inline
buffer write; no size update is submitted, the inode object does not exist and
`getSize` returns 0, not 5. -/
theorem size_updates_counterexample :
    (writeSync demoInlineIO demoWorld [104, 101, 108, 108, 111] 0 5).map
        (fun r => (r.1, r.2.2.trace, r.2.2.objects "ino", (getSize r.2.1 r.2.2).1))
      = some (0, [Call.inlineSet], none, 0) := by
  decide

theorem chunkOps_append (a b : List Call) : chunkOps (a ++ b) = chunkOps a ++ chunkOps b := by
  induction a with
  | nil => rfl
  | cons c rest ih =>
      cases c with
      | op t o =>
          cases t with
          | inode => simpa [chunkOps] using ih
          | chunk i => simp [chunkOps, ih]
      | query t q => simpa [chunkOps] using ih
      | lock c n => simpa [chunkOps] using ih
      | unlock c => simpa [chunkOps] using ih
      | inlineSet => simpa [chunkOps] using ih

theorem lockExclusive_new (io : FileIO) (w : World) (uuid : String) :
    ∃ new, (lockExclusive io w uuid).2.trace = w.trace ++ new ∧ chunkOps new = [] := by
  unfold lockExclusive
  dsimp only
  split_ifs
  · exact ⟨[], by simp [World.now], rfl⟩
  · exact ⟨[Call.lock Cookie.other (w.busy w.locks)], rfl, rfl⟩

theorem lockShared_new (io : FileIO) (w : World) (uuid : String) :
    ∃ new, (lockShared io w uuid).2.trace = w.trace ++ new ∧ chunkOps new = [] := by
  unfold lockShared
  dsimp only
  split_ifs
  · exact ⟨[], by simp [World.now], rfl⟩
  · exact ⟨[Call.lock Cookie.write (w.busy w.locks)], rfl, rfl⟩

theorem lockExclusive_objects (io : FileIO) (w : World) (uuid : String) :
    (lockExclusive io w uuid).2.objects = w.objects := by
  unfold lockExclusive
  dsimp only
  split_ifs <;> rfl

theorem lockShared_objects (io : FileIO) (w : World) (uuid : String) :
    (lockShared io w uuid).2.objects = w.objects := by
  unfold lockShared
  dsimp only
  split_ifs <;> rfl

theorem lockExclusive_frame (io : FileIO) (w : World) (uuid : String) :
    (lockExclusive io w uuid).1.mPool = io.mPool ∧
    (lockExclusive io w uuid).1.mInode = io.mInode ∧
    (lockExclusive io w uuid).1.mChunkSize = io.mChunkSize ∧
    (lockExclusive io w uuid).1.chunkName = io.chunkName ∧
    (lockExclusive io w uuid).1.mInlineBuffer = io.mInlineBuffer ∧
    (lockExclusive io w uuid).1.mOpManager = io.mOpManager ∧
    (lockExclusive io w uuid).1.mPath = io.mPath ∧
    (lockExclusive io w uuid).1.mHasBackLink = io.mHasBackLink := by
  unfold lockExclusive keepLock
  dsimp only
  split_ifs <;> exact ⟨rfl, rfl, rfl, rfl, rfl, rfl, rfl, rfl⟩

theorem lockShared_frame (io : FileIO) (w : World) (uuid : String) :
    (lockShared io w uuid).1.mPool = io.mPool ∧
    (lockShared io w uuid).1.mInode = io.mInode ∧
    (lockShared io w uuid).1.mChunkSize = io.mChunkSize ∧
    (lockShared io w uuid).1.chunkName = io.chunkName ∧
    (lockShared io w uuid).1.mInlineBuffer = io.mInlineBuffer ∧
    (lockShared io w uuid).1.mOpManager = io.mOpManager ∧
    (lockShared io w uuid).1.mPath = io.mPath ∧
    (lockShared io w uuid).1.mHasBackLink = io.mHasBackLink := by
  unfold lockShared keepLock
  dsimp only
  split_ifs <;> exact ⟨rfl, rfl, rfl, rfl, rfl, rfl, rfl, rfl⟩

theorem setAligned_op (io : FileIO) (w : World) (chunk offset : Nat) (nc : List Byte)
    (ae : Bool) (b : ObjOp × World)
    (h : setAlignedChunkWriteOp io w chunk offset nc ae = some b) :
    ∃ xattr contents, b.1 = ObjOp.alignedWrite xattr contents ae := by
  unfold setAlignedChunkWriteOp at h
  dsimp only at h
  split_ifs at h <;> cases h <;> exact ⟨_, _, rfl⟩

theorem truncateLoop_trace (opId : String) (newLastChunk newLastChunkSize : Nat) :
    ∀ (n : Nat) (io : FileIO) (w : World) (r : FileIO × World),
      truncateLoop opId newLastChunk newLastChunkSize n io w = some r →
      ∃ new last, r.2.trace = w.trace ++ new ∧ IsTruncateOp newLastChunkSize last ∧
        chunkOps new = truncateLoopOps newLastChunk last n := by
  intro n
  induction n with
  | zero =>
      intro io w r h
      simp only [truncateLoop] at h
      cases h
      exact ⟨[], ObjOp.truncate newLastChunkSize, by simp, Or.inl rfl, rfl⟩
  | succ i ih =>
      intro io w r h
      simp only [truncateLoop] at h
      obtain ⟨lnew, hl, hlops⟩ := lockExclusive_new io w opId
      split at h
      · cases h
      · rename_i b hb
        obtain ⟨new, last, hnew, hlast, hops⟩ := ih _ _ _ h
        rw [operate_trace] at hnew
        by_cases hi : i = 0
        · subst hi
          rw [if_pos rfl] at hb
          have hb2 : ∃ bnew, b.2.trace = (lockExclusive io w opId).2.trace ++ bnew ∧
              chunkOps bnew = [] ∧ IsTruncateOp newLastChunkSize b.1 := by
            split_ifs at hb
            · obtain ⟨x, c, hx⟩ := setAligned_op _ _ _ _ _ _ _ hb
              exact ⟨_, setAligned_trace _ _ _ _ _ _ _ hb, rfl, Or.inr ⟨x, c, hx⟩⟩
            · cases hb
              exact ⟨[], by simp, rfl, Or.inl rfl⟩
          obtain ⟨bnew, hbt, hbops, hbop⟩ := hb2
          refine ⟨lnew ++ bnew ++ [Call.op (Target.chunk (uadd newLastChunk 0)) b.1] ++ new, b.1,
            ?_, hbop, ?_⟩
          · rw [hnew, hbt, hl]
            simp
          · simp only [chunkOps_append, hlops, hbops, hops, truncateLoopOps]
            simp [chunkOps]
        · rw [if_neg hi] at hb
          cases hb
          refine ⟨lnew ++ [Call.op (Target.chunk (uadd newLastChunk i)) ObjOp.remove] ++ new, last,
            ?_, hlast, ?_⟩
          · rw [hnew, hl]
            simp
          · simp only [chunkOps_append, hlops, hops, truncateLoopOps, if_neg hi]
            simp [chunkOps]

theorem setAligned_some (io : FileIO) (w : World) (chunk offset : Nat) (nc : List Byte)
    (ae : Bool)
    (hdata : ∀ o, w.objects (io.chunkName chunk) = some o →
      o.data = [] ∨ io.mChunkSize ≤ o.data.length)
    (hoff : offset + nc.length ≤ io.mChunkSize) :
    ∃ contents, setAlignedChunkWriteOp io w chunk offset nc ae =
      some (ObjOp.alignedWrite ((w.objects (io.chunkName chunk)).bind (·.size)) contents ae,
            w.log (Call.query (Target.chunk chunk) Query.alignedRead)) := by
  unfold setAlignedChunkWriteOp
  dsimp only
  have hlen : ¬ offset >
      (if (readAt ((Option.map (·.data) (w.objects (io.chunkName chunk))).getD []) 0
            io.mChunkSize).length > 0
       then readAt ((Option.map (·.data) (w.objects (io.chunkName chunk))).getD []) 0 io.mChunkSize
       else if nc.length ≠ io.mChunkSize then List.replicate io.mChunkSize (0 : Byte)
       else []).length := by
    cases hobj : w.objects (io.chunkName chunk) with
    | none =>
        simp only [Option.map_none', Option.getD_none, readAt, List.drop_nil, List.take_nil,
          List.length_nil, gt_iff_lt, lt_self_iff_false, if_false]
        split_ifs with h1
        · simp; omega
        · simp; omega
    | some o =>
        rcases hdata o hobj with h0 | hge
        · simp only [Option.map_some', Option.getD_some, h0, readAt, List.drop_nil, List.take_nil,
            List.length_nil, gt_iff_lt, lt_self_iff_false, if_false]
          split_ifs with h1
          · simp; omega
          · simp; omega
        · simp only [Option.map_some', Option.getD_some, readAt, List.drop_zero, List.length_take]
          have : min io.mChunkSize o.data.length = io.mChunkSize := by omega
          rw [this]
          split_ifs with h1
          · simp; omega
          · omega
          · simp; omega
  rw [if_neg hlen]
  exact ⟨_, rfl⟩

theorem uadd_of_le (a b : Nat) (h : a + b < 2 ^ 64) : uadd a b = a + b := uadd_of_lt a b h

theorem truncateLoop_some (opId : String) (newLastChunk tail N cs : Nat) (pool : Pool)
    (ino : String) (cn : Nat → String)
    (htail : tail < cs)
    (hinj : ∀ i j, cn i = cn j → i = j) (hino : ∀ i, cn i = ino → i = 0) :
    ∀ (n : Nat) (io : FileIO) (w : World),
      io.mChunkSize = cs → io.mPool = pool → io.mInode = ino → io.chunkName = cn →
      newLastChunk + n ≤ 2 ^ 64 →
      (w.objects ino).bind (·.size) = some N →
      (pool.hasAlignment = true → ∀ o, w.objects (cn newLastChunk) = some o →
        o.data = [] ∨ cs ≤ o.data.length) →
      ∃ r, truncateLoop opId newLastChunk tail n io w = some r ∧
        (r.2.objects ino).bind (·.size) = some N ∧ r.1.mInode = ino := by
  intro n
  induction n with
  | zero =>
      intro io w _ _ e3 _ _ hsize _
      exact ⟨(io, w), rfl, hsize, e3⟩
  | succ i ih =>
      intro io w e1 e2 e3 e4 hwrap hsize halign
      obtain ⟨f1, f2, f3, f4, -⟩ := lockExclusive_frame io w opId
      have hobj := lockExclusive_objects io w opId
      have hk : uadd newLastChunk i = newLastChunk + i := uadd_of_lt _ _ (by omega)
      simp only [truncateLoop]
      by_cases hi : i = 0
      · subst hi
        rw [if_pos rfl, hk, Nat.add_zero]
        by_cases hal : io.mPool.hasAlignment = true
        · rw [if_pos hal]
          have hd : ∀ o, (lockExclusive io w opId).2.objects
              ((lockExclusive io w opId).1.chunkName newLastChunk) = some o →
              o.data = [] ∨ (lockExclusive io w opId).1.mChunkSize ≤ o.data.length := by
            rw [hobj, f4, f3, e4, e1]
            exact halign (e2 ▸ hal)
          have ho : tail + (List.replicate (io.mChunkSize - tail) (0 : Byte)).length
              ≤ (lockExclusive io w opId).1.mChunkSize := by
            rw [f3, e1, List.length_replicate]
            omega
          obtain ⟨contents, hc⟩ := setAligned_some (lockExclusive io w opId).1
            (lockExclusive io w opId).2 newLastChunk tail _ true hd ho
          rw [hc]
          refine ⟨_, rfl, ?_, f2.trans e3⟩
          simp only [truncateLoop, operate, objName, World.log, applyOp, f4, e4, hobj]
          by_cases hn : ino = cn newLastChunk
          · rw [if_pos hn]
            show (w.objects (cn newLastChunk)).bind (·.size) = some N
            rw [← hn]
            exact hsize
          · rw [if_neg hn]
            exact hsize
        · rw [if_neg hal]
          refine ⟨_, rfl, ?_, f2.trans e3⟩
          simp only [truncateLoop, operate, objName, f4, e4, hobj]
          by_cases hn : ino = cn newLastChunk
          · rw [if_pos hn, ← hn]
            cases hx : w.objects ino with
            | none => rw [hx] at hsize; cases hsize
            | some x =>
                rw [hx] at hsize
                simpa [applyOp] using hsize
          · rw [if_neg hn]
            exact hsize
      · rw [if_neg hi, hk]
        have hne0 : ino ≠ cn (newLastChunk + i) := by
          intro h
          have := hino _ h.symm
          omega
        have hnel : cn newLastChunk ≠ cn (newLastChunk + i) := by
          intro h
          have := hinj _ _ h
          omega
        apply ih
        · exact f3.trans e1
        · exact f1.trans e2
        · exact f2.trans e3
        · exact f4.trans e4
        · omega
        · simp only [operate, objName, f4, e4, hobj]
          rw [if_neg hne0]
          exact hsize
        · intro hal o ho
          simp only [operate, objName, f4, e4, hobj] at ho
          rw [if_neg hnel] at ho
          exact halign hal o ho

theorem toSSizeT_of_lt (n : Nat) (h : n < 2 ^ 63) : toSSizeT n = (n : Int) := by
  unfold toSSizeT word64
  have : n % 18446744073709551616 = n := Nat.mod_eq_of_lt (by omega)
  rw [this, if_pos (by omega)]

theorem toSizeT_natCast (n : Nat) (h : n < 2 ^ 64) : toSizeT (n : Int) = n := by
  rw [toSizeT_of_nonneg _ (by omega) (by omega)]
  simp

theorem getLast_none (io : FileIO) (w : World) (h : w.objects io.mInode = none) :
    getLastChunkIndexAndSize io w
      = (-ENOENT, none, w.log (Call.query Target.inode Query.sizeXAttr)) := by
  unfold getLastChunkIndexAndSize
  rw [h]

theorem getLast_nosize (io : FileIO) (w : World) (o : Obj) (h : w.objects io.mInode = some o)
    (hs : o.size = none) :
    getLastChunkIndexAndSize io w
      = (-ENODATA, none, w.log (Call.query Target.inode Query.sizeXAttr)) := by
  unfold getLastChunkIndexAndSize
  rw [h]
  dsimp only
  rw [hs]

theorem getLast_size (io : FileIO) (w : World) (o : Obj) (S : Nat)
    (h : w.objects io.mInode = some o) (hs : o.size = some S) (hS : S < 2 ^ 63) :
    getLastChunkIndexAndSize io w
      = ((((if S > 0 then (S - 1) / io.mChunkSize else 0 : Nat)) : Int), some S,
         w.log (Call.query Target.inode Query.sizeXAttr)) := by
  unfold getLastChunkIndexAndSize
  rw [h]
  dsimp only
  rw [hs]
  dsimp only
  rw [toSSizeT_of_lt S hS, toSizeT_natCast S (by omega)]
  by_cases h0 : S > 0
  · have h1 : ((S : Int) > 0) := by omega
    rw [if_pos h1, if_pos h0]
    have h2 : ((S : Int) - 1) = ((S - 1 : Nat) : Int) := by omega
    rw [h2, toSizeT_natCast _ (by omega)]
    have h3 : (S - 1) / io.mChunkSize ≤ S - 1 := Nat.div_le_self _ _
    rw [toSSizeT_of_lt _ (by omega)]
  · have h1 : ¬ ((S : Int) > 0) := by omega
    rw [if_neg h1, if_neg h0]
    have : S = 0 := by omega
    subst this
    rfl

theorem truncateNewLastChunk_eq (io : FileIO) (N : Nat) (hcs : 0 < io.mChunkSize) :
    truncateNewLastChunk io N = if N = 0 then 0 else (N - 1) / io.mChunkSize := by
  unfold truncateNewLastChunk
  dsimp only
  by_cases h0 : N = 0
  · subst h0
    simp
  · rw [if_neg h0]
    by_cases h1 : (N - 1) / io.mChunkSize = 0 ∧ N > io.mChunkSize
    · exfalso
      have := (Nat.div_eq_zero_iff hcs).mp h1.1
      omega
    · rw [if_neg h1]

theorem truncateRounds_le (t : Nat) : truncateRounds t ≤ 2 ^ 63 := by
  unfold truncateRounds toSSizeT usub word64
  split_ifs <;> omega

theorem truncateRounds_of_pos (t : Nat) (h1 : 0 < t) (h2 : t ≤ 2 ^ 63) : truncateRounds t = t := by
  unfold truncateRounds
  rw [usub_of_le t 1 h1 (by omega), toSSizeT_of_lt _ (by omega)]
  omega

theorem truncateChunks_eq (io : FileIO) (w w' : World) (N junk : Nat) (opId : String) (c : Int)
    (sa : Option Nat) (hq : getLastChunkIndexAndSize io w = (c, sa, w'))
    (hcneg : ¬ (c < 0 ∧ ¬ (c = -ENOENT ∨ c = -ENODATA))) :
    truncateChunks io w N junk opId =
      truncateApply io w' N (sa.getD junk) (if c < 0 then 0 else c) opId := by
  unfold truncateChunks
  rw [hq]
  exact if_neg hcneg

theorem truncateApply_of_loop (io : FileIO) (w : World) (N cur : Nat) (L : Int) (opId : String)
    (r : FileIO × World)
    (h : truncateLoop opId (truncateNewLastChunk io N) (N % io.mChunkSize)
      (truncateRounds (truncateTotalChunks io N cur L))
      { (setSize io w N).2.1 with
          mOpManager := OpsManager.addOperation (setSize io w N).2.1.mOpManager
            { id := opId, completions := [], ready := false } }
      (setSize io w N).2.2 = some r) :
    truncateApply io w N cur L opId =
      some (0, syncAndResetLocker
                 { r.1 with mOpManager := OpsManager.modify r.1.mOpManager opId AsyncOp.setReady }
                 opId,
            r.2) := by
  unfold truncateApply
  rw [h]

theorem setSize_spec (io : FileIO) (w : World) (n : Nat) :
    (setSize io w n).1 = 0 ∧
    (setSize io w n).2.1.mPool = io.mPool ∧
    (setSize io w n).2.1.mInode = io.mInode ∧
    (setSize io w n).2.1.mChunkSize = io.mChunkSize ∧
    (setSize io w n).2.1.chunkName = io.chunkName ∧
    (∃ bl, (setSize io w n).2.2.trace = w.trace ++ [Call.op Target.inode (ObjOp.setSize n bl)]) ∧
    (setSize io w n).2.2.objects = fun name =>
      if name = io.mInode then
        some { data := ((w.objects io.mInode).map (·.data)).getD [], size := some n }
      else w.objects name := by
  unfold setSize
  dsimp only
  refine ⟨rfl, ?_, ?_, ?_, ?_, ⟨_, rfl⟩, rfl⟩ <;> split_ifs <;> rfl

theorem setSize_data (io : FileIO) (w : World) (n : Nat) (name : String) (o : Obj)
    (h : (setSize io w n).2.2.objects name = some o) :
    o.data = [] ∨ ∃ o', w.objects name = some o' ∧ o'.data = o.data := by
  rw [(setSize_spec io w n).2.2.2.2.2.2] at h
  dsimp only at h
  by_cases hn : name = io.mInode
  · rw [if_pos hn] at h
    cases h
    cases hobj : w.objects io.mInode with
    | none => exact Or.inl rfl
    | some o' => exact Or.inr ⟨o', by rw [hn]; exact hobj, rfl⟩
  · rw [if_neg hn] at h
    exact Or.inr ⟨o, h, rfl⟩

theorem truncateChunks_spec (io : FileIO) (w : World) (N junk : Nat) (opId : String)
    (hcs : 0 < io.mChunkSize) (hN : N < 2 ^ 63)
    (hinj : ∀ i j, io.chunkName i = io.chunkName j → i = j)
    (hino : ∀ i, io.chunkName i = io.mInode → i = 0)
    (hsz : ∀ o s, w.objects io.mInode = some o → o.size = some s → s < 2 ^ 63)
    (hal : io.mPool.hasAlignment = true → ∀ k o, w.objects (io.chunkName k) = some o →
      o.data = [] ∨ io.mChunkSize ≤ o.data.length) :
    ∃ r new last, truncateChunks io w N junk opId = some r ∧ r.1 = 0 ∧
      r.2.2.trace = w.trace ++ new ∧ IsTruncateOp (N % io.mChunkSize) last ∧
      chunkOps new = truncateLoopOps (truncateNewLastChunk io N) last
        (truncateRounds (truncateTotalChunks io N
          (((w.objects io.mInode).bind (·.size)).getD junk)
          ((((w.objects io.mInode).bind (·.size)).map (lastChunkOf io.mChunkSize)).getD 0 : Nat))) ∧
      (r.2.2.objects io.mInode).bind (·.size) = some N ∧ r.2.1.mInode = io.mInode := by
  -- what the size query returns
  have hq : ∃ (c : Int),
      getLastChunkIndexAndSize io w
        = (c, (w.objects io.mInode).bind (·.size),
           w.log (Call.query Target.inode Query.sizeXAttr)) ∧
      ¬ (c < 0 ∧ ¬ (c = -ENOENT ∨ c = -ENODATA)) ∧
      (if c < 0 then 0 else c)
        = (((((w.objects io.mInode).bind (·.size)).map (lastChunkOf io.mChunkSize)).getD 0 : Nat) : Int) := by
    cases hobj : w.objects io.mInode with
    | none =>
        refine ⟨-ENOENT, getLast_none io w hobj, ?_, ?_⟩
        · intro h
          exact h.2 (Or.inl rfl)
        · simp [ENOENT]
    | some o =>
        cases hs : o.size with
        | none =>
            refine ⟨-ENODATA, ?_, ?_, ?_⟩
            · rw [getLast_nosize io w o hobj hs]
              simp [hs]
            · intro h
              exact h.2 (Or.inr rfl)
            · simp [hs, ENODATA]
        | some S =>
            refine ⟨(((if S > 0 then (S - 1) / io.mChunkSize else 0 : Nat)) : Int), ?_, ?_, ?_⟩
            · rw [getLast_size io w o S hobj hs (hsz o S hobj hs)]
              simp [hs]
            · intro h
              have := h.1
              omega
            · have e : ((some o).bind fun x => x.size) = some S := hs
              rw [e]
              show (if _ < 0 then 0 else _) = ((lastChunkOf io.mChunkSize S : Nat) : Int)
              unfold lastChunkOf
              rw [if_neg (by omega)]
  obtain ⟨c, hc, hcneg, hlast⟩ := hq
  obtain ⟨s1, s2, s3, s4, s5, ⟨bl, s6⟩, s7⟩ := setSize_spec io
    (w.log (Call.query Target.inode Query.sizeXAttr)) N
  have hlog : (w.log (Call.query Target.inode Query.sizeXAttr)).objects = w.objects := rfl
  have hlogt : (w.log (Call.query Target.inode Query.sizeXAttr)).trace
      = w.trace ++ [Call.query Target.inode Query.sizeXAttr] := rfl
  rw [hlog] at s7
  rw [hlogt] at s6
  have hnl : truncateNewLastChunk io N ≤ N := by
    rw [truncateNewLastChunk_eq io N hcs]
    split_ifs
    · omega
    · exact le_trans (Nat.div_le_self _ _) (Nat.sub_le _ _)
  have hrounds := truncateRounds_le (truncateTotalChunks io N
          (((w.objects io.mInode).bind (·.size)).getD junk)
          ((((w.objects io.mInode).bind (·.size)).map (lastChunkOf io.mChunkSize)).getD 0 : Nat))
  have hwrap : truncateNewLastChunk io N + truncateRounds (truncateTotalChunks io N
          (((w.objects io.mInode).bind (·.size)).getD junk)
          ((((w.objects io.mInode).bind (·.size)).map (lastChunkOf io.mChunkSize)).getD 0 : Nat))
      ≤ 2 ^ 64 :=
    le_trans (Nat.add_le_add (le_trans hnl (Nat.le_of_lt hN)) hrounds) (by norm_num)
  have hex := truncateLoop_some opId (truncateNewLastChunk io N) (N % io.mChunkSize) N
    io.mChunkSize io.mPool io.mInode io.chunkName (Nat.mod_lt _ hcs) hinj hino
    (truncateRounds (truncateTotalChunks io N
          (((w.objects io.mInode).bind (·.size)).getD junk)
          ((((w.objects io.mInode).bind (·.size)).map (lastChunkOf io.mChunkSize)).getD 0 : Nat)))
    { (setSize io (w.log (Call.query Target.inode Query.sizeXAttr)) N).2.1 with
        mOpManager := OpsManager.addOperation
          (setSize io (w.log (Call.query Target.inode Query.sizeXAttr)) N).2.1.mOpManager
          { id := opId, completions := [], ready := false } }
    (setSize io (w.log (Call.query Target.inode Query.sizeXAttr)) N).2.2
    s4 s2 s3 s5 hwrap
    (by rw [s7]; simp)
    (by
      intro hal' o ho
      rcases setSize_data io _ N _ o ho with h0 | ⟨o', ho', hd⟩
      · exact Or.inl h0
      · rw [← hd]
        exact hal hal' _ o' ho')
  obtain ⟨r, hr, hrsize, hrino⟩ := hex
  obtain ⟨new, last, hnew, hlastop, hops⟩ := truncateLoop_trace _ _ _ _ _ _ _ hr
  refine ⟨(0, syncAndResetLocker
                   { r.1 with mOpManager := OpsManager.modify r.1.mOpManager opId AsyncOp.setReady }
                   opId, r.2),
    [Call.query Target.inode Query.sizeXAttr, Call.op Target.inode (ObjOp.setSize N bl)] ++ new,
    last, ?_, rfl, ?_, hlastop, ?_, hrsize, hrino⟩
  · exact (truncateChunks_eq io w _ N junk opId c _ hc hcneg).trans
      ((congrArg (fun L => truncateApply io _ N _ L opId) hlast).trans
        (truncateApply_of_loop io _ N _ _ opId r hr))
  · rw [hnew, s6]
    simp only [List.append_assoc, List.singleton_append, List.cons_append, List.nil_append]
  · have e : chunkOps [Call.query Target.inode Query.sizeXAttr,
        Call.op Target.inode (ObjOp.setSize N bl)] = [] := rfl
    rw [chunkOps_append, hops, e, List.nil_append]

theorem inlineTruncate_new (ib : FileInlineBuffer) (w : World) (n : Nat) :
    (∃ new, (inlineTruncate ib w n).trace = w.trace ++ new ∧ chunkOps new = []) ∧
    (inlineTruncate ib w n).objects = w.objects := by
  unfold inlineTruncate
  split
  · exact ⟨⟨[], by simp, rfl⟩, rfl⟩
  · split_ifs
    · exact ⟨⟨[Call.inlineSet], rfl, rfl⟩, rfl⟩
    · exact ⟨⟨[], by simp, rfl⟩, rfl⟩

theorem truncateNewLastChunk_congr (io io' : FileIO) (N : Nat)
    (h : io'.mChunkSize = io.mChunkSize) :
    truncateNewLastChunk io' N = truncateNewLastChunk io N := by
  unfold truncateNewLastChunk
  rw [h]

theorem truncateTotalChunks_congr (io io' : FileIO) (N cur : Nat) (L : Int)
    (h : io'.mChunkSize = io.mChunkSize) :
    truncateTotalChunks io' N cur L = truncateTotalChunks io N cur L := by
  unfold truncateTotalChunks
  rw [truncateNewLastChunk_congr io io' N h]

theorem truncate_prepare (io : FileIO) (w : World) (N junk : Nat) (hN : ¬ N > io.mPool.size) :
    ∃ (io' : FileIO) (w' : World) (pre : List Call) (opId : String),
      truncate io w N junk = truncateChunks io' w' N junk opId ∧
      io'.mChunkSize = io.mChunkSize ∧ io'.mPool = io.mPool ∧ io'.mInode = io.mInode ∧
      io'.chunkName = io.chunkName ∧
      w'.trace = w.trace ++ pre ∧ chunkOps pre = [] ∧
      w'.objects = fun n =>
        if n = io.mInode then some ((w.objects io.mInode).getD { data := [], size := none })
        else w.objects n := by
  have hw2 : ∀ (l : World), ∃ inew,
      (match io.mInlineBuffer with
        | some ib => inlineTruncate ib l N
        | none => l).trace = l.trace ++ inew ∧ chunkOps inew = [] ∧
      (match io.mInlineBuffer with
        | some ib => inlineTruncate ib l N
        | none => l).objects = l.objects := by
    intro l
    cases io.mInlineBuffer with
    | none => exact ⟨[], by simp, rfl, rfl⟩
    | some ib =>
        obtain ⟨⟨inew, hi, hiops⟩, hio⟩ := inlineTruncate_new ib l N
        exact ⟨inew, hi, hiops, hio⟩
  unfold truncate
  rw [if_neg hN]
  dsimp only
  obtain ⟨f1, f2, f3, f4, -⟩ := lockExclusive_frame
    (unlockShared { io with mOpManager := (OpsManager.sync io.mOpManager true).2 }
      (operate io w Target.inode ObjOp.updateTime).2).2.1
    (unlockShared { io with mOpManager := (OpsManager.sync io.mOpManager true).2 }
      (operate io w Target.inode ObjOp.updateTime).2).2.2.generateUuid.2
    (unlockShared { io with mOpManager := (OpsManager.sync io.mOpManager true).2 }
      (operate io w Target.inode ObjOp.updateTime).2).2.2.generateUuid.1
  obtain ⟨lnew, hl, hlops⟩ := lockExclusive_new
    (unlockShared { io with mOpManager := (OpsManager.sync io.mOpManager true).2 }
      (operate io w Target.inode ObjOp.updateTime).2).2.1
    (unlockShared { io with mOpManager := (OpsManager.sync io.mOpManager true).2 }
      (operate io w Target.inode ObjOp.updateTime).2).2.2.generateUuid.2
    (unlockShared { io with mOpManager := (OpsManager.sync io.mOpManager true).2 }
      (operate io w Target.inode ObjOp.updateTime).2).2.2.generateUuid.1
  have hlo := lockExclusive_objects
    (unlockShared { io with mOpManager := (OpsManager.sync io.mOpManager true).2 }
      (operate io w Target.inode ObjOp.updateTime).2).2.1
    (unlockShared { io with mOpManager := (OpsManager.sync io.mOpManager true).2 }
      (operate io w Target.inode ObjOp.updateTime).2).2.2.generateUuid.2
    (unlockShared { io with mOpManager := (OpsManager.sync io.mOpManager true).2 }
      (operate io w Target.inode ObjOp.updateTime).2).2.2.generateUuid.1
  have hut : (unlockShared { io with mOpManager := (OpsManager.sync io.mOpManager true).2 }
      (operate io w Target.inode ObjOp.updateTime).2).2.2.generateUuid.2.trace
      = w.trace ++ [Call.op Target.inode ObjOp.updateTime, Call.unlock Cookie.write] := by
    unfold unlockShared World.unlock World.generateUuid operate
    dsimp only
    split_ifs <;> simp
  have huo : (unlockShared { io with mOpManager := (OpsManager.sync io.mOpManager true).2 }
      (operate io w Target.inode ObjOp.updateTime).2).2.2.generateUuid.2.objects
      = fun n =>
        if n = io.mInode then some ((w.objects io.mInode).getD { data := [], size := none })
        else w.objects n := by
    unfold unlockShared World.unlock World.generateUuid operate
    dsimp only
    split_ifs <;> rfl
  rw [hut] at hl
  rw [huo] at hlo
  obtain ⟨inew, hi, hiops, hio⟩ := hw2
    (lockExclusive
      (unlockShared { io with mOpManager := (OpsManager.sync io.mOpManager true).2 }
        (operate io w Target.inode ObjOp.updateTime).2).2.1
      (unlockShared { io with mOpManager := (OpsManager.sync io.mOpManager true).2 }
        (operate io w Target.inode ObjOp.updateTime).2).2.2.generateUuid.2
      (unlockShared { io with mOpManager := (OpsManager.sync io.mOpManager true).2 }
        (operate io w Target.inode ObjOp.updateTime).2).2.2.generateUuid.1).2
  refine ⟨_, _, [Call.op Target.inode ObjOp.updateTime, Call.unlock Cookie.write] ++ lnew ++ inew,
    _, rfl, f3.trans rfl, f1.trans rfl, f2.trans rfl, f4.trans rfl, ?_, ?_, ?_⟩
  · refine hi.trans ?_
    rw [hl]
    simp
  · rw [chunkOps_append, chunkOps_append, hlops, hiops]
    rfl
  · exact hio.trans hlo

theorem truncate_spec (io : FileIO) (w : World) (N junk : Nat) (hwf : WellFormed io w)
    (hN : N ≤ io.mPool.size) :
    ∃ r new last, truncate io w N junk = some r ∧ r.1 = 0 ∧
      r.2.2.trace = w.trace ++ new ∧ IsTruncateOp (N % io.mChunkSize) last ∧
      chunkOps new = truncateLoopOps (truncateNewLastChunk io N) last
        (truncateRounds (truncateTotalChunks io N
          (((w.objects io.mInode).bind (·.size)).getD junk)
          ((((w.objects io.mInode).bind (·.size)).map (lastChunkOf io.mChunkSize)).getD 0 : Nat))) ∧
      (r.2.2.objects io.mInode).bind (·.size) = some N ∧ r.2.1.mInode = io.mInode := by
  obtain ⟨io', w', pre, opId, heq, e1, e2, e3, e4, ht, hpre, hobj⟩ :=
    truncate_prepare io w N junk (by omega)
  have hsize : (w'.objects io'.mInode).bind (·.size) = (w.objects io.mInode).bind (·.size) := by
    rw [hobj, e3]
    dsimp only
    rw [if_pos rfl]
    cases w.objects io.mInode <;> rfl
  have hN2 : N < 2 ^ 63 := lt_of_le_of_lt hN hwf.poolSize_lt
  obtain ⟨r, new, last, h1, h2, h3, h4, h5, h6, h7⟩ := truncateChunks_spec io' w' N junk opId
    (by rw [e1]; exact hwf.chunkSize_pos) hN2
    (by rw [e4]; exact hwf.chunkName_inj)
    (by rw [e4, e3]; exact hwf.inode_chunk)
    (by
      intro o s ho hs
      rw [hobj, e3] at ho
      dsimp only at ho
      rw [if_pos rfl] at ho
      cases hw : w.objects io.mInode with
      | none =>
          rw [hw] at ho
          cases ho
          cases hs
      | some o' =>
          rw [hw] at ho
          cases ho
          exact hwf.size_lt o' s hw hs)
    (by
      intro hal k o ho
      rw [e2] at hal
      rw [e1]
      rw [hobj, e4] at ho
      dsimp only at ho
      by_cases hk : io.chunkName k = io.mInode
      · rw [if_pos hk] at ho
        cases hw : w.objects io.mInode with
        | none =>
            rw [hw] at ho
            cases ho
            exact Or.inl rfl
        | some o' =>
            rw [hw] at ho
            cases ho
            exact hwf.aligned hal k o' (by rw [hk]; exact hw)
      · rw [if_neg hk] at ho
        exact hwf.aligned hal k o ho)
  rw [hsize, e1, truncateNewLastChunk_congr io io' N e1, truncateTotalChunks_congr io io' N _ _ e1]
    at h5
  rw [e1] at h4
  rw [e3] at h6 h7
  refine ⟨r, pre ++ new, last, heq.trans h1, h2, ?_, h4, ?_, h6, h7⟩
  · rw [h3, ht, List.append_assoc]
  · rw [chunkOps_append, hpre, List.nil_append, h5]

theorem mem_chunkOps (t : List Call) (i : Nat) (o : ObjOp) :
    Call.op (Target.chunk i) o ∈ t ↔ (i, o) ∈ chunkOps t := by
  induction t with
  | nil => simp [chunkOps]
  | cons c rest ih =>
      cases c with
      | op t o' =>
          cases t with
          | inode => simp [chunkOps, ih]
          | chunk j => simp [chunkOps, ih]
      | query t q => simp [chunkOps, ih]
      | lock c n => simp [chunkOps, ih]
      | unlock c => simp [chunkOps, ih]
      | inlineSet => simp [chunkOps, ih]

theorem truncateLoopOps_mem (nl : Nat) (last : ObjOp) (hnl : nl < 2 ^ 63) :
    ∀ (n : Nat), n ≤ 2 ^ 63 → ∀ p ∈ truncateLoopOps nl last n,
      (p = (nl, last)) ∨ (p.2 = ObjOp.remove ∧ nl < p.1 ∧ p.1 < nl + n) := by
  intro n
  induction n with
  | zero =>
      intro _ p hp
      simp [truncateLoopOps] at hp
  | succ i ih =>
      intro hi p hp
      simp only [truncateLoopOps, List.mem_cons] at hp
      rcases hp with hp | hp
      · have hu : uadd nl i = nl + i := uadd_of_lt nl i (by omega)
        rw [hu] at hp
        by_cases h0 : i = 0
        · subst h0
          left
          rw [hp]
          simp
        · right
          rw [hp, if_neg h0]
          exact ⟨rfl, by show nl < nl + i; omega, by show nl + i < nl + (i + 1); omega⟩
      · rcases ih (by omega) p hp with h | ⟨h1, h2, h3⟩
        · exact Or.inl h
        · exact Or.inr ⟨h1, h2, by omega⟩

theorem truncateLoopOps_succ (nl : Nat) (last : ObjOp) :
    ∀ (n : Nat), nl + n < 2 ^ 64 →
      truncateLoopOps nl last (n + 1) =
        (List.range' (nl + 1) n).reverse.map (fun j => (j, ObjOp.remove)) ++ [(nl, last)] := by
  intro n
  induction n with
  | zero =>
      intro h
      simp [truncateLoopOps, uadd_of_lt nl 0 h]
  | succ i ih =>
      intro h
      have hstep : truncateLoopOps nl last (i + 1 + 1) =
          (uadd nl (i + 1), ObjOp.remove) :: truncateLoopOps nl last (i + 1) := by
        show (uadd nl (i + 1), if i + 1 = 0 then last else ObjOp.remove) :: _ = _
        rw [if_neg (by omega)]
      rw [hstep, ih (by omega), uadd_of_lt nl (i + 1) h, List.range'_concat]
      simp
      omega

theorem demoIO_chunkName_inj : ∀ i j, demoIO.chunkName i = demoIO.chunkName j → i = j := by
  intro i j h
  have hlen : ∀ k, k ≠ 0 → String.length ( demoIO.chunkName k) = k := by
    intro k hk
    show (if k = 0 then "ino" else String.mk (List.replicate k 'c')).length = k
    rw [if_neg hk]
    simp [String.length]
  have hc : ∀ k, k ≠ 0 → demoIO.chunkName k ≠ "ino" := by
    intro k hk he
    have h1 : demoIO.chunkName k = String.mk (List.replicate k 'c') := by
      show (if k = 0 then "ino" else String.mk (List.replicate k 'c')) = _
      rw [if_neg hk]
    rw [h1] at he
    have h2 := congrArg String.data he
    have h3 : ('c' : Char) ∈ List.replicate k 'c' := by
      cases k with
      | zero => exact absurd rfl hk
      | succ m => simp [List.replicate_succ]
    rw [show (String.mk (List.replicate k 'c')).data = List.replicate k 'c' from rfl] at h2
    rw [h2] at h3
    revert h3
    decide
  by_cases hi : i = 0
  · by_cases hj : j = 0
    · rw [hi, hj]
    · exfalso
      rw [hi] at h
      exact hc j hj h.symm
  · by_cases hj : j = 0
    · exfalso
      rw [hj] at h
      exact hc i hi h
    · rw [← hlen i hi, ← hlen j hj, h]

theorem demoIO_inode_chunk : ∀ i, demoIO.chunkName i = demoIO.mInode → i = 0 :=
  fun i h => demoIO_chunkName_inj i 0 h

theorem demo_wellFormed : WellFormed demoIO demoWorld :=
  { chunkSize_pos := by decide
    poolSize_lt := by decide
    chunkName_inj := demoIO_chunkName_inj
    inode_chunk := demoIO_inode_chunk
    size_lt := by
      intro o s ho
      cases ho
    aligned := fun h => absurd h (by decide) }

theorem demoFile_wellFormed : WellFormed demoIO demoFileWorld :=
  { chunkSize_pos := by decide
    poolSize_lt := by decide
    chunkName_inj := demoIO_chunkName_inj
    inode_chunk := demoIO_inode_chunk
    size_lt := by
      intro o s ho hs
      have ho2 : some ({ data := [1, 2, 3, 4], size := some 10 } : Obj) = some o := ho
      cases ho2
      cases hs
      decide
    aligned := fun h => absurd h (by decide) }

/-- C8: for a well-formed state and every `N` up to the pool size, `truncate(N)`
returns 0 and leaves the size attribute of the inode at `N`, whatever it was (so
`getSize` gives `N` afterwards); the index it takes for the new last chunk is
`(N == 0) ? 0 : (N - 1) / CS`, the adjustment `newLastChunk == 0 && newSize >
chunkSize()` never changing it; and every chunk operation it issues that is not
a remove is on that chunk and is the truncate to `N mod CS` (or the aligned
rewrite), with `assert_exists`. -/
theorem truncate_sets_size (io : FileIO) (w : World) (N junk : Nat) (hwf : WellFormed io w)
    (hN : N ≤ io.mPool.size) :
    ∃ r new, truncate io w N junk = some r ∧ r.1 = 0 ∧
      (r.2.2.objects io.mInode).bind (·.size) = some N ∧
      (getSize r.2.1 r.2.2).1 = N ∧
      truncateNewLastChunk io N = (if N = 0 then 0 else (N - 1) / io.mChunkSize) ∧
      r.2.2.trace = w.trace ++ new ∧
      ∀ i o, Call.op (Target.chunk i) o ∈ new → o ≠ ObjOp.remove →
        i = (if N = 0 then 0 else (N - 1) / io.mChunkSize) ∧
        IsTruncateOp (N % io.mChunkSize) o := by
  obtain ⟨r, new, last, h1, h2, h3, h4, h5, h6, h7⟩ := truncate_spec io w N junk hwf hN
  have hN2 : N < 2 ^ 63 := lt_of_le_of_lt hN hwf.poolSize_lt
  have hnl := truncateNewLastChunk_eq io N hwf.chunkSize_pos
  refine ⟨r, new, h1, h2, h6, ?_, hnl, h3, ?_⟩
  · unfold getSize
    dsimp only
    cases hobj : r.2.2.objects io.mInode with
    | none =>
        rw [hobj] at h6
        cases h6
    | some o =>
        rw [hobj] at h6
        have hs : o.size = some N := h6
        rw [getLast_size r.2.1 r.2.2 o N (by rw [h7]; exact hobj) hs hN2]
        rfl
  · intro i o hmem hne
    rw [mem_chunkOps, h5] at hmem
    have hnl2 : truncateNewLastChunk io N < 2 ^ 63 := by
      rw [hnl]
      split_ifs
      · norm_num
      · exact lt_of_le_of_lt (le_trans (Nat.div_le_self _ _) (Nat.sub_le _ _)) hN2
    rcases truncateLoopOps_mem _ last hnl2 _ (truncateRounds_le _) _ hmem with h | ⟨h, -, -⟩
    · cases h
      exact ⟨hnl, h4⟩
    · exact absurd h hne

set_option maxRecDepth 100000 in
theorem truncate_sets_size_witness :
    WellFormed demoIO demoFileWorld ∧ 6 ≤ demoIO.mPool.size ∧
    ∃ r new, truncate demoIO demoFileWorld 6 0 = some r ∧ r.1 = 0 ∧
      (r.2.2.objects demoIO.mInode).bind (·.size) = some 6 ∧
      (getSize r.2.1 r.2.2).1 = 6 ∧
      truncateNewLastChunk demoIO 6 = (if 6 = 0 then 0 else (6 - 1) / demoIO.mChunkSize) ∧
      r.2.2.trace = demoFileWorld.trace ++ new ∧
      ∀ i o, Call.op (Target.chunk i) o ∈ new → o ≠ ObjOp.remove →
        i = (if 6 = 0 then 0 else (6 - 1) / demoIO.mChunkSize) ∧
        IsTruncateOp (6 % demoIO.mChunkSize) o :=
  ⟨demoFile_wellFormed, by decide, truncate_sets_size demoIO demoFileWorld 6 0 demoFile_wellFormed
    (by decide)⟩

/-- C9: for a well-formed state and every `N` up to the pool size, whatever the
current size, `truncate(N)` issues no remove for chunk 0; and when the stored size
`S` is greater than `N` its chunk operations are exactly the removes of the chunks
`last_chunk`, ..., `new_last + 1` (`last_chunk = (S - 1) / CS`, `new_last =
(N == 0) ? 0 : (N - 1) / CS`) followed by the truncate to `N mod CS` (or the
aligned rewrite), with `assert_exists`, of chunk `new_last`. -/
theorem truncate_keeps_base_chunk (io : FileIO) (w : World) (N junk : Nat)
    (hwf : WellFormed io w) (hN : N ≤ io.mPool.size) :
    ∃ r new, truncate io w N junk = some r ∧ r.2.2.trace = w.trace ++ new ∧
      Call.op (Target.chunk 0) ObjOp.remove ∉ new ∧
      ∀ S, (w.objects io.mInode).bind (·.size) = some S → N < S →
        ∃ last, IsTruncateOp (N % io.mChunkSize) last ∧
          chunkOps new =
            (List.range' ((if N = 0 then 0 else (N - 1) / io.mChunkSize) + 1)
                ((S - 1) / io.mChunkSize - (if N = 0 then 0 else (N - 1) / io.mChunkSize))).reverse.map
              (fun j => (j, ObjOp.remove))
            ++ [((if N = 0 then 0 else (N - 1) / io.mChunkSize), last)] := by
  obtain ⟨r, new, last, h1, h2, h3, h4, h5, h6, h7⟩ := truncate_spec io w N junk hwf hN
  have hN2 : N < 2 ^ 63 := lt_of_le_of_lt hN hwf.poolSize_lt
  have hnl := truncateNewLastChunk_eq io N hwf.chunkSize_pos
  have hnl2 : truncateNewLastChunk io N < 2 ^ 63 := by
    rw [hnl]
    split_ifs
    · norm_num
    · exact lt_of_le_of_lt (le_trans (Nat.div_le_self _ _) (Nat.sub_le _ _)) hN2
  refine ⟨r, new, h1, h3, ?_, ?_⟩
  · intro hmem
    rw [mem_chunkOps, h5] at hmem
    rcases truncateLoopOps_mem _ last hnl2 _ (truncateRounds_le _) _ hmem with h | ⟨-, h, -⟩
    · have h8 : last = ObjOp.remove := (congrArg Prod.snd h).symm
      rw [h8] at h4
      rcases h4 with h4 | ⟨x, c, h4⟩
      · cases h4
      · cases h4
    · exact absurd h (Nat.not_lt_zero _)
  · intro S hS hlt
    refine ⟨last, h4, ?_⟩
    have hS2 : S < 2 ^ 63 := by
      cases hobj : w.objects io.mInode with
      | none =>
          rw [hobj] at hS
          cases hS
      | some o =>
          rw [hobj] at hS
          exact hwf.size_lt o S hobj hS
    have hL : (S - 1) / io.mChunkSize ≤ S - 1 := Nat.div_le_self _ _
    have hle : (if N = 0 then 0 else (N - 1) / io.mChunkSize) ≤ (S - 1) / io.mChunkSize := by
      split_ifs
      · exact Nat.zero_le _
      · exact Nat.div_le_div_right (by omega)
    have hlast : lastChunkOf io.mChunkSize S = (S - 1) / io.mChunkSize := by
      unfold lastChunkOf
      rw [if_pos (by omega)]
    have htotal : truncateTotalChunks io N S ((lastChunkOf io.mChunkSize S : Nat) : Int)
        = (S - 1) / io.mChunkSize - (if N = 0 then 0 else (N - 1) / io.mChunkSize) + 1 := by
      unfold truncateTotalChunks
      rw [if_pos hlt, hnl, hlast, toSizeT_natCast _ (by omega),
        usub_of_le _ _ hle (by omega), uadd_of_lt _ _ (by omega)]
    rw [h5, hS]
    show truncateLoopOps (truncateNewLastChunk io N) last
      (truncateRounds (truncateTotalChunks io N S ((lastChunkOf io.mChunkSize S : Nat) : Int))) = _
    rw [htotal, truncateRounds_of_pos _ (by omega) (by omega), hnl]
    exact truncateLoopOps_succ _ last _ (by omega)

set_option maxRecDepth 100000 in
theorem truncate_keeps_base_chunk_witness :
    WellFormed demoIO demoFileWorld ∧ 3 ≤ demoIO.mPool.size ∧
    ∃ r new, truncate demoIO demoFileWorld 3 0 = some r ∧
      r.2.2.trace = demoFileWorld.trace ++ new ∧
      Call.op (Target.chunk 0) ObjOp.remove ∉ new ∧
      ∀ S, (demoFileWorld.objects demoIO.mInode).bind (·.size) = some S → 3 < S →
        ∃ last, IsTruncateOp (3 % demoIO.mChunkSize) last ∧
          chunkOps new =
            (List.range' ((if 3 = 0 then 0 else (3 - 1) / demoIO.mChunkSize) + 1)
                ((S - 1) / demoIO.mChunkSize
                  - (if 3 = 0 then 0 else (3 - 1) / demoIO.mChunkSize))).reverse.map
              (fun j => (j, ObjOp.remove))
            ++ [((if 3 = 0 then 0 else (3 - 1) / demoIO.mChunkSize), last)] :=
  ⟨demoFile_wellFormed, by decide, truncate_keeps_base_chunk demoIO demoFileWorld 3 0
    demoFile_wellFormed (by decide)⟩

theorem removeLoop_trace (opId : String) :
    ∀ (n i : Nat) (io : FileIO) (w : World),
      ∃ new, (removeLoop opId n i io w).2.trace = w.trace ++ new ∧
        chunkOps new = (List.range' i n).map (fun j => (j, ObjOp.remove)) := by
  intro n
  induction n with
  | zero =>
      intro i io w
      exact ⟨[], by simp [removeLoop], rfl⟩
  | succ n ih =>
      intro i io w
      simp only [removeLoop]
      obtain ⟨lnew, hl, hlops⟩ := lockExclusive_new io w opId
      obtain ⟨new, hnew, hops⟩ := ih (i + 1)
        { (lockExclusive io w opId).1 with
            mOpManager := OpsManager.modify (lockExclusive io w opId).1.mOpManager opId
              (·.addCompletion
                (operate (lockExclusive io w opId).1 (lockExclusive io w opId).2 (Target.chunk i)
                  ObjOp.remove).1) }
        (operate (lockExclusive io w opId).1 (lockExclusive io w opId).2 (Target.chunk i)
          ObjOp.remove).2
      rw [operate_trace] at hnew
      refine ⟨lnew ++ [Call.op (Target.chunk i) ObjOp.remove] ++ new, ?_, ?_⟩
      · rw [hnew, hl]
        simp
      · rw [chunkOps_append, chunkOps_append, hlops, hops]
        simp [chunkOps, List.range'_succ]

theorem getLastChunkIndex_congr (io io' : FileIO) (w w' : World)
    (h1 : io'.mInode = io.mInode) (h2 : io'.mChunkSize = io.mChunkSize)
    (h3 : w'.objects = w.objects) :
    (getLastChunkIndex io' w').1 = (getLastChunkIndex io w).1 ∧
    (getLastChunkIndex io' w').2.trace
      = w'.trace ++ [Call.query Target.inode Query.sizeXAttr] := by
  unfold getLastChunkIndex getLastChunkIndexAndSize
  dsimp only
  rw [h1, h2, h3]
  cases w.objects io.mInode with
  | none => exact ⟨rfl, rfl⟩
  | some o =>
      dsimp only
      cases o.size with
      | none => exact ⟨rfl, rfl⟩
      | some s => exact ⟨rfl, rfl⟩

theorem getLastChunkIndex_neg (io : FileIO) (w : World) (hwf : WellFormed io w)
    (h : (getLastChunkIndex io w).1 < 0) :
    (getLastChunkIndex io w).1 = -ENOENT ∨ (getLastChunkIndex io w).1 = -ENODATA := by
  unfold getLastChunkIndex at h ⊢
  dsimp only at h ⊢
  cases hobj : w.objects io.mInode with
  | none =>
      rw [getLast_none io w hobj]
      exact Or.inl rfl
  | some o =>
      cases hs : o.size with
      | none =>
          rw [getLast_nosize io w o hobj hs]
          exact Or.inr rfl
      | some S =>
          rw [getLast_size io w o S hobj hs (hwf.size_lt o S hobj hs)] at h
          dsimp only at h
          omega

theorem remove_prepare (io : FileIO) (w : World) :
    ∃ (io' : FileIO) (w' : World) (pre : List Call) (opId : String),
      remove io w = removeChunks io' w' opId ∧
      io'.mInode = io.mInode ∧ io'.mChunkSize = io.mChunkSize ∧
      w'.objects = w.objects ∧ w'.trace = w.trace ++ pre ∧ chunkOps pre = [] := by
  obtain ⟨f1, f2, f3, f4, -⟩ := lockExclusive_frame
    (unlockShared { io with mOpManager := (OpsManager.sync io.mOpManager true).2 }
      w.generateUuid.2).2.1
    (unlockShared { io with mOpManager := (OpsManager.sync io.mOpManager true).2 }
      w.generateUuid.2).2.2
    w.generateUuid.1
  obtain ⟨lnew, hl, hlops⟩ := lockExclusive_new
    (unlockShared { io with mOpManager := (OpsManager.sync io.mOpManager true).2 }
      w.generateUuid.2).2.1
    (unlockShared { io with mOpManager := (OpsManager.sync io.mOpManager true).2 }
      w.generateUuid.2).2.2
    w.generateUuid.1
  have hlo := lockExclusive_objects
    (unlockShared { io with mOpManager := (OpsManager.sync io.mOpManager true).2 }
      w.generateUuid.2).2.1
    (unlockShared { io with mOpManager := (OpsManager.sync io.mOpManager true).2 }
      w.generateUuid.2).2.2
    w.generateUuid.1
  have hut : (unlockShared { io with mOpManager := (OpsManager.sync io.mOpManager true).2 }
      w.generateUuid.2).2.2.trace = w.trace ++ [Call.unlock Cookie.write] := by
    unfold unlockShared World.unlock World.generateUuid
    dsimp only
    split_ifs <;> rfl
  have huo : (unlockShared { io with mOpManager := (OpsManager.sync io.mOpManager true).2 }
      w.generateUuid.2).2.2.objects = w.objects := by
    unfold unlockShared World.unlock World.generateUuid
    dsimp only
    split_ifs <;> rfl
  rw [hut] at hl
  rw [huo] at hlo
  refine ⟨_, _, [Call.unlock Cookie.write] ++ lnew, w.generateUuid.1, rfl, f2.trans rfl,
    f3.trans rfl, hlo, ?_, ?_⟩
  · rw [hl, List.append_assoc]
  · rw [chunkOps_append, hlops]
    rfl

theorem removeChunks_neg (io : FileIO) (w : World) (opId : String)
    (h : (getLastChunkIndex io w).1 < 0) :
    removeChunks io w opId
      = (ssizeToInt (getLastChunkIndex io w).1, io, (getLastChunkIndex io w).2) := by
  unfold removeChunks
  exact if_pos h

theorem removeChunks_pos (io : FileIO) (w : World) (opId : String)
    (h : ¬ (getLastChunkIndex io w).1 < 0) :
    (removeChunks io w opId).1 = 0 ∧
    (removeChunks io w opId).2.2 =
      (removeLoop opId (toSizeT (getLastChunkIndex io w).1 + 1) 0
        { io with
          mOpManager := OpsManager.addOperation io.mOpManager
            { id := opId, completions := [], ready := false } }
        (getLastChunkIndex io w).2).2 := by
  unfold removeChunks
  dsimp only
  rw [if_neg h]
  exact ⟨rfl, rfl⟩

theorem toSSizeT_lt (n : Nat) : toSSizeT n < 2 ^ 63 := by
  unfold toSSizeT word64
  split_ifs <;> omega

theorem getLastChunkIndex_lt (io : FileIO) (w : World) : (getLastChunkIndex io w).1 < 2 ^ 63 := by
  unfold getLastChunkIndex getLastChunkIndexAndSize
  dsimp only
  cases w.objects io.mInode with
  | none =>
      show (-ENOENT : Int) < 2 ^ 63
      decide
  | some o =>
      dsimp only
      cases o.size with
      | none =>
          show (-ENODATA : Int) < 2 ^ 63
          decide
      | some s =>
          dsimp only
          split_ifs <;> exact toSSizeT_lt _

/-- C10: for a well-formed state, when the size query of `remove()` succeeds with
last chunk index `L`, `remove()` returns 0 and its chunk operations are exactly
`L + 1` removes, of the chunks 0, 1, ..., `L` in this order; when the size query
fails, `remove()` returns its negative code and issues no chunk operation. -/
theorem remove_deletes_every_chunk (io : FileIO) (w : World) (hwf : WellFormed io w) :
    ∃ new, (remove io w).2.2.trace = w.trace ++ new ∧
      (∀ L : Nat, (getLastChunkIndex io w).1 = (L : Int) →
        (remove io w).1 = 0 ∧
        chunkOps new = (List.range (L + 1)).map (fun j => (j, ObjOp.remove))) ∧
      ((getLastChunkIndex io w).1 < 0 →
        (remove io w).1 = (getLastChunkIndex io w).1 ∧ chunkOps new = []) := by
  obtain ⟨io', w', pre, opId, heq, e1, e2, e3, e4, e5⟩ := remove_prepare io w
  obtain ⟨q1, q2⟩ := getLastChunkIndex_congr io io' w w' e1 e2 e3
  rw [heq]
  by_cases hneg : (getLastChunkIndex io w).1 < 0
  · rw [removeChunks_neg io' w' opId (by rw [q1]; exact hneg), q1]
    refine ⟨pre ++ [Call.query Target.inode Query.sizeXAttr], ?_, ?_, ?_⟩
    · show (getLastChunkIndex io' w').2.trace = _
      rw [q2, e4, List.append_assoc]
    · intro L hL
      omega
    · intro _
      refine ⟨?_, ?_⟩
      · show ssizeToInt (getLastChunkIndex io w).1 = _
        rcases getLastChunkIndex_neg io w hwf hneg with h | h
        · rw [h]
          decide
        · rw [h]
          decide
      · rw [chunkOps_append, e5]
        rfl
  · obtain ⟨p1, p2⟩ := removeChunks_pos io' w' opId (by rw [q1]; exact hneg)
    rw [q1] at p2
    obtain ⟨new, hnew, hops⟩ := removeLoop_trace opId (toSizeT (getLastChunkIndex io w).1 + 1) 0
      { io' with
        mOpManager := OpsManager.addOperation io'.mOpManager
          { id := opId, completions := [], ready := false } }
      (getLastChunkIndex io' w').2
    refine ⟨pre ++ [Call.query Target.inode Query.sizeXAttr] ++ new, ?_, ?_, ?_⟩
    · rw [p2]
      refine hnew.trans ?_
      rw [q2, e4]
      simp
    · intro L hL
      refine ⟨p1, ?_⟩
      rw [chunkOps_append, chunkOps_append, e5, hops, hL]
      have hLlt : L < 2 ^ 63 := by
        have hb := getLastChunkIndex_lt io w
        omega
      rw [toSizeT_natCast L (by omega), List.range_eq_range']
      rfl
    · intro h
      exact absurd h hneg

set_option maxRecDepth 100000 in
theorem remove_deletes_every_chunk_witness :
    WellFormed demoIO demoFileWorld ∧
    ∃ new, (remove demoIO demoFileWorld).2.2.trace = demoFileWorld.trace ++ new ∧
      (∀ L : Nat, (getLastChunkIndex demoIO demoFileWorld).1 = (L : Int) →
        (remove demoIO demoFileWorld).1 = 0 ∧
        chunkOps new = (List.range (L + 1)).map (fun j => (j, ObjOp.remove))) ∧
      ((getLastChunkIndex demoIO demoFileWorld).1 < 0 →
        (remove demoIO demoFileWorld).1 = (getLastChunkIndex demoIO demoFileWorld).1 ∧
        chunkOps new = []) :=
  ⟨demoFile_wellFormed, remove_deletes_every_chunk demoIO demoFileWorld demoFile_wellFormed⟩

set_option maxRecDepth 100000 in
/-- C2, evaluation at the failing input: on the example FileIO (chunk size 4), after
a `writeSync` of the 8 bytes 1..8 at offset 0 a `read` of `[0, 4)` returns 4 and
the bytes 1, 2, 3, 4; `truncate(4)` then returns 0, removes chunk 1 and truncates
chunk `new_last = 0` to `4 mod 4 = 0` bytes, which empties the base chunk, and
the same `read` returns 4 and four zero bytes. -/
theorem truncate_loses_last_chunk :
    ((writeSync demoIO demoWorld [1, 2, 3, 4, 5, 6, 7, 8] 0 8).map
        (fun a => ((read a.2.1 a.2.2 0 0 4).1,
                   (List.range 4).map (read a.2.1 a.2.2 0 0 4).2.2.mem)))
      = some (4, [1, 2, 3, 4]) ∧
    ((writeSync demoIO demoWorld [1, 2, 3, 4, 5, 6, 7, 8] 0 8).bind
        (fun a => (truncate a.2.1 a.2.2 4 0).map
          (fun t => (t.1, chunkOps (t.2.2.trace.drop a.2.2.trace.length)))))
      = some (0, [(1, ObjOp.remove), (0, ObjOp.truncate 0)]) ∧
    ((writeSync demoIO demoWorld [1, 2, 3, 4, 5, 6, 7, 8] 0 8).bind
        (fun a => (truncate a.2.1 a.2.2 4 0).map (fun t => t.2.2.objects "ino")))
      = some (some { data := [], size := some 4 }) ∧
    ((writeSync demoIO demoWorld [1, 2, 3, 4, 5, 6, 7, 8] 0 8).bind
        (fun a => (truncate a.2.1 a.2.2 4 0).map
          (fun t => ((read t.2.1 t.2.2 0 0 4).1,
                     (List.range 4).map (read t.2.1 t.2.2 0 0 4).2.2.mem))))
      = some (4, [0, 0, 0, 0]) := by
  refine ⟨by decide, by decide, by decide, by decide⟩

set_option maxRecDepth 100000 in
/-- C3, evaluation at the failing input: on the example FileIO with chunks of
`2^31` bytes, after a `writeSync` of one byte at offset 0 and a `truncate` to
`2^32` bytes (both return 0, and `getSize` gives `2^32`), a `read` of the hole
`[1, 2^32)` returns `2^31 - 1`, not `2^32 - 1`: the `2^31` zero bytes of the
absent chunk 1 reach `addReturnValue(int)` as a negative value and are not
counted. -/
theorem zero_hole_short_count :
    ((writeSync wideIO demoWorld [1] 0 1).bind
        (fun a => (truncate a.2.1 a.2.2 4294967296 0).map
          (fun t => (a.1, t.1, (getSize t.2.1 t.2.2).1, (read t.2.1 t.2.2 0 1 4294967295).1))))
      = some (0, 0, 4294967296, 2147483647) ∧
    toCInt 2147483648 = -2147483648 := by
  refine ⟨by decide, by decide⟩

theorem splitPerChunk_one (cs : Nat) (rd : FileReadDataImp) (ol fuel c lo rem : Nat)
    (hrem : 0 < rem) (hfit : lo + rem ≤ cs) :
    splitPerChunk cs rd ol (fuel + 1) c lo rem [] =
      [(c, [{ rd with opResult := -1, buff := rd.buff + ol - rem, offset := lo, length := rem }])] := by
  have hmin : min (cs - lo) rem = rem := by omega
  cases fuel with
  | zero => simp [splitPerChunk, hrem, hmin, ChunkMap.push]
  | succ n => simp [splitPerChunk, hrem, hmin, ChunkMap.push]

theorem read_one_chunk (io : FileIO) (w : World) (buf offset blen : Nat) (o : Obj)
    (hib : io.mInlineBuffer = none) (hlen : 0 < blen)
    (hfit : offset % io.mChunkSize + blen ≤ io.mChunkSize)
    (hobj : w.objects (io.chunkName (offset / io.mChunkSize)) = some o)
    (hdata : offset % io.mChunkSize + blen ≤ o.data.length) :
    (read io w buf offset blen).1 = toCInt blen ∧
    ∀ a, buf ≤ a → a < buf + blen →
      (read io w buf offset blen).2.2.mem a
        = (readAt o.data (offset % io.mChunkSize) blen).getD (a - buf) 0 := by
  have hne : blen ≠ 0 := by omega
  obtain ⟨n, hn⟩ : ∃ n, blen = n + 1 := ⟨blen - 1, by omega⟩
  have hrl : (readAt o.data (offset % io.mChunkSize) blen).length = blen := by
    simp [readAt]
    omega
  unfold read
  rw [if_neg hne]
  simp only [readVector, sync_snd, List.length_singleton, one_ne_zero, if_false,
    getInlineAndInodeReadData, hib, Option.isSome_none, Bool.false_eq_true, false_and,
    getReadDataPerChunk]
  rw [hn, splitPerChunk_one _ _ _ _ _ _ _ (by omega) (by omega)]
  rw [← hn]
  simp only [readChunks, vectorReadChunk, List.map, hobj, Option.isNone_some, Bool.false_eq_true,
     if_false, onReadCompleted, hrl, hlen, if_true, lt_irrefl, World.log]
  simp only [World.generateUuid, hobj, hrl, lt_irrefl, if_false, addReturnValue, World.memcpy,
    OpsManager.addOperation, OpsManager.modify, OpsManager.syncOp, OpsManager.find,
    AsyncOp.addOverridden, AsyncOp.waitForCompletion, effectiveCode, Option.isNone_some,
    Bool.false_eq_true, List.map, List.find?, if_true, ne_eq, not_true_eq_false,
    decide_True, Option.map_some', List.nil_append, Option.getD_none, List.filter]
  refine ⟨by simp [hlen], ?_⟩
  intro a h1 h2
  have e : buf + blen - blen = buf := by omega
  simp [hlen, e]
  intro h3
  exact absurd (h3 h1) (by omega)

theorem realWriteLoop_single (opId : String) (buff : List Byte) (blen firstChunk i cur btw : Nat)
    (io : FileIO) (w : World) (hal : io.mPool.hasAlignment = false) :
    ∃ r, realWriteLoop opId buff blen firstChunk 1 1 i cur btw io w = some r ∧
      r.1.mChunkSize = io.mChunkSize ∧ r.1.chunkName = io.chunkName ∧
      r.1.mInlineBuffer = io.mInlineBuffer ∧
      r.2.objects (io.chunkName (firstChunk + i)) =
        (applyOp (w.objects (io.chunkName (firstChunk + i)))
          (ObjOp.write cur ((buff.drop (blen - btw)).take (min (io.mChunkSize - cur) btw)))).1 := by
  obtain ⟨f1, f2, f3, f4, f5, -⟩ := lockShared_frame io w opId
  have ho := lockShared_objects io w opId
  simp only [realWriteLoop, lt_irrefl, gt_iff_lt, if_false, hal, Bool.false_eq_true]
  refine ⟨_, rfl, f3, f4, f5, ?_⟩
  simp only [operate, objName, f4, f3, ho, if_true]

theorem div_of_fit (offset blen cs : Nat) (hlen : 0 < blen) (hfit : offset % cs + blen ≤ cs) :
    (offset + blen - 1) / cs = offset / cs := by
  have hdm := Nat.div_add_mod offset cs
  apply Nat.div_eq_of_lt_le
  · rw [Nat.mul_comm]
    omega
  · rw [Nat.succ_mul, Nat.mul_comm]
    omega

theorem realWriteInode_one_chunk (io : FileIO) (w : World) (buff : List Byte)
    (offset blen : Nat) (opId : String) (hal : io.mPool.hasAlignment = false)
    (hlen : 0 < blen) (hb : buff.length = blen) (hlt : offset + blen < 2 ^ 64)
    (hfit : offset % io.mChunkSize + blen ≤ io.mChunkSize) :
    ∃ r x sz, realWriteInode io w buff offset blen opId = some r ∧ r.1 = 0 ∧
      r.2.1.mChunkSize = io.mChunkSize ∧ r.2.1.chunkName = io.chunkName ∧
      r.2.1.mInlineBuffer = io.mInlineBuffer ∧
      r.2.2.objects (io.chunkName (offset / io.mChunkSize))
        = some { data := writeAt x (offset % io.mChunkSize) buff, size := sz } := by
  have htc : uadd (usub (usub (uadd offset blen) 1 / io.mChunkSize) (offset / io.mChunkSize)) 1
      = 1 := by
    rw [uadd_of_lt _ _ hlt, usub_of_le _ _ (by omega) hlt, div_of_fit offset blen _ hlen hfit,
      usub_of_le _ _ (le_refl _) (lt_of_le_of_lt (Nat.div_le_self _ _) (by omega)),
      Nat.sub_self]
    rfl
  unfold realWriteInode
  dsimp only
  rw [htc, if_neg (lt_irrefl 1)]
  obtain ⟨f1, f2, f3, f4, f5, -⟩ := lockShared_frame io
    (operate io w Target.inode ObjOp.updateTime).2 opId
  obtain ⟨r, hr, g1, g2, g3, g4⟩ := realWriteLoop_single opId buff blen (offset / io.mChunkSize) 0
    (offset % io.mChunkSize) blen
    (setSizeIfBigger (lockShared io (operate io w Target.inode ObjOp.updateTime).2 opId).1
      (lockShared io (operate io w Target.inode ObjOp.updateTime).2 opId).2
      (uadd offset blen) opId).1
    (setSizeIfBigger (lockShared io (operate io w Target.inode ObjOp.updateTime).2 opId).1
      (lockShared io (operate io w Target.inode ObjOp.updateTime).2 opId).2
      (uadd offset blen) opId).2
    (hal ▸ congrArg Pool.hasAlignment f1)
  rw [hr]
  have hc : (buff.drop (blen - blen)).take (min (io.mChunkSize - offset % io.mChunkSize) blen)
      = buff := by
    rw [Nat.sub_self, List.drop_zero]
    exact List.take_of_length_le (by omega)
  have e3 : (setSizeIfBigger (lockShared io (operate io w Target.inode ObjOp.updateTime).2 opId).1
      (lockShared io (operate io w Target.inode ObjOp.updateTime).2 opId).2
      (uadd offset blen) opId).1.mChunkSize = io.mChunkSize := f3
  have e4 : (setSizeIfBigger (lockShared io (operate io w Target.inode ObjOp.updateTime).2 opId).1
      (lockShared io (operate io w Target.inode ObjOp.updateTime).2 opId).2
      (uadd offset blen) opId).1.chunkName = io.chunkName := f4
  have e5 : (setSizeIfBigger (lockShared io (operate io w Target.inode ObjOp.updateTime).2 opId).1
      (lockShared io (operate io w Target.inode ObjOp.updateTime).2 opId).2
      (uadd offset blen) opId).1.mInlineBuffer = io.mInlineBuffer := f5
  rw [e3, e4, Nat.add_zero, hc] at g4
  generalize (setSizeIfBigger (lockShared io (operate io w Target.inode ObjOp.updateTime).2 opId).1
      (lockShared io (operate io w Target.inode ObjOp.updateTime).2 opId).2
      (uadd offset blen) opId).2.objects (io.chunkName (offset / io.mChunkSize)) = oo at g4
  exact ⟨_, (oo.map Obj.data).getD [], oo.bind Obj.size, rfl, rfl, g1.trans e3, g2.trans e4,
    g3.trans e5, g4.trans rfl⟩

theorem writeAt_prefix_length (d : List Byte) (off : Nat) :
    ((d ++ List.replicate (off - d.length) (0 : Byte)).take off).length = off := by
  simp
  omega

theorem readAt_writeAt (d : List Byte) (off : Nat) (c : List Byte) :
    readAt (writeAt d off c) off c.length = c := by
  unfold readAt writeAt
  rw [List.append_assoc, List.drop_left' (writeAt_prefix_length d off), List.take_left' rfl]

theorem writeAt_length (d : List Byte) (off : Nat) (c : List Byte) :
    off + c.length ≤ (writeAt d off c).length := by
  unfold writeAt
  rw [List.length_append, List.length_append, writeAt_prefix_length]
  omega

theorem realWrite_of_noInline (io : FileIO) (w : World) (buff : List Byte) (offset blen : Nat)
    (del : Bool) (opId : String) (h : io.mInlineBuffer = none) :
    realWrite io w buff offset blen del opId = realWriteInode io w buff offset blen opId := by
  unfold realWrite
  rw [h]

theorem writeSync_read_one_chunk (io : FileIO) (w : World) (buff : List Byte)
    (buf offset blen : Nat) (hib : io.mInlineBuffer = none)
    (hal : io.mPool.hasAlignment = false) (hlen : 0 < blen) (hb : buff.length = blen)
    (hpool : offset + blen ≤ io.mPool.size) (hlt : offset + blen < 2 ^ 63)
    (hfit : offset % io.mChunkSize + blen ≤ io.mChunkSize) :
    ∃ r, writeSync io w buff (offset : Int) blen = some r ∧ r.1 = 0 ∧
      (read r.2.1 r.2.2 buf offset blen).1 = toCInt blen ∧
      ∀ a, buf ≤ a → a < buf + blen →
        (read r.2.1 r.2.2 buf offset blen).2.2.mem a = buff.getD (a - buf) 0 := by
  have ho64 : offset < 2 ^ 64 := by omega
  have hs64 : offset + blen < 2 ^ 64 := by omega
  have hne : blen ≠ 0 := by omega
  have hi0 : (0 : Int) ≤ (offset : Int) := Int.ofNat_nonneg _
  have hi1 : (offset : Int) + (blen : Nat) < 18446744073709551616 := by omega
  have hi2 : ¬ (offset : Int) + (blen : Nat) > (io.mPool.size : Nat) := by omega
  have hv : verifyWriteParams io (offset : Int) blen = 0 := by
    rw [verifyWriteParams_eq io _ blen hi0 hi1, if_neg hi2, if_neg hne]
  have hvio : ∀ m, verifyWriteParams { io with mOpManager := m } (offset : Int) blen
      = verifyWriteParams io (offset : Int) blen := fun _ => rfl
  obtain ⟨r, x, sz, hr, r1, r2, r3, r4, r5⟩ := realWriteInode_one_chunk
    { io with
      mOpManager := OpsManager.addOperation io.mOpManager
        { id := w.generateUuid.1, completions := [], ready := false } }
    w.generateUuid.2 buff offset blen w.generateUuid.1 hal hlen hb hs64 hfit
  have hw : writeSync io w buff (offset : Int) blen = some r := by
    unfold writeSync
    dsimp only
    rw [hvio, hv, if_neg (fun h => h rfl), toSizeT_natCast offset ho64]
    exact Eq.trans
      (realWrite_of_noInline
        { io with
          mOpManager := OpsManager.addOperation io.mOpManager
            { id := w.generateUuid.1, completions := [], ready := false } }
        w.generateUuid.2 buff offset blen false w.generateUuid.1 hib) hr
  have r2' : r.2.1.mChunkSize = io.mChunkSize := r2
  have r3' : r.2.1.chunkName = io.chunkName := r3
  have r4' : r.2.1.mInlineBuffer = none := r4.trans hib
  have r5' : r.2.2.objects (r.2.1.chunkName (offset / r.2.1.mChunkSize))
      = some { data := writeAt x (offset % io.mChunkSize) buff, size := sz } := by
    rw [r3', r2']
    exact r5
  have hwl : offset % io.mChunkSize + blen
      ≤ (writeAt x (offset % io.mChunkSize) buff).length := by
    have := writeAt_length x (offset % io.mChunkSize) buff
    rw [hb] at this
    exact this
  obtain ⟨h1, h2⟩ := read_one_chunk r.2.1 r.2.2 buf offset blen _ r4' hlen
    (by rw [r2']; exact hfit) r5' (by rw [r2']; exact hwl)
  refine ⟨r, hw, r1, h1, ?_⟩
  intro a ha1 ha2
  rw [h2 a ha1 ha2, r2']
  dsimp only
  rw [← hb, readAt_writeAt]

theorem getD_replicate_of_lt (n i : Nat) (x d : Byte) (h : i < n) :
    (List.replicate n x).getD i d = x := by
  simp [List.getD_eq_getElem?_getD, List.getElem?_replicate, h]

/-- C1, evaluation at the failing input: on the example FileIO with chunks of
`2^31` bytes, a `writeSync` of `2^31` bytes (all 1) at offset 0 returns 0; the
`read` of the same range then copies the bytes written into the buffer but
returns `-2^31`, not `2^31`: the length of the chunk's answer reaches
`addReturnValue(int)` as a negative value. -/
theorem round_trip_wrong_count :
    ∃ r, writeSync wideIO demoWorld (List.replicate 2147483648 1) 0 2147483648 = some r ∧
      r.1 = 0 ∧
      (read r.2.1 r.2.2 0 0 2147483648).1 = -2147483648 ∧
      ∀ a, a < 2147483648 → (read r.2.1 r.2.2 0 0 2147483648).2.2.mem a = 1 := by
  obtain ⟨r, h1, h2, h3, h4⟩ := writeSync_read_one_chunk wideIO demoWorld
    (List.replicate 2147483648 1) 0 0 2147483648 rfl rfl (by decide)
    (List.length_replicate _ _) (by decide) (by decide) (by decide)
  refine ⟨r, h1, h2, h3.trans (by decide), ?_⟩
  intro a ha
  rw [h4 a (Nat.zero_le a) (by omega)]
  exact getD_replicate_of_lt _ _ _ _ (by omega)

set_option maxRecDepth 100000 in
/-- C11, evaluation at the failing input: on the example FileIO with chunks of 4
bytes, after a `writeSync` of one byte at offset 0 and a `truncate` to 6 bytes
(chunk 1, which covers `[4, 8)`, does not exist), a vector read of `[4, 8)` alone
ends with `-ENOENT`, but a vector read of `[4, 6)` and `[4, 8)`, both served by
the one read of chunk 1, ends with 0, in either order: the override set for the
covered sub-interval `[4, 6)` stays although `[4, 8)` extends beyond the file
size.  A read of an inode with no objects ends with `-ENOENT`. -/
theorem notfound_override_kept :
    ((writeSync demoIO demoWorld [1] 0 1).bind
        (fun a => (truncate a.2.1 a.2.2 6 0).map
          (fun t => ((getSize t.2.1 t.2.2).1, Option.isNone (t.2.2.objects (t.2.1.chunkName 1)),
            readVectorSync t.2.1 t.2.2
              [{ buff := 0, offset := 4, length := 4, retValue := some (Slot.caller 0) }],
            readVectorSync t.2.1 t.2.2
              [{ buff := 0, offset := 4, length := 2, retValue := some (Slot.caller 0) },
               { buff := 8, offset := 4, length := 4, retValue := some (Slot.caller 1) }],
            readVectorSync t.2.1 t.2.2
              [{ buff := 8, offset := 4, length := 4, retValue := some (Slot.caller 1) },
               { buff := 0, offset := 4, length := 2, retValue := some (Slot.caller 0) }]))))
      = some (6, true, -ENOENT, 0, 0) ∧
    (read demoIO demoWorld 0 0 4).1 = -ENOENT := by
  refine ⟨by decide, by decide⟩

theorem firstFailure_cons (k : String) (v : AsyncOp) (tl : OpsManager) :
    firstFailure ((k, v) :: tl)
      = if v.waitForCompletion = 0 then firstFailure tl else v.waitForCompletion := by
  unfold firstFailure
  simp only [List.map_cons, List.find?_cons]
  by_cases h : v.waitForCompletion = 0
  · simp [h]
  · simp [h]

theorem find_head (k : String) (v : AsyncOp) (tl : OpsManager) :
    OpsManager.find ((k, v) :: tl) k = some v := by
  simp [OpsManager.find]

theorem find_of_mem (m : OpsManager) (hnd : (m.map (·.1)).Nodup) :
    ∀ e ∈ m, OpsManager.find m e.1 = some e.2 := by
  induction m with
  | nil => intro e he; cases he
  | cons hd tl ih =>
      intro e he
      rw [List.map_cons, List.nodup_cons] at hnd
      rcases List.mem_cons.mp he with h | h
      · subst h
        exact find_head _ _ _
      · have hne : hd.1 ≠ e.1 := by
          intro heq
          exact hnd.1 (heq ▸ List.mem_map_of_mem (·.1) h)
        have := ih hnd.2 e h
        unfold OpsManager.find at this ⊢
        rw [List.find?_cons]
        simp only [hne, decide_False]
        exact this

theorem syncLoop_keep (rest : OpsManager) :
    ∀ (ret : Int) (m : OpsManager), (∀ e ∈ rest, OpsManager.find m e.1 = some e.2) →
      OpsManager.syncLoop false (rest.map (·.1)) ret m
        = (if ret = 0 then firstFailure rest else ret, m) := by
  induction rest with
  | nil =>
      intro ret m _
      by_cases hr : ret = 0 <;> simp [OpsManager.syncLoop, firstFailure, hr]
  | cons hd tl ih =>
      intro ret m hf
      have h1 : OpsManager.syncOp m hd.1 false = (hd.2.waitForCompletion, m) := by
        unfold OpsManager.syncOp
        rw [hf hd (List.mem_cons_self _ _)]
        rfl
      simp only [List.map_cons, OpsManager.syncLoop]
      rw [h1, ih _ _ (fun e he => hf e (List.mem_cons_of_mem _ he))]
      have h2 := firstFailure_cons hd.1 hd.2 tl
      rw [h2]
      by_cases hr : ret = 0
      · by_cases hw : hd.2.waitForCompletion = 0
        · simp [hr, hw]
        · simp [hr, hw]
      · simp [hr]

theorem syncLoop_remove (rest : OpsManager) :
    ∀ (ret : Int), (rest.map (·.1)).Nodup →
      OpsManager.syncLoop true (rest.map (·.1)) ret rest
        = (if ret = 0 then firstFailure rest else ret, []) := by
  induction rest with
  | nil =>
      intro ret _
      by_cases hr : ret = 0 <;> simp [OpsManager.syncLoop, firstFailure, hr]
  | cons hd tl ih =>
      intro ret hnd
      rw [List.map_cons, List.nodup_cons] at hnd
      have h1 : OpsManager.syncOp (hd :: tl) hd.1 true = (hd.2.waitForCompletion, tl) := by
        unfold OpsManager.syncOp
        rw [find_head]
        simp only [if_true, Prod.mk.injEq, true_and]
        rw [List.filter_cons]
        simp only [ne_eq, not_true_eq_false, decide_False, Bool.false_eq_true, if_false]
        rw [List.filter_eq_self]
        intro e he
        have : e.1 ≠ hd.1 := by
          intro heq
          exact hnd.1 (heq ▸ List.mem_map_of_mem (·.1) he)
        simpa using this
      simp only [List.map_cons, OpsManager.syncLoop]
      rw [h1, ih _ hnd.2]
      have h2 := firstFailure_cons hd.1 hd.2 tl
      rw [h2]
      by_cases hr : ret = 0
      · by_cases hw : hd.2.waitForCompletion = 0
        · simp [hr, hw]
        · simp [hr, hw]
      · simp [hr]

/-- C12: for a registry (a map: its keys are pairwise different),
`OpsManager::sync(removeOps)` returns 0 if the aggregate code of every op is 0,
else the first aggregate code that is not 0 in iteration order; with
`removeOps = true` the registry is empty afterwards, with `removeOps = false` it
is the registry as before. -/
theorem sync_all (m : OpsManager) (removeOps : Bool) (hnd : (m.map (·.1)).Nodup) :
    ((∀ e ∈ m, e.2.waitForCompletion = 0) → (OpsManager.sync m removeOps).1 = 0) ∧
    (∀ (before after : OpsManager) (k : String) (v : AsyncOp),
      m = before ++ (k, v) :: after → (∀ e ∈ before, e.2.waitForCompletion = 0) →
      v.waitForCompletion ≠ 0 → (OpsManager.sync m removeOps).1 = v.waitForCompletion) ∧
    (OpsManager.sync m removeOps).2 = (if removeOps then [] else m) := by
  have hs : OpsManager.sync m removeOps = (firstFailure m, if removeOps then [] else m) := by
    unfold OpsManager.sync
    cases removeOps with
    | true => rw [syncLoop_remove m 0 hnd]; simp
    | false => rw [syncLoop_keep m 0 m (find_of_mem m hnd)]; simp
  rw [hs]
  refine ⟨fun h0 => ?_, fun before after k v hm hb hv => ?_, rfl⟩
  · show firstFailure m = 0
    clear hs hnd
    induction m with
    | nil => rfl
    | cons hd tl ih =>
        rw [firstFailure_cons, if_pos (h0 hd (List.mem_cons_self _ _))]
        exact ih (fun e he => h0 e (List.mem_cons_of_mem _ he))
  · show firstFailure m = v.waitForCompletion
    rw [hm]
    clear hs hnd hm
    induction before with
    | nil => rw [List.nil_append, firstFailure_cons, if_neg hv]
    | cons hd tl ih =>
        rw [List.cons_append, firstFailure_cons, if_pos (hb hd (List.mem_cons_self _ _))]
        exact ih (fun e he => hb e (List.mem_cons_of_mem _ he))

set_option maxRecDepth 100000 in
theorem sync_all_witness :
    (demoOps.map (·.1)).Nodup ∧
    (OpsManager.sync demoOps false).1 = -2 ∧
    (OpsManager.sync demoOps true).2 = [] ∧
    (OpsManager.sync demoOps false).2 = demoOps :=
  ⟨by decide,
   (sync_all demoOps false (by decide)).2.1
     [("a", { id := "a", completions := [(0, none)], ready := true })]
     [("c", { id := "c", completions := [(-27, none)], ready := true })] "b"
     { id := "b", completions := [(-2, none)], ready := true } (by decide) (by decide)
     (by decide),
   (sync_all demoOps true (by decide)).2.2,
   (sync_all demoOps false (by decide)).2.2⟩

theorem inlineWrite_ok (ib : FileInlineBuffer) (w : World) (buff : List Byte) (offset blen : Nat)
    (hok : w.inlineFault = none) :
    inlineWrite ib w buff offset blen =
      (((min blen (ib.capacity - offset) : Nat) : Int),
       { w with inlineEntry := some (writeAt (w.inlineEntry.getD []) offset
                                      (buff.take (min blen (ib.capacity - offset)))),
                trace := w.trace ++ [Call.inlineSet] }) := by
  unfold inlineWrite
  rw [hok]

theorem realWrite_absorbed (io : FileIO) (w : World) (buff : List Byte) (offset blen : Nat)
    (del : Bool) (opId : String) (ib : FileInlineBuffer)
    (hib : io.mInlineBuffer = some ib) (hcap : ib.capacity < 2 ^ 64) (hlen : 0 < blen)
    (hfit : offset + blen ≤ ib.capacity) (hok : w.inlineFault = none) :
    realWrite io w buff offset blen del opId =
      some (0, { io with mOpManager := OpsManager.modify io.mOpManager opId AsyncOp.setReady },
            { w with inlineEntry := some (writeAt (w.inlineEntry.getD []) offset (buff.take blen)),
                     trace := w.trace ++ [Call.inlineSet] }) := by
  have hmin : min blen (ib.capacity - offset) = blen := by omega
  have h64 : blen < 2 ^ 64 := by omega
  have hc0 : ib.capacity > 0 := by omega
  have hoff : offset < ib.capacity := by omega
  have hts : toSizeT ((blen : Nat) : Int) = blen := toSizeT_natCast blen h64
  have hsub : usub blen blen = 0 := by
    rw [usub_of_le blen blen (le_refl _) h64, Nat.sub_self]
  have hnn : ¬ ((blen : Nat) : Int) < 0 := by omega
  unfold realWrite
  rw [hib]
  dsimp only
  rw [if_pos hc0, if_pos hoff, inlineWrite_ok ib w buff offset blen hok, hmin]
  dsimp only
  rw [hts]
  unfold realWriteAfterInline
  rw [if_neg hnn, hsub, if_pos rfl, hib]

/-- C13: for a FileIO with an inline buffer of capacity `C > 0` and a write of
`blen > 0` bytes at `offset` with `offset + blen ≤ C` that the inline adapter
absorbs, `realWrite` returns 0, marks the op ready and leaves the FileIO
otherwise as it was, and the only call it makes is the adapter's write on the
parent object: no operation on the inode object or on a chunk, no lock call; the
objects of the pool and the lock are as before. -/
theorem inline_only_write (io : FileIO) (w : World) (buff : List Byte) (offset blen : Nat)
    (del : Bool) (opId : String) (ib : FileInlineBuffer)
    (hib : io.mInlineBuffer = some ib) (hcap : ib.capacity < 2 ^ 64) (hlen : 0 < blen)
    (hfit : offset + blen ≤ ib.capacity) (hok : w.inlineFault = none) :
    ∃ r, realWrite io w buff offset blen del opId = some r ∧ r.1 = 0 ∧
      r.2.1 = { io with mOpManager := OpsManager.modify io.mOpManager opId AsyncOp.setReady } ∧
      r.2.2.trace = w.trace ++ [Call.inlineSet] ∧
      r.2.2.objects = w.objects ∧ r.2.2.lockHeld = w.lockHeld ∧ r.2.2.locks = w.locks :=
  ⟨_, realWrite_absorbed io w buff offset blen del opId ib hib hcap hlen hfit hok,
    rfl, rfl, rfl, rfl, rfl, rfl⟩

set_option maxRecDepth 100000 in
theorem inline_only_write_witness :
    ( demoInlineIO.mInlineBuffer = some { capacity := 16 } ∧ (16 : Nat) < 2 ^ 64 ∧ 0 < 5 ∧
      0 + 5 ≤ 16 ∧ demoWorld.inlineFault = none) ∧
    ∃ r, realWrite demoInlineIO demoWorld [104, 101, 108, 108, 111] 0 5 false "op" = some r ∧
      r.1 = 0 ∧
      r.2.1 = { demoInlineIO with
                mOpManager := OpsManager.modify demoInlineIO.mOpManager "op" AsyncOp.setReady } ∧
      r.2.2.trace = demoWorld.trace ++ [Call.inlineSet] ∧
      r.2.2.objects = demoWorld.objects ∧ r.2.2.lockHeld = demoWorld.lockHeld ∧
      r.2.2.locks = demoWorld.locks :=
  ⟨⟨rfl, by decide, by decide, by decide, rfl⟩,
   inline_only_write demoInlineIO demoWorld [104, 101, 108, 108, 111] 0 5 false "op"
     { capacity := 16 } rfl (by decide) (by decide) (by decide) rfl⟩

/-- C14 (amended): after a `writeSync` that is entirely absorbed by the inline
buffer of a fresh file (the inode object does not exist), the write has returned
0, the inode object still does not exist and `getSize`, which reads the size
attribute of the inode object only, returns 0. -/
theorem inline_write_size (io : FileIO) (w : World) (buff : List Byte) (offset blen : Nat)
    (ib : FileInlineBuffer) (hib : io.mInlineBuffer = some ib) (hcap : ib.capacity < 2 ^ 63)
    (hlen : 0 < blen) (hfit : offset + blen ≤ ib.capacity) (hok : w.inlineFault = none)
    (hpool : offset + blen ≤ io.mPool.size) (hfresh : w.objects io.mInode = none) :
    ∃ r, writeSync io w buff (offset : Int) blen = some r ∧ r.1 = 0 ∧
      r.2.2.objects io.mInode = none ∧ (getSize r.2.1 r.2.2).1 = 0 := by
  have ho64 : offset < 2 ^ 64 := by omega
  have hne : blen ≠ 0 := by omega
  have hc64 : ib.capacity < 2 ^ 64 := by omega
  have hi0 : (0 : Int) ≤ (offset : Int) := Int.ofNat_nonneg _
  have hi1 : (offset : Int) + (blen : Nat) < 18446744073709551616 := by omega
  have hi2 : ¬ (offset : Int) + (blen : Nat) > (io.mPool.size : Nat) := by omega
  have hv : verifyWriteParams io (offset : Int) blen = 0 := by
    rw [verifyWriteParams_eq io _ blen hi0 hi1, if_neg hi2, if_neg hne]
  have hvio : ∀ m, verifyWriteParams { io with mOpManager := m } (offset : Int) blen
      = verifyWriteParams io (offset : Int) blen := fun _ => rfl
  have hex : ∃ r, realWrite
      { io with
        mOpManager := OpsManager.addOperation io.mOpManager
          { id := w.generateUuid.1, completions := [], ready := false } }
      w.generateUuid.2 buff offset blen false w.generateUuid.1 = some r ∧ r.1 = 0 ∧
      r.2.1.mInode = io.mInode ∧ r.2.2.objects = w.objects :=
    ⟨_, realWrite_absorbed
      { io with
        mOpManager := OpsManager.addOperation io.mOpManager
          { id := w.generateUuid.1, completions := [], ready := false } }
      w.generateUuid.2 buff offset blen false w.generateUuid.1 ib hib hc64 hlen hfit hok,
      rfl, rfl, rfl⟩
  obtain ⟨r, hr, r1, r2, r3⟩ := hex
  have hw : writeSync io w buff (offset : Int) blen = some r := by
    unfold writeSync
    dsimp only
    rw [hvio, hv, if_neg (fun h => h rfl), toSizeT_natCast offset ho64]
    exact hr
  have hobj : r.2.2.objects r.2.1.mInode = none := by
    rw [r2, r3]
    exact hfresh
  refine ⟨r, hw, r1, by rw [r3]; exact hfresh, ?_⟩
  unfold getSize
  dsimp only
  rw [getLast_none _ _ hobj]
  rfl

set_option maxRecDepth 100000 in
theorem inline_write_size_witness :
    ( demoInlineIO.mInlineBuffer = some { capacity := 16 } ∧ (16 : Nat) < 2 ^ 63 ∧ 0 < 5 ∧
      0 + 5 ≤ 16 ∧ demoWorld.inlineFault = none ∧ 0 + 5 ≤ demoInlineIO.mPool.size ∧
      demoWorld.objects demoInlineIO.mInode = none) ∧
    ∃ r, writeSync demoInlineIO demoWorld [104, 101, 108, 108, 111] ((0 : Nat) : Int) 5 = some r ∧
      r.1 = 0 ∧ r.2.2.objects demoInlineIO.mInode = none ∧ (getSize r.2.1 r.2.2).1 = 0 :=
  ⟨⟨rfl, by decide, by decide, by decide, rfl, by decide, rfl⟩,
   inline_write_size demoInlineIO demoWorld [104, 101, 108, 108, 111] 0 5 { capacity := 16 }
     rfl (by decide) (by decide) (by decide) rfl (by decide) rfl⟩

set_option maxRecDepth 100000 in
/-- C14, counterexample: on a fresh file with an inline buffer of capacity 16,
after `writeSync("hello", 0, 5)`, which returns 0, `getSize` returns 0, not 5. -/
theorem inline_write_size_counterexample :
    (writeSync demoInlineIO demoWorld [104, 101, 108, 108, 111] 0 5).map
        (fun r => (r.1, (getSize r.2.1 r.2.2).1)) = some (0, 0) ∧
    (0 : Nat) ≠ 0 + 5 := by
  refine ⟨by decide, by decide⟩

set_option maxRecDepth 100000 in
/-- C15 (amended): with inline capacity 8 and chunk size 16,
`writeSync("0123456789abcdefGHIJ", 0, 20)` returns 0, puts `"01234567"` in the
inline buffer and stores the remaining 12 bytes at their file offsets: `"89abcdef"`
in chunk 0 at object offset 8 and `"GHIJ"` in chunk 1 at object offset 0 (two chunk
writes); `read(buf, 4, 16)` then returns 16 with `buf == "456789abcdefGHIJ"`. -/
theorem scenario_inline_plus_chunk :
    (writeSync demoS2IO demoWorld demoS2Bytes 0 20).map
        (fun r => (r.1, r.2.2.inlineEntry, chunkOps r.2.2.trace))
      = some (0, some [48, 49, 50, 51, 52, 53, 54, 55],
              [(0, ObjOp.write 8 [56, 57, 97, 98, 99, 100, 101, 102]),
               (1, ObjOp.write 0 [71, 72, 73, 74])]) ∧
    (writeSync demoS2IO demoWorld demoS2Bytes 0 20).map
        (fun r => ((read r.2.1 r.2.2 0 4 16).1,
                   (List.range 16).map (read r.2.1 r.2.2 0 4 16).2.2.mem))
      = some (16, [52, 53, 54, 55, 56, 57, 97, 98, 99, 100, 101, 102, 71, 72, 73, 74]) := by
  refine ⟨by decide, by decide⟩

set_option maxRecDepth 100000 in
/-- C15, counterexample: in scenario S2 the chunk writes are not the single write
of the 12 bytes `"89abcdefGHIJ"` to chunk 0 at object offset 0. -/
theorem scenario_inline_plus_chunk_counterexample :
    (writeSync demoS2IO demoWorld demoS2Bytes 0 20).map (fun r => chunkOps r.2.2.trace)
      ≠ some [(0, ObjOp.write 0 [56, 57, 97, 98, 99, 100, 101, 102, 71, 72, 73, 74])] := by
  decide

set_option maxRecDepth 1000000 in
/-- C16 (amended): on a pool with alignment 3 and the aligned chunk size 126,
`writeSync` of 300 bytes at offset 0 returns 0 and creates the chunks 0, 1, 2 (and
no chunk 3), whose stored lengths are 126, 126 and 126: the last chunk holds its
48 bytes followed by zero bytes up to the chunk size; `getSize` returns 300. -/
theorem scenario_aligned_lengths :
    (writeSync demoS3IO demoWorld (List.replicate 300 120) 0 300).map
        (fun r => (r.1, (List.range 4).map (storedLength r.2.1 r.2.2), (getSize r.2.1 r.2.2).1))
      = some (0, [some 126, some 126, some 126, none], 300) ∧
    (writeSync demoS3IO demoWorld (List.replicate 300 120) 0 300).map
        (fun r => (r.2.2.objects (r.2.1.chunkName 2)).map (·.data))
      = some (some (List.replicate 48 120 ++ List.replicate 78 0)) := by
  refine ⟨by decide, by decide⟩

set_option maxRecDepth 1000000 in
/-- C16, counterexample: in scenario S3 the stored length of chunk 2 is not 51. -/
theorem scenario_aligned_lengths_counterexample :
    (writeSync demoS3IO demoWorld (List.replicate 300 120) 0 300).map
        (fun r => storedLength r.2.1 r.2.2 2) ≠ some (some 51) := by
  decide

theorem getInline_step (io : FileIO) (iv : FileReadData) (di dn : List FileReadDataImp)
    (w : World) :
    getInlineAndInodeReadData io [iv] di dn w =
      match io.mInlineBuffer with
      | none => (di, dn ++ [iv.toImp], resetSlot w iv.retValue)
      | some ib =>
          if iv.offset < ib.capacity then
            if uadd iv.offset iv.length > ib.capacity then
              (di ++ [(separateReadData ib iv.toImp).1], dn ++ [(separateReadData ib iv.toImp).2],
                resetSlot w iv.retValue)
            else (di ++ [iv.toImp], dn, resetSlot w iv.retValue)
          else (di, dn ++ [iv.toImp], resetSlot w iv.retValue) := by
  have hw : (match iv.retValue with
      | none => w
      | some slot => { w with slots := fun s => if s = slot then 0 else w.slots s })
      = resetSlot w iv.retValue := by
    unfold resetSlot
    cases iv.retValue <;> rfl
  simp only [getInlineAndInodeReadData, hw]
  cases io.mInlineBuffer with
  | none => rfl
  | some ib =>
      dsimp only
      split_ifs <;> rfl

/-- C19: for an interval `(buf, off, len)` with `off, len < 2^63`,
`getInlineAndInodeReadData` yields only an inode part, the interval itself, when
there is no inline buffer or `off ≥ C`; for `off < C` it yields only an inline
part, the interval itself, when `off + len ≤ C`, and otherwise the inline part
`(buf, off, C - off)` and the inode part `(buf + (C - off), C, len - (C - off))`,
whose lengths sum to `len`; every part carries the interval's return slot, and
that slot is reset to 0 (no other slot changes). -/
theorem inline_inode_split (io : FileIO) (w : World) (iv : FileReadData)
    (di dn : List FileReadDataImp) (hoff : iv.offset < 2 ^ 63) (hlen : iv.length < 2 ^ 63) :
    ((io.mInlineBuffer = none ∨ ∃ ib, io.mInlineBuffer = some ib ∧ ib.capacity ≤ iv.offset) →
      getInlineAndInodeReadData io [iv] di dn w
        = (di, dn ++ [iv.toImp], resetSlot w iv.retValue)) ∧
    (∀ ib, io.mInlineBuffer = some ib → iv.offset < ib.capacity →
      iv.offset + iv.length ≤ ib.capacity →
      getInlineAndInodeReadData io [iv] di dn w
        = (di ++ [iv.toImp], dn, resetSlot w iv.retValue)) ∧
    (∀ ib, io.mInlineBuffer = some ib → ib.capacity < 2 ^ 64 → iv.offset < ib.capacity →
      ib.capacity < iv.offset + iv.length →
      getInlineAndInodeReadData io [iv] di dn w
        = (di ++ [{ iv.toImp with length := ib.capacity - iv.offset }],
           dn ++ [{ iv.toImp with buff := iv.buff + (ib.capacity - iv.offset),
                                  offset := ib.capacity,
                                  length := iv.length - (ib.capacity - iv.offset) }],
           resetSlot w iv.retValue) ∧
        (ib.capacity - iv.offset) + (iv.length - (ib.capacity - iv.offset)) = iv.length) ∧
    (∀ slot, iv.retValue = some slot →
      (resetSlot w iv.retValue).slots slot = 0 ∧
      ∀ s, s ≠ slot → (resetSlot w iv.retValue).slots s = w.slots s) ∧
    iv.toImp.retValue = iv.retValue ∧ iv.toImp.buff = iv.buff ∧
    iv.toImp.offset = iv.offset ∧ iv.toImp.length = iv.length := by
  have hsum : uadd iv.offset iv.length = iv.offset + iv.length := uadd_of_lt _ _ (by omega)
  refine ⟨fun h => ?_, fun ib hib h1 h2 => ?_, fun ib hib hc h1 h2 => ?_, fun slot hs => ?_,
    rfl, rfl, rfl, rfl⟩
  · rw [getInline_step]
    rcases h with h | ⟨ib, hib, hcap⟩
    · rw [h]
    · rw [hib]
      dsimp only
      rw [if_neg (by omega)]
  · rw [getInline_step, hib]
    dsimp only
    rw [if_pos h1, hsum, if_neg (by omega)]
  · rw [getInline_step, hib]
    dsimp only
    rw [if_pos h1, hsum, if_pos (by omega)]
    have e1 : usub ib.capacity iv.offset = ib.capacity - iv.offset :=
      usub_of_le _ _ (by omega) hc
    have e2 : uadd iv.offset (ib.capacity - iv.offset) = ib.capacity := by
      rw [uadd_of_lt _ _ (by omega)]
      omega
    have e3 : usub iv.length (ib.capacity - iv.offset) = iv.length - (ib.capacity - iv.offset) :=
      usub_of_le _ _ (by omega) (by omega)
    refine ⟨?_, by omega⟩
    unfold separateReadData FileReadData.toImp
    dsimp only
    rw [e1, e2, e3]
  · unfold resetSlot
    rw [hs]
    dsimp only
    refine ⟨if_pos rfl, fun s hne => if_neg hne⟩

set_option maxRecDepth 100000 in
theorem inline_inode_split_witness :
    ((4 : Nat) < 2 ^ 63 ∧ (16 : Nat) < 2 ^ 63) ∧
    getInlineAndInodeReadData demoS2IO
        [{ buff := 0, offset := 4, length := 16, retValue := some Slot.opRet }] [] [] demoWorld
      = ([{ buff := 0, offset := 4, length := 4, retValue := some Slot.opRet, opResult := 0 }],
         [{ buff := 4, offset := 8, length := 12, retValue := some Slot.opRet, opResult := 0 }],
         resetSlot demoWorld (some Slot.opRet)) :=
  ⟨⟨by decide, by decide⟩,
   ((inline_inode_split demoS2IO demoWorld
      { buff := 0, offset := 4, length := 16, retValue := some Slot.opRet } [] []
      (by decide) (by decide)).2.2.1 { capacity := 8 } rfl (by decide) (by decide)
      (by decide)).1⟩

theorem alignedReference_length (cs : Nat) (e : List Byte) (offset : Nat) (s : List Byte)
    (he : e = [] ∨ e.length = cs) (hfit : offset + s.length ≤ cs) :
    (alignedReference cs e offset s).length = cs := by
  unfold alignedReference
  rcases he with he | he
  · subst he
    simp
    omega
  · by_cases h0 : e = []
    · subst h0
      simp at he ⊢
      omega
    · simp [h0]
      omega

theorem alignedReference_outside (cs : Nat) (e : List Byte) (offset : Nat) (s : List Byte)
    (i : Nat) (hi : i < offset ∨ offset + s.length ≤ i) (hfit : offset + s.length ≤ cs)
    (he : e = [] ∨ e.length = cs) :
    (alignedReference cs e offset s)[i]? = (if e ≠ [] then e else List.replicate cs 0)[i]? := by
  unfold alignedReference
  have hbl : (if e ≠ [] then e else List.replicate cs 0).length = cs := by
    by_cases h0 : e = []
    · simp [h0]
    · rcases he with he | he
      · exact absurd he h0
      · simp [h0, he]
  generalize (if e ≠ [] then e else List.replicate cs 0) = base at hbl ⊢
  rcases hi with hi | hi
  · rw [List.append_assoc, List.getElem?_append_left (by simp; omega)]
    rw [List.getElem?_take_of_lt hi]
  · rw [List.getElem?_append_right (by simp; omega)]
    simp only [List.length_append, List.length_take]
    rw [List.getElem?_drop]
    congr 1
    omega

theorem alignedReference_inside (cs : Nat) (e : List Byte) (offset : Nat) (s : List Byte)
    (i : Nat) (hi : i < s.length) (hfit : offset + s.length ≤ cs)
    (he : e = [] ∨ e.length = cs) :
    (alignedReference cs e offset s)[offset + i]? = s[i]? := by
  unfold alignedReference
  have hbl : (if e ≠ [] then e else List.replicate cs 0).length = cs := by
    by_cases h0 : e = []
    · simp [h0]
    · rcases he with he | he
      · exact absurd he h0
      · simp [h0, he]
  generalize (if e ≠ [] then e else List.replicate cs 0) = base at hbl ⊢
  have htl : (List.take offset base).length = offset := by
    simp
    omega
  rw [List.append_assoc, List.getElem?_append_right (by omega), htl, Nat.add_sub_cancel_left,
    List.getElem?_append_left hi]

theorem setAligned_reference (io : FileIO) (w : World) (chunk offset : Nat) (s : List Byte)
    (ae : Bool)
    (he : chunkData io w chunk = [] ∨ (chunkData io w chunk).length = io.mChunkSize)
    (hfit : offset + s.length ≤ io.mChunkSize) :
    setAlignedChunkWriteOp io w chunk offset s ae =
      some (ObjOp.alignedWrite ((w.objects (io.chunkName chunk)).bind (·.size))
              (alignedReference io.mChunkSize (chunkData io w chunk) offset s) ae,
            w.log (Call.query (Target.chunk chunk) Query.alignedRead)) := by
  unfold setAlignedChunkWriteOp alignedReference chunkData at *
  dsimp only
  generalize ((w.objects (io.chunkName chunk)).map (·.data)).getD [] = e at he ⊢
  have hread : readAt e 0 io.mChunkSize = e := by
    unfold readAt
    rw [List.drop_zero]
    apply List.take_of_length_le
    rcases he with he | he
    · rw [he]
      exact Nat.zero_le _
    · omega
  rw [hread]
  by_cases h0 : e = []
  · subst h0
    simp only [List.length_nil, gt_iff_lt, lt_self_iff_false, if_false, ne_eq, not_true_eq_false]
    by_cases hs : s.length = io.mChunkSize
    · have hoff : offset = 0 := by omega
      subst hoff
      simp [hs, replaceStr]
    · have hlen : ¬ offset > (List.replicate io.mChunkSize (0 : Byte)).length := by
        simp
        omega
      simp only [hs, ne_eq, not_false_eq_true, if_true]
      rw [if_neg hlen]
      rfl
  · have hpos : e.length > 0 := List.length_pos.mpr h0
    have hlen : e.length = io.mChunkSize := by
      rcases he with he | he
      · exact absurd he h0
      · exact he
    simp only [hpos, if_true, ne_eq, h0, not_false_eq_true]
    rw [if_neg (by omega)]
    rfl

theorem pieceBefore_succ (cs off len k : Nat) (hcs : 0 < cs) :
    pieceBefore cs off len (k + 1) = pieceBefore cs off len k + pieceLength cs off len k := by
  have hlo : off % cs < cs := Nat.mod_lt _ hcs
  unfold pieceLength pieceBefore pieceLocal
  cases k with
  | zero =>
      simp only [Nat.zero_add, one_ne_zero, if_false, if_true, Nat.one_mul, Nat.sub_zero]
      omega
  | succ j =>
      have h1 : (j + 1 + 1) * cs = (j + 1) * cs + cs := Nat.succ_mul _ _
      have h2 : cs ≤ (j + 1) * cs := Nat.le_mul_of_pos_left cs (Nat.succ_pos j)
      simp only [Nat.succ_ne_zero, if_false, Nat.sub_zero, h1]
      generalize (j + 1) * cs = x at h2 ⊢
      omega

theorem pieceBefore_le (cs off len k : Nat) : pieceBefore cs off len k ≤ len := by
  unfold pieceBefore
  split_ifs
  · exact Nat.zero_le _
  · exact Nat.min_le_left _ _

theorem pieceCount_eq (cs off len : Nat) (hcs : 0 < cs) (hlen : 0 < len) :
    pieceCount cs off len = (off % cs + len - 1) / cs + 1 := by
  unfold pieceCount
  rw [if_neg (by omega)]
  have hdm := Nat.div_add_mod off cs
  have e : off + len - 1 = off % cs + len - 1 + cs * (off / cs) := by omega
  rw [e, Nat.add_mul_div_left _ _ hcs, Nat.add_sub_cancel]

theorem pieceBefore_lt_iff (cs off len k : Nat) (hcs : 0 < cs) :
    pieceBefore cs off len k < len ↔ k < pieceCount cs off len := by
  have hlo : off % cs < cs := Nat.mod_lt _ hcs
  by_cases hlen : len = 0
  · subst hlen
    have := pieceBefore_le cs off 0 k
    unfold pieceCount
    simp
  · rw [pieceCount_eq cs off len hcs (by omega)]
    unfold pieceBefore
    cases k with
    | zero =>
        simp only [if_true]
        exact ⟨fun _ => Nat.succ_pos _, fun _ => by omega⟩
    | succ j =>
        simp only [Nat.succ_ne_zero, if_false]
        have h2 : cs ≤ (j + 1) * cs := Nat.le_mul_of_pos_left cs (Nat.succ_pos j)
        have key : j + 1 ≤ (off % cs + len - 1) / cs ↔ (j + 1) * cs ≤ off % cs + len - 1 :=
          Nat.le_div_iff_mul_le hcs
        generalize (off % cs + len - 1) / cs = d at key ⊢
        constructor
        · intro h
          have : (j + 1) * cs ≤ off % cs + len - 1 := by
            generalize (j + 1) * cs = x at h2 h ⊢
            omega
          have := key.mpr this
          omega
        · intro h
          have : (j + 1) * cs ≤ off % cs + len - 1 := key.mp (by omega)
          generalize (j + 1) * cs = x at h2 this ⊢
          omega

theorem pieceLength_pos (cs off len k : Nat) (hcs : 0 < cs) (hk : k < pieceCount cs off len) :
    0 < pieceLength cs off len k := by
  have hb := (pieceBefore_lt_iff cs off len k hcs).mpr hk
  have hlo : off % cs < cs := Nat.mod_lt _ hcs
  unfold pieceLength pieceLocal
  split_ifs <;> omega

theorem pieceLength_fit (cs off len k : Nat) (hcs : 0 < cs) :
    pieceLocal cs off k + pieceLength cs off len k ≤ cs := by
  have hlo : off % cs < cs := Nat.mod_lt _ hcs
  unfold pieceLength pieceLocal
  split_ifs <;> omega

theorem pieceBefore_count (cs off len : Nat) (hcs : 0 < cs) :
    pieceBefore cs off len (pieceCount cs off len) = len := by
  have h1 := pieceBefore_le cs off len (pieceCount cs off len)
  have h2 := (pieceBefore_lt_iff cs off len (pieceCount cs off len) hcs).not.mpr (lt_irrefl _)
  omega

theorem push_last : ∀ (m : ChunkMap) (k : Nat) (d : FileReadDataImp),
    (∀ e ∈ m, e.1 < k) → ChunkMap.push m k d = m ++ [(k, [d])] := by
  intro m
  induction m with
  | nil => intro k d _; rfl
  | cons hd tl ih =>
      intro k d h
      obtain ⟨k', ds⟩ := hd
      have hlt : k' < k := h (k', ds) (List.mem_cons_self _ _)
      simp only [ChunkMap.push]
      rw [if_neg (by omega), if_neg (by omega), ih k d (fun e he => h e (List.mem_cons_of_mem _ he))]
      rfl

theorem foldl_push_range (c0 : Nat) (f : Nat → FileReadDataImp) :
    ∀ (n i : Nat) (m : ChunkMap), (∀ e ∈ m, e.1 < c0 + i) →
      (List.range' i n).foldl (fun acc k => ChunkMap.push acc (c0 + k) (f k)) m
        = m ++ (List.range' i n).map (fun k => (c0 + k, [f k])) := by
  intro n
  induction n with
  | zero => intro i m _; simp
  | succ n ih =>
      intro i m h
      rw [List.range'_succ, List.foldl_cons, push_last m (c0 + i) (f i) h, ih (i + 1)]
      · simp
      · intro e he
        rcases List.mem_append.mp he with h1 | h1
        · have := h e h1
          omega
        · rw [List.mem_singleton] at h1
          subst h1
          show c0 + i < c0 + (i + 1)
          omega

theorem splitPerChunk_pieces (cs : Nat) (rd : FileReadDataImp) (hcs : 0 < cs) :
    ∀ (fuel i : Nat) (m : ChunkMap),
      rd.length - pieceBefore cs rd.offset rd.length i ≤ fuel →
      splitPerChunk cs rd rd.length fuel (rd.offset / cs + i) (pieceLocal cs rd.offset i)
          (rd.length - pieceBefore cs rd.offset rd.length i) m
        = (List.range' i (pieceCount cs rd.offset rd.length - i)).foldl
            (fun acc k => ChunkMap.push acc (rd.offset / cs + k) (readPiece cs rd k)) m := by
  intro fuel
  induction fuel with
  | zero =>
      intro i m hf
      have hb := pieceBefore_le cs rd.offset rd.length i
      have hnot : ¬ i < pieceCount cs rd.offset rd.length := by
        rw [← pieceBefore_lt_iff cs rd.offset rd.length i hcs]
        omega
      have e : pieceCount cs rd.offset rd.length - i = 0 := by omega
      rw [e]
      rfl
  | succ fuel ih =>
      intro i m hf
      have hb := pieceBefore_le cs rd.offset rd.length i
      by_cases hrem : rd.length - pieceBefore cs rd.offset rd.length i > 0
      · have hi : i < pieceCount cs rd.offset rd.length := by
          rw [← pieceBefore_lt_iff cs rd.offset rd.length i hcs]
          omega
        have hpos := pieceLength_pos cs rd.offset rd.length i hcs hi
        have hsucc := pieceBefore_succ cs rd.offset rd.length i hcs
        have e : pieceCount cs rd.offset rd.length - i
            = (pieceCount cs rd.offset rd.length - (i + 1)) + 1 := by omega
        rw [e, List.range'_succ, List.foldl_cons]
        have hnext := ih (i + 1)
          (ChunkMap.push m (rd.offset / cs + i) (readPiece cs rd i)) (by omega)
        rw [← hnext]
        simp only [splitPerChunk]
        rw [if_pos hrem]
        have e1 : rd.length - pieceBefore cs rd.offset rd.length i
            - min (cs - pieceLocal cs rd.offset i)
                (rd.length - pieceBefore cs rd.offset rd.length i)
            = rd.length - pieceBefore cs rd.offset rd.length (i + 1) := by
          rw [hsucc]
          unfold pieceLength
          omega
        have e2 : rd.buff + rd.length - (rd.length - pieceBefore cs rd.offset rd.length i)
            = rd.buff + pieceBefore cs rd.offset rd.length i := by omega
        have e3 : pieceLocal cs rd.offset (i + 1) = 0 := by
          unfold pieceLocal
          rw [if_neg (Nat.succ_ne_zero i)]
        rw [e1, e2, e3, Nat.add_assoc]
        rfl
      · have hnot : ¬ i < pieceCount cs rd.offset rd.length := by
          rw [← pieceBefore_lt_iff cs rd.offset rd.length i hcs]
          omega
        have e : pieceCount cs rd.offset rd.length - i = 0 := by omega
        rw [e]
        simp only [splitPerChunk]
        rw [if_neg hrem]
        rfl

/-- C18: for every chunk size `CS > 0` and every inode-part interval `rd` =
`(buf, off, len)`, the `while` loop of `getReadDataPerChunk` ends (any number of
rounds from `len` on gives the same map) and adds to the map, in this order, the
sub-intervals `readPiece CS rd k` for the consecutive chunks `off / CS + k`,
`k < n`, where `n = (off + len - 1) / CS - off / CS + 1` (0 when `len = 0`); on an
empty map the result is exactly these entries.  The first sub-interval has
object-local offset `off mod CS` and the later ones 0; each has length
`min(CS - local_off, remaining) > 0` with `remaining = len - before_k`, stays
inside its chunk, keeps the return slot and has the buffer `buf + before_k`, where
`before_0 = 0`, `before_(k+1) = before_k + length_k` and `before_n = len`: the
buffers are the consecutive pieces of `buf` and the lengths sum to `len`. -/
theorem read_chunk_split (io : FileIO) (rd : FileReadDataImp) (m : ChunkMap)
    (hcs : 0 < io.mChunkSize) :
    (∀ fuel, rd.length ≤ fuel →
      splitPerChunk io.mChunkSize rd rd.length fuel (rd.offset / io.mChunkSize)
          (rd.offset % io.mChunkSize) rd.length m
        = (List.range (pieceCount io.mChunkSize rd.offset rd.length)).foldl
            (fun acc k => ChunkMap.push acc (rd.offset / io.mChunkSize + k)
              (readPiece io.mChunkSize rd k)) m) ∧
    getReadDataPerChunk io [rd] []
      = (List.range (pieceCount io.mChunkSize rd.offset rd.length)).map
          (fun k => (rd.offset / io.mChunkSize + k, [readPiece io.mChunkSize rd k])) ∧
    pieceCount io.mChunkSize rd.offset rd.length
      = (if rd.length = 0 then 0
         else (rd.offset + rd.length - 1) / io.mChunkSize - rd.offset / io.mChunkSize + 1) ∧
    (∀ k, k < pieceCount io.mChunkSize rd.offset rd.length →
      (readPiece io.mChunkSize rd k).offset = (if k = 0 then rd.offset % io.mChunkSize else 0) ∧
      (readPiece io.mChunkSize rd k).length
        = min (io.mChunkSize - (readPiece io.mChunkSize rd k).offset)
            (rd.length - pieceBefore io.mChunkSize rd.offset rd.length k) ∧
      0 < (readPiece io.mChunkSize rd k).length ∧
      (readPiece io.mChunkSize rd k).offset + (readPiece io.mChunkSize rd k).length
        ≤ io.mChunkSize ∧
      (readPiece io.mChunkSize rd k).buff
        = rd.buff + pieceBefore io.mChunkSize rd.offset rd.length k ∧
      (readPiece io.mChunkSize rd k).retValue = rd.retValue ∧
      pieceBefore io.mChunkSize rd.offset rd.length (k + 1)
        = pieceBefore io.mChunkSize rd.offset rd.length k
          + (readPiece io.mChunkSize rd k).length) ∧
    pieceBefore io.mChunkSize rd.offset rd.length 0 = 0 ∧
    pieceBefore io.mChunkSize rd.offset rd.length (pieceCount io.mChunkSize rd.offset rd.length)
      = rd.length := by
  have hloop : ∀ fuel (m' : ChunkMap), rd.length ≤ fuel →
      splitPerChunk io.mChunkSize rd rd.length fuel (rd.offset / io.mChunkSize)
          (rd.offset % io.mChunkSize) rd.length m'
        = (List.range (pieceCount io.mChunkSize rd.offset rd.length)).foldl
            (fun acc k => ChunkMap.push acc (rd.offset / io.mChunkSize + k)
              (readPiece io.mChunkSize rd k)) m' := by
    intro fuel m' hf
    have h := splitPerChunk_pieces io.mChunkSize rd hcs fuel 0 m'
      (by
        show rd.length - 0 ≤ fuel
        omega)
    rw [List.range_eq_range']
    exact h
  refine ⟨fun fuel hf => hloop fuel m hf, ?_, rfl, fun k hk => ?_, rfl,
    pieceBefore_count _ _ _ hcs⟩
  · simp only [getReadDataPerChunk]
    rw [hloop rd.length [] (le_refl _), List.range_eq_range',
      foldl_push_range (rd.offset / io.mChunkSize) (readPiece io.mChunkSize rd) _ 0 []
        (fun e he => absurd he (List.not_mem_nil e)),
      List.nil_append]
  · exact ⟨rfl, rfl, pieceLength_pos _ _ _ k hcs hk, pieceLength_fit _ _ _ k hcs, rfl, rfl,
      pieceBefore_succ _ _ _ k hcs⟩

set_option maxRecDepth 100000 in
theorem read_chunk_split_witness :
    0 < demoIO.mChunkSize ∧
    getReadDataPerChunk demoIO
        [{ buff := 100, offset := 6, length := 7, retValue := some Slot.opRet, opResult := 0 }] []
      = [(1, [{ buff := 100, offset := 2, length := 2, retValue := some Slot.opRet,
                opResult := -1 }]),
         (2, [{ buff := 102, offset := 0, length := 4, retValue := some Slot.opRet,
                opResult := -1 }]),
         (3, [{ buff := 106, offset := 0, length := 1, retValue := some Slot.opRet,
                opResult := -1 }])] :=
  ⟨by decide,
   (read_chunk_split demoIO
      { buff := 100, offset := 6, length := 7, retValue := some Slot.opRet, opResult := 0 } []
      (by decide)).2.1.trans (by decide)⟩

theorem setAligned_exact (io : FileIO) (w : World) (chunk offset : Nat) (nc : List Byte)
    (ae : Bool)
    (hdata : ∀ o, w.objects (io.chunkName chunk) = some o →
      o.data = [] ∨ io.mChunkSize ≤ o.data.length)
    (hoff : offset + nc.length ≤ io.mChunkSize) :
    ∃ e, setAlignedChunkWriteOp io w chunk offset nc ae =
      some (ObjOp.alignedWrite ((w.objects (io.chunkName chunk)).bind (·.size))
              (replaceStr e offset nc.length nc) ae,
            w.log (Call.query (Target.chunk chunk) Query.alignedRead)) ∧
      (replaceStr e offset nc.length nc).length = io.mChunkSize := by
  have hrep : ∀ e : List Byte, e.length = io.mChunkSize →
      (replaceStr e offset nc.length nc).length = io.mChunkSize := by
    intro e he
    unfold replaceStr
    simp
    omega
  unfold setAlignedChunkWriteOp
  dsimp only
  generalize hd : ((w.objects (io.chunkName chunk)).map (·.data)).getD [] = d
  have hdd : d = [] ∨ io.mChunkSize ≤ d.length := by
    cases hobj : w.objects (io.chunkName chunk) with
    | none =>
        rw [hobj] at hd
        exact Or.inl hd.symm
    | some o =>
        rw [hobj] at hd
        have : o.data = d := hd
        rw [← this]
        exact hdata o hobj
  have hread : (readAt d 0 io.mChunkSize).length = min io.mChunkSize d.length := by
    simp [readAt]
  by_cases hpos : (readAt d 0 io.mChunkSize).length > 0
  · have hlen : (readAt d 0 io.mChunkSize).length = io.mChunkSize := by
      rcases hdd with h | h
      · rw [h] at hpos
        simp [readAt] at hpos
      · omega
    rw [if_pos hpos, if_neg (by omega)]
    exact ⟨_, rfl, hrep _ hlen⟩
  · rw [if_neg hpos]
    by_cases hs : nc.length = io.mChunkSize
    · have hoff0 : offset = 0 := by omega
      simp only [hs, ne_eq, not_true_eq_false, if_false, List.length_nil]
      rw [if_neg (by omega)]
      refine ⟨[], rfl, ?_⟩
      subst hoff0
      simp [replaceStr, hs]
    · simp only [hs, ne_eq, not_false_eq_true, if_true, List.length_replicate]
      rw [if_neg (by omega)]
      exact ⟨_, rfl, hrep _ (List.length_replicate _ _)⟩

theorem lockExclusive_trace_eq (io : FileIO) (w : World) (uuid : String) :
    (lockExclusive io w uuid).2.trace =
      w.trace ++ (if (keepLock io (w.clock w.ticks) uuid).1 then []
                  else [Call.lock Cookie.other (w.busy w.locks)]) := by
  unfold lockExclusive
  dsimp only
  by_cases h : (keepLock io (w.clock w.ticks) uuid).1 = true
  · have h' : (keepLock io w.now.1 uuid).1 = true := h
    rw [if_pos h', if_pos h]
    simp [World.now]
  · have h' : ¬ (keepLock io w.now.1 uuid).1 = true := h
    rw [if_neg h', if_neg h]
    rfl

theorem lockShared_trace_eq (io : FileIO) (w : World) (uuid : String) :
    (lockShared io w uuid).2.trace =
      w.trace ++ (if (keepLock io (w.clock w.ticks) uuid).1 then []
                  else [Call.lock Cookie.write (w.busy w.locks)]) := by
  unfold lockShared
  dsimp only
  by_cases h : (keepLock io (w.clock w.ticks) uuid).1 = true
  · have h' : (keepLock io w.now.1 uuid).1 = true := h
    rw [if_pos h', if_pos h]
    simp [World.now]
  · have h' : ¬ (keepLock io w.now.1 uuid).1 = true := h
    rw [if_neg h', if_neg h]
    rfl

theorem writeLock_spec (total : Nat) (io : FileIO) (w : World) (opId : String) :
    ((if total > 1 then lockExclusive io w opId else lockShared io w opId).1.mPool = io.mPool ∧
     (if total > 1 then lockExclusive io w opId else lockShared io w opId).1.mInode = io.mInode ∧
     (if total > 1 then lockExclusive io w opId else lockShared io w opId).1.mChunkSize
        = io.mChunkSize ∧
     (if total > 1 then lockExclusive io w opId else lockShared io w opId).1.chunkName
        = io.chunkName ∧
     (if total > 1 then lockExclusive io w opId else lockShared io w opId).1.mInlineBuffer
        = io.mInlineBuffer) ∧
    (if total > 1 then lockExclusive io w opId else lockShared io w opId).2.objects = w.objects ∧
    (if total > 1 then lockExclusive io w opId else lockShared io w opId).2.trace
      = w.trace ++ (if (keepLock io (w.clock w.ticks) opId).1 then []
                    else [Call.lock (writeCookie total) (w.busy w.locks)]) := by
  unfold writeCookie
  by_cases h : total > 1
  · simp only [h, if_true]
    obtain ⟨f1, f2, f3, f4, f5, -⟩ := lockExclusive_frame io w opId
    exact ⟨⟨f1, f2, f3, f4, f5⟩, lockExclusive_objects io w opId, lockExclusive_trace_eq io w opId⟩
  · simp only [h, if_false]
    obtain ⟨f1, f2, f3, f4, f5, -⟩ := lockShared_frame io w opId
    exact ⟨⟨f1, f2, f3, f4, f5⟩, lockShared_objects io w opId, lockShared_trace_eq io w opId⟩

theorem realWriteLoop_ops (opId : String) (buff : List Byte) (blen first total cs off : Nat)
    (pool : Pool) (cn : Nat → String) (hcs : 0 < cs) :
    ∀ (n i : Nat) (io : FileIO) (w : World),
      io.mChunkSize = cs → io.mPool = pool → io.chunkName = cn →
      (pool.hasAlignment = true → ∀ k o, w.objects (cn k) = some o →
        o.data = [] ∨ cs ≤ o.data.length) →
      ∃ r new,
        realWriteLoop opId buff blen first total n i (pieceLocal cs off i)
          (blen - pieceBefore cs off blen i) io w = some r ∧
        r.2.trace = w.trace ++ new ∧
        List.Forall₂
          (fun (a : Nat × ObjOp) (k : Nat) => a.1 = first + k ∧
            IsChunkWrite pool.hasAlignment (pieceLocal cs off k)
              ((buff.drop (pieceBefore cs off blen k)).take (pieceLength cs off blen k)) a.2)
          (chunkOps new) (List.range' i n) ∧
        (∀ c m, Call.lock c m ∈ new → c = writeCookie total) ∧
        r.1.mChunkSize = cs ∧ r.1.mPool = pool ∧ r.1.chunkName = cn ∧
        r.1.mInlineBuffer = io.mInlineBuffer ∧ r.1.mInode = io.mInode ∧
        (pool.hasAlignment = true → ∀ k o, r.2.objects (cn k) = some o →
          o.data = [] ∨ cs ≤ o.data.length) ∧
        (pool.hasAlignment = true → ∀ name,
          (w.objects name).map (·.data.length) = some cs →
          (r.2.objects name).map (·.data.length) = some cs) ∧
        (pool.hasAlignment = true → ∀ k, i ≤ k → k < i + n →
          (r.2.objects (cn (first + k))).map (·.data.length) = some cs) := by
  intro n
  induction n with
  | zero =>
      intro i io w e1 e2 e3 hinv
      refine ⟨(io, w), [], rfl, by simp, ?_, ?_, e1, e2, e3, rfl, rfl, hinv, fun _ _ h => h, ?_⟩
      · exact List.Forall₂.nil
      · intro c m h
        cases h
      · intro _ k h1 h2
        omega
  | succ n ih =>
      intro i io w e1 e2 e3 hinv
      obtain ⟨⟨f1, f2, f3, f4, f5⟩, hobj, htr⟩ := writeLock_spec total io w opId
      have hb := pieceBefore_le cs off blen i
      have hsucc := pieceBefore_succ cs off blen i hcs
      have hfit := pieceLength_fit cs off blen i hcs
      have hslice : (buff.drop (blen - (blen - pieceBefore cs off blen i))).take
            (min (io.mChunkSize - pieceLocal cs off i) (blen - pieceBefore cs off blen i))
          = (buff.drop (pieceBefore cs off blen i)).take (pieceLength cs off blen i) := by
        have : blen - (blen - pieceBefore cs off blen i) = pieceBefore cs off blen i := by omega
        rw [this, e1]
        rfl
      have hrem : blen - pieceBefore cs off blen i
            - min (io.mChunkSize - pieceLocal cs off i) (blen - pieceBefore cs off blen i)
          = blen - pieceBefore cs off blen (i + 1) := by
        rw [hsucc, e1]
        unfold pieceLength
        omega
      have hloc : (0 : Nat) = pieceLocal cs off (i + 1) := by
        unfold pieceLocal
        rw [if_neg (Nat.succ_ne_zero i)]
      have hlocks : ∀ c m, Call.lock c m ∈
          (if (keepLock io (w.clock w.ticks) opId).1 then []
            else [Call.lock (writeCookie total) (w.busy w.locks)]) → c = writeCookie total := by
        intro c m h
        split_ifs at h
        · cases h
        · rw [List.mem_singleton] at h
          cases h
          rfl
      have hlops : chunkOps
          (if (keepLock io (w.clock w.ticks) opId).1 then []
            else [Call.lock (writeCookie total) (w.busy w.locks)]) = [] := by
        split_ifs <;> rfl
      simp only [realWriteLoop]
      rw [hslice, hrem]
      by_cases hal : pool.hasAlignment = true
      · -- pool with alignment
        have hal' : io.mPool.hasAlignment = true := by rw [e2]; exact hal
        rw [if_pos hal']
        have hd : ∀ o,
            (if total > 1 then lockExclusive io w opId else lockShared io w opId).2.objects
              ((if total > 1 then lockExclusive io w opId else lockShared io w opId).1.chunkName
                (first + i)) = some o →
            o.data = [] ∨
              (if total > 1 then lockExclusive io w opId else lockShared io w opId).1.mChunkSize
                ≤ o.data.length := by
          rw [hobj, f4, f3, e3, e1]
          exact hinv hal (first + i)
        have ho : pieceLocal cs off i
            + ((buff.drop (pieceBefore cs off blen i)).take (pieceLength cs off blen i)).length
            ≤ (if total > 1 then lockExclusive io w opId else lockShared io w opId).1.mChunkSize := by
          rw [f3, e1]
          have := List.length_take_le (pieceLength cs off blen i)
            (buff.drop (pieceBefore cs off blen i))
          omega
        obtain ⟨e, he, hlen⟩ := setAligned_exact
          (if total > 1 then lockExclusive io w opId else lockShared io w opId).1
          (if total > 1 then lockExclusive io w opId else lockShared io w opId).2
          (first + i) (pieceLocal cs off i)
          ((buff.drop (pieceBefore cs off blen i)).take (pieceLength cs off blen i)) false hd ho
        rw [f3, e1] at hlen
        rw [he]
        dsimp only
        have hobj' : ∀ name,
            (operate (if total > 1 then lockExclusive io w opId else lockShared io w opId).1
              ((if total > 1 then lockExclusive io w opId else lockShared io w opId).2.log
                (Call.query (Target.chunk (first + i)) Query.alignedRead))
              (Target.chunk (first + i))
              (ObjOp.alignedWrite
                (((if total > 1 then lockExclusive io w opId else lockShared io w opId).2.objects
                  ((if total > 1 then lockExclusive io w opId
                    else lockShared io w opId).1.chunkName (first + i))).bind (·.size))
                (replaceStr e (pieceLocal cs off i)
                  ((buff.drop (pieceBefore cs off blen i)).take
                    (pieceLength cs off blen i)).length
                  ((buff.drop (pieceBefore cs off blen i)).take (pieceLength cs off blen i)))
                false)).2.objects name
            = if name = cn (first + i) then
                some { data := replaceStr e (pieceLocal cs off i)
                          ((buff.drop (pieceBefore cs off blen i)).take
                            (pieceLength cs off blen i)).length
                          ((buff.drop (pieceBefore cs off blen i)).take
                            (pieceLength cs off blen i)),
                       size := (w.objects (cn (first + i))).bind (·.size) }
              else w.objects name := by
          intro name
          simp only [operate, objName, World.log, applyOp, f4, e3, hobj]
        obtain ⟨r, new, hr, htrace, hops, hlk, g1, g2, g3, g4, g5, g6, g7, g8⟩ := ih (i + 1)
          { (if total > 1 then lockExclusive io w opId else lockShared io w opId).1 with
              mOpManager := OpsManager.modify
                (if total > 1 then lockExclusive io w opId else lockShared io w opId).1.mOpManager
                opId
                (·.addCompletion
                  (operate (if total > 1 then lockExclusive io w opId else lockShared io w opId).1
                    ((if total > 1 then lockExclusive io w opId else lockShared io w opId).2.log
                      (Call.query (Target.chunk (first + i)) Query.alignedRead))
                    (Target.chunk (first + i))
                    (ObjOp.alignedWrite
                      (((if total > 1 then lockExclusive io w opId
                          else lockShared io w opId).2.objects
                        ((if total > 1 then lockExclusive io w opId
                          else lockShared io w opId).1.chunkName (first + i))).bind (·.size))
                      (replaceStr e (pieceLocal cs off i)
                        ((buff.drop (pieceBefore cs off blen i)).take
                          (pieceLength cs off blen i)).length
                        ((buff.drop (pieceBefore cs off blen i)).take
                          (pieceLength cs off blen i)))
                      false)).1) }
          (operate (if total > 1 then lockExclusive io w opId else lockShared io w opId).1
            ((if total > 1 then lockExclusive io w opId else lockShared io w opId).2.log
              (Call.query (Target.chunk (first + i)) Query.alignedRead))
            (Target.chunk (first + i))
            (ObjOp.alignedWrite
              (((if total > 1 then lockExclusive io w opId else lockShared io w opId).2.objects
                ((if total > 1 then lockExclusive io w opId
                  else lockShared io w opId).1.chunkName (first + i))).bind (·.size))
              (replaceStr e (pieceLocal cs off i)
                ((buff.drop (pieceBefore cs off blen i)).take
                  (pieceLength cs off blen i)).length
                ((buff.drop (pieceBefore cs off blen i)).take (pieceLength cs off blen i)))
              false)).2
          (f3.trans e1) (f1.trans e2) (f4.trans e3)
          (by
            intro _ k o hko
            rw [hobj' (cn k)] at hko
            by_cases hk : cn k = cn (first + i)
            · rw [if_pos hk] at hko
              cases hko
              right
              exact le_of_eq hlen.symm
            · rw [if_neg hk] at hko
              exact hinv hal k o hko)
        rw [← hloc] at hr
        refine ⟨r, (if (keepLock io (w.clock w.ticks) opId).1 then []
            else [Call.lock (writeCookie total) (w.busy w.locks)])
          ++ [Call.query (Target.chunk (first + i)) Query.alignedRead,
              Call.op (Target.chunk (first + i))
                (ObjOp.alignedWrite
                  (((if total > 1 then lockExclusive io w opId
                      else lockShared io w opId).2.objects
                    ((if total > 1 then lockExclusive io w opId
                      else lockShared io w opId).1.chunkName (first + i))).bind (·.size))
                  (replaceStr e (pieceLocal cs off i)
                    ((buff.drop (pieceBefore cs off blen i)).take
                      (pieceLength cs off blen i)).length
                    ((buff.drop (pieceBefore cs off blen i)).take
                      (pieceLength cs off blen i)))
                  false)] ++ new,
          hr, ?_, ?_, ?_, g1, g2, g3, g4.trans f5, g5.trans f2, g6, ?_, ?_⟩
        · rw [htrace]
          simp only [operate, World.log, htr, List.append_assoc, List.singleton_append,
            List.cons_append, List.nil_append]
        · rw [chunkOps_append, chunkOps_append, hlops, List.nil_append, List.range'_succ]
          refine List.Forall₂.cons ⟨rfl, ?_⟩ hops
          unfold IsChunkWrite
          rw [if_pos hal]
          exact ⟨_, e, rfl⟩
        · intro c m hmem
          rcases List.mem_append.mp hmem with h1 | h1
          · rcases List.mem_append.mp h1 with h2 | h2
            · exact hlocks c m h2
            · simp at h2
          · exact hlk c m h1
        · intro _ name hname
          apply g7 hal
          rw [hobj' name]
          by_cases hk : name = cn (first + i)
          · rw [if_pos hk]
            exact congrArg some hlen
          · rw [if_neg hk]
            exact hname
        · intro _ k hk1 hk2
          by_cases hki : k = i
          · subst hki
            apply g7 hal
            rw [hobj' (cn (first + k)), if_pos rfl]
            exact congrArg some hlen
          · exact g8 hal k (by omega) (by omega)
      · -- pool without alignment
        have hal' : ¬ io.mPool.hasAlignment = true := by rw [e2]; exact hal
        rw [if_neg hal']
        dsimp only
        obtain ⟨r, new, hr, htrace, hops, hlk, g1, g2, g3, g4, g5, g6, g7, g8⟩ := ih (i + 1)
          { (if total > 1 then lockExclusive io w opId else lockShared io w opId).1 with
              mOpManager := OpsManager.modify
                (if total > 1 then lockExclusive io w opId else lockShared io w opId).1.mOpManager
                opId
                (·.addCompletion
                  (operate (if total > 1 then lockExclusive io w opId else lockShared io w opId).1
                    (if total > 1 then lockExclusive io w opId else lockShared io w opId).2
                    (Target.chunk (first + i))
                    (ObjOp.write (pieceLocal cs off i)
                      ((buff.drop (pieceBefore cs off blen i)).take
                        (pieceLength cs off blen i)))).1) }
          (operate (if total > 1 then lockExclusive io w opId else lockShared io w opId).1
            (if total > 1 then lockExclusive io w opId else lockShared io w opId).2
            (Target.chunk (first + i))
            (ObjOp.write (pieceLocal cs off i)
              ((buff.drop (pieceBefore cs off blen i)).take (pieceLength cs off blen i)))).2
          (f3.trans e1) (f1.trans e2) (f4.trans e3)
          (fun h => absurd h hal)
        rw [← hloc] at hr
        refine ⟨r, (if (keepLock io (w.clock w.ticks) opId).1 then []
            else [Call.lock (writeCookie total) (w.busy w.locks)])
          ++ [Call.op (Target.chunk (first + i))
                (ObjOp.write (pieceLocal cs off i)
                  ((buff.drop (pieceBefore cs off blen i)).take (pieceLength cs off blen i)))]
          ++ new,
          hr, ?_, ?_, ?_, g1, g2, g3, g4.trans f5, g5.trans f2, fun h => absurd h hal,
          fun h => absurd h hal, fun h => absurd h hal⟩
        · rw [htrace]
          simp only [operate, htr, List.append_assoc, List.singleton_append,
            List.cons_append, List.nil_append]
        · rw [chunkOps_append, chunkOps_append, hlops, List.nil_append, List.range'_succ]
          refine List.Forall₂.cons ⟨rfl, ?_⟩ hops
          unfold IsChunkWrite
          rw [if_neg hal]
        · intro c m hmem
          rcases List.mem_append.mp hmem with h1 | h1
          · rcases List.mem_append.mp h1 with h2 | h2
            · exact hlocks c m h2
            · simp at h2
          · exact hlk c m h1

theorem inodeOp_data (io : FileIO) (w : World) (op : ObjOp)
    (hop : op = ObjOp.updateTime ∨ ∃ n bl, op = ObjOp.setSizeIfBigger n bl)
    (name : String) (o : Obj)
    (h : (operate io w Target.inode op).2.objects name = some o) :
    o.data = [] ∨ ∃ o', w.objects name = some o' ∧ o'.data = o.data := by
  simp only [operate, objName] at h
  by_cases hn : name = io.mInode
  · rw [if_pos hn] at h
    rw [hn]
    cases hobj : w.objects io.mInode with
    | none =>
        rw [hobj] at h
        rcases hop with hop | ⟨n, bl, hop⟩
        · subst hop
          cases h
          exact Or.inl rfl
        · subst hop
          simp only [applyOp, Option.bind_none, Option.map_none', Option.getD_none] at h
          cases h
          exact Or.inl rfl
    | some o' =>
        rw [hobj] at h
        right
        refine ⟨o', rfl, ?_⟩
        rcases hop with hop | ⟨n, bl, hop⟩
        · subst hop
          cases h
          rfl
        · subst hop
          simp only [applyOp, Option.map_some', Option.getD_some] at h
          have hb : ((some o').bind fun x => x.size) = o'.size := rfl
          rw [hb] at h
          cases hs : o'.size with
          | none =>
              rw [hs] at h
              cases h
              rfl
          | some cur =>
              rw [hs] at h
              dsimp only at h
              split_ifs at h
              · cases h
                rfl
              · cases h
                rfl
  · rw [if_neg hn] at h
    exact Or.inr ⟨o, h, rfl⟩

theorem totalChunks_eq (cs offset blen : Nat) (hlen : 0 < blen)
    (hsum : offset + blen < 2 ^ 64) :
    uadd (usub (usub (uadd offset blen) 1 / cs) (offset / cs)) 1 = pieceCount cs offset blen := by
  have h1 : (offset + blen - 1) / cs ≤ offset + blen - 1 := Nat.div_le_self _ _
  have h2 : offset / cs ≤ (offset + blen - 1) / cs := Nat.div_le_div_right (by omega)
  unfold pieceCount
  rw [if_neg (by omega), uadd_of_lt _ _ hsum, usub_of_le _ _ (by omega) hsum]
  generalize (offset + blen - 1) / cs = l at h1 h2 ⊢
  generalize offset / cs = f at h2 ⊢
  rw [usub_of_le _ _ h2 (by omega), uadd_of_lt _ _ (by omega)]

theorem realWriteInode_chunking (io : FileIO) (w : World) (buff : List Byte)
    (offset blen : Nat) (opId : String) (hcs : 0 < io.mChunkSize) (hlen : 0 < blen)
    (hsum : offset + blen < 2 ^ 64)
    (hinv : io.mPool.hasAlignment = true → ∀ k o, w.objects (io.chunkName k) = some o →
      o.data = [] ∨ io.mChunkSize ≤ o.data.length) :
    ∃ r new,
      realWriteInode io w buff offset blen opId = some r ∧ r.1 = 0 ∧
      r.2.2.trace = w.trace ++ new ∧
      List.Forall₂
        (fun (a : Nat × ObjOp) (k : Nat) => a.1 = offset / io.mChunkSize + k ∧
          IsChunkWrite io.mPool.hasAlignment (pieceLocal io.mChunkSize offset k)
            ((buff.drop (pieceBefore io.mChunkSize offset blen k)).take
              (pieceLength io.mChunkSize offset blen k)) a.2)
        (chunkOps new) (List.range (pieceCount io.mChunkSize offset blen)) ∧
      (∀ c m, Call.lock c m ∈ new → c = writeCookie (pieceCount io.mChunkSize offset blen)) ∧
      (¬ (w.clock w.ticks - io.mLockStart < (FILE_LOCK_DURATION - 1) * ticksPerSecond) →
        Call.lock (writeCookie (pieceCount io.mChunkSize offset blen)) (w.busy w.locks) ∈ new) ∧
      (io.mPool.hasAlignment = true → ∀ k, k < pieceCount io.mChunkSize offset blen →
        (r.2.2.objects (io.chunkName (offset / io.mChunkSize + k))).map (·.data.length)
          = some io.mChunkSize) ∧
      (io.mPool.hasAlignment = true → ∀ k o, r.2.2.objects (io.chunkName k) = some o →
        o.data = [] ∨ io.mChunkSize ≤ o.data.length) := by
  have htc := totalChunks_eq io.mChunkSize offset blen hlen hsum
  obtain ⟨⟨f1, f2, f3, f4, f5⟩, hobj, htr⟩ := writeLock_spec
    (pieceCount io.mChunkSize offset blen) io (operate io w Target.inode ObjOp.updateTime).2 opId
  unfold realWriteInode
  dsimp only
  rw [htc]
  have hstart : ∀ k o,
      (setSizeIfBigger
        (if pieceCount io.mChunkSize offset blen > 1 then
            lockExclusive io (operate io w Target.inode ObjOp.updateTime).2 opId
          else lockShared io (operate io w Target.inode ObjOp.updateTime).2 opId).1
        (if pieceCount io.mChunkSize offset blen > 1 then
            lockExclusive io (operate io w Target.inode ObjOp.updateTime).2 opId
          else lockShared io (operate io w Target.inode ObjOp.updateTime).2 opId).2
        (uadd offset blen) opId).2.objects (io.chunkName k) = some o →
      io.mPool.hasAlignment = true → o.data = [] ∨ io.mChunkSize ≤ o.data.length := by
    intro k o ho hal
    unfold setSizeIfBigger at ho
    dsimp only at ho
    rcases inodeOp_data _ _ _ (Or.inr ⟨_, _, rfl⟩) _ _ ho with h0 | ⟨o1, ho1, hd1⟩
    · exact Or.inl h0
    · rw [hobj] at ho1
      rcases inodeOp_data _ _ _ (Or.inl rfl) _ _ ho1 with h0 | ⟨o2, ho2, hd2⟩
      · left
        rw [← hd1]
        exact h0
      · rw [← hd1, ← hd2]
        exact hinv hal k o2 ho2
  obtain ⟨r, new, hr, htrace, hops, hlk, g1, g2, g3, g4, g5, g6, g7, g8⟩ :=
    realWriteLoop_ops opId buff blen (offset / io.mChunkSize)
      (pieceCount io.mChunkSize offset blen) io.mChunkSize offset io.mPool io.chunkName hcs
      (pieceCount io.mChunkSize offset blen) 0
      (setSizeIfBigger
        (if pieceCount io.mChunkSize offset blen > 1 then
            lockExclusive io (operate io w Target.inode ObjOp.updateTime).2 opId
          else lockShared io (operate io w Target.inode ObjOp.updateTime).2 opId).1
        (if pieceCount io.mChunkSize offset blen > 1 then
            lockExclusive io (operate io w Target.inode ObjOp.updateTime).2 opId
          else lockShared io (operate io w Target.inode ObjOp.updateTime).2 opId).2
        (uadd offset blen) opId).1
      (setSizeIfBigger
        (if pieceCount io.mChunkSize offset blen > 1 then
            lockExclusive io (operate io w Target.inode ObjOp.updateTime).2 opId
          else lockShared io (operate io w Target.inode ObjOp.updateTime).2 opId).1
        (if pieceCount io.mChunkSize offset blen > 1 then
            lockExclusive io (operate io w Target.inode ObjOp.updateTime).2 opId
          else lockShared io (operate io w Target.inode ObjOp.updateTime).2 opId).2
        (uadd offset blen) opId).2
      f3 f1 f4 (fun hal k o ho => hstart k o ho hal)
  have hr' : realWriteLoop opId buff blen (offset / io.mChunkSize)
      (pieceCount io.mChunkSize offset blen) (pieceCount io.mChunkSize offset blen) 0
      (offset % io.mChunkSize) blen _ _ = some r := hr
  rw [hr']
  have hpre : (setSizeIfBigger
        (if pieceCount io.mChunkSize offset blen > 1 then
            lockExclusive io (operate io w Target.inode ObjOp.updateTime).2 opId
          else lockShared io (operate io w Target.inode ObjOp.updateTime).2 opId).1
        (if pieceCount io.mChunkSize offset blen > 1 then
            lockExclusive io (operate io w Target.inode ObjOp.updateTime).2 opId
          else lockShared io (operate io w Target.inode ObjOp.updateTime).2 opId).2
        (uadd offset blen) opId).2.trace
      = w.trace ++ ([Call.op Target.inode ObjOp.updateTime] ++
          (if (keepLock io (w.clock w.ticks) opId).1 then []
            else [Call.lock (writeCookie (pieceCount io.mChunkSize offset blen))
                    (w.busy w.locks)]) ++
          [Call.op Target.inode (ObjOp.setSizeIfBigger (uadd offset blen)
            (if (!(io.mPath = "") && shouldSetBacklink io) = true then some io.mPath else none))]) := by
    unfold setSizeIfBigger
    dsimp only
    rw [operate_trace, htr, operate_trace]
    have hp : (if pieceCount io.mChunkSize offset blen > 1 then
            lockExclusive io (operate io w Target.inode ObjOp.updateTime).2 opId
          else lockShared io (operate io w Target.inode ObjOp.updateTime).2 opId).1.mPath
        = io.mPath := by
      split_ifs
      · exact (lockExclusive_frame _ _ _).2.2.2.2.2.2.1
      · exact (lockShared_frame _ _ _).2.2.2.2.2.2.1
    have hbk : (if pieceCount io.mChunkSize offset blen > 1 then
            lockExclusive io (operate io w Target.inode ObjOp.updateTime).2 opId
          else lockShared io (operate io w Target.inode ObjOp.updateTime).2 opId).1.mHasBackLink
        = io.mHasBackLink := by
      split_ifs
      · exact (lockExclusive_frame _ _ _).2.2.2.2.2.2.2
      · exact (lockShared_frame _ _ _).2.2.2.2.2.2.2
    unfold shouldSetBacklink
    rw [hp, hbk]
    simp [operate]
  refine ⟨_, ([Call.op Target.inode ObjOp.updateTime] ++
          (if (keepLock io (w.clock w.ticks) opId).1 then []
            else [Call.lock (writeCookie (pieceCount io.mChunkSize offset blen))
                    (w.busy w.locks)]) ++
          [Call.op Target.inode (ObjOp.setSizeIfBigger (uadd offset blen)
            (if (!(io.mPath = "") && shouldSetBacklink io) = true then some io.mPath else none))])
        ++ new, rfl, rfl, ?_, ?_, ?_, ?_, ?_, ?_⟩
  · show r.2.trace = _
    rw [htrace, hpre, List.append_assoc]
  · have e : chunkOps ([Call.op Target.inode ObjOp.updateTime] ++
          (if (keepLock io (w.clock w.ticks) opId).1 then []
            else [Call.lock (writeCookie (pieceCount io.mChunkSize offset blen))
                    (w.busy w.locks)]) ++
          [Call.op Target.inode (ObjOp.setSizeIfBigger (uadd offset blen)
            (if (!(io.mPath = "") && shouldSetBacklink io) = true then some io.mPath
              else none))]) = [] := by
      split_ifs <;> rfl
    rw [chunkOps_append, e, List.nil_append, List.range_eq_range']
    exact hops
  · intro c m hmem
    rcases List.mem_append.mp hmem with h1 | h1
    · rcases List.mem_append.mp h1 with h2 | h2
      · rcases List.mem_append.mp h2 with h3 | h3
        · simp at h3
        · split_ifs at h3
          · cases h3
          · rw [List.mem_singleton] at h3
            cases h3
            rfl
      · simp at h2
    · exact hlk c m h1
  · intro hexp
    have hk : (keepLock io (w.clock w.ticks) opId).1 = false := by
      unfold keepLock
      rw [if_neg hexp]
    rw [hk]
    simp
  · intro hal k hk
    exact g8 hal k (Nat.zero_le _) (by omega)
  · intro hal k o ho
    exact g6 hal k o ho

theorem writeCookie_count (cs offset blen : Nat) (hlen : 0 < blen) :
    writeCookie (pieceCount cs offset blen)
      = (if (offset + blen - 1) / cs > offset / cs then Cookie.other else Cookie.write) := by
  have hpc : pieceCount cs offset blen = (offset + blen - 1) / cs - offset / cs + 1 := by
    unfold pieceCount
    exact if_neg (by omega)
  unfold writeCookie
  rw [hpc]
  generalize (offset + blen - 1) / cs = l
  generalize offset / cs = f
  by_cases h : l > f
  · rw [if_pos h, if_pos (by omega)]
  · rw [if_neg h, if_neg (by omega)]

/-- C20: for every chunk size `CS > 0` and every write of `blen > 0` bytes at
`offset` left after the inline buffer block (on a pool with alignment: in a state
whose chunk objects are empty or hold at least a whole chunk), `realWrite`
returns 0 and its chunk operations are exactly `n = last - first + 1` chunk
writes, `first = offset / CS`, `last = (offset + blen - 1) / CS`, the `k`-th one
on chunk `first + k`, with the object-local offset `offset mod CS` for `k = 0`
and 0 later and the slice of `min(CS - local_off, remaining) > 0` bytes that
starts `before_k` bytes into the buffer, `remaining = blen - before_k`,
`before_0 = 0`, `before_(k+1) = before_k + length_k`, `before_n = blen` (the
slices are the consecutive pieces of the buffer and their lengths sum to
`blen`); every lock call it makes is for the exclusive lock if `last > first` and
for the shared lock otherwise, and it makes one when the lease has run out. -/
theorem write_chunking (io : FileIO) (w : World) (buff : List Byte) (offset blen : Nat)
    (opId : String) (hcs : 0 < io.mChunkSize) (hlen : 0 < blen)
    (hsum : offset + blen < 2 ^ 64)
    (hinv : io.mPool.hasAlignment = true → ∀ k o, w.objects (io.chunkName k) = some o →
      o.data = [] ∨ io.mChunkSize ≤ o.data.length) :
    ∃ r new,
      realWriteInode io w buff offset blen opId = some r ∧ r.1 = 0 ∧
      (io.mInlineBuffer = none → ∀ del,
        realWrite io w buff offset blen del opId = some r) ∧
      r.2.2.trace = w.trace ++ new ∧
      List.Forall₂
        (fun (a : Nat × ObjOp) (k : Nat) => a.1 = offset / io.mChunkSize + k ∧
          IsChunkWrite io.mPool.hasAlignment (pieceLocal io.mChunkSize offset k)
            ((buff.drop (pieceBefore io.mChunkSize offset blen k)).take
              (pieceLength io.mChunkSize offset blen k)) a.2)
        (chunkOps new) (List.range (pieceCount io.mChunkSize offset blen)) ∧
      pieceCount io.mChunkSize offset blen
        = (offset + blen - 1) / io.mChunkSize - offset / io.mChunkSize + 1 ∧
      (∀ k, k < pieceCount io.mChunkSize offset blen →
        pieceLocal io.mChunkSize offset k = (if k = 0 then offset % io.mChunkSize else 0) ∧
        pieceLength io.mChunkSize offset blen k
          = min (io.mChunkSize - pieceLocal io.mChunkSize offset k)
              (blen - pieceBefore io.mChunkSize offset blen k) ∧
        0 < pieceLength io.mChunkSize offset blen k ∧
        pieceLocal io.mChunkSize offset k + pieceLength io.mChunkSize offset blen k
          ≤ io.mChunkSize ∧
        pieceBefore io.mChunkSize offset blen (k + 1)
          = pieceBefore io.mChunkSize offset blen k + pieceLength io.mChunkSize offset blen k ∧
        (blen ≤ buff.length →
          ((buff.drop (pieceBefore io.mChunkSize offset blen k)).take
            (pieceLength io.mChunkSize offset blen k)).length
            = pieceLength io.mChunkSize offset blen k)) ∧
      pieceBefore io.mChunkSize offset blen 0 = 0 ∧
      pieceBefore io.mChunkSize offset blen (pieceCount io.mChunkSize offset blen) = blen ∧
      (∀ c m, Call.lock c m ∈ new →
        c = (if (offset + blen - 1) / io.mChunkSize > offset / io.mChunkSize then Cookie.other
             else Cookie.write)) ∧
      (¬ (w.clock w.ticks - io.mLockStart < (FILE_LOCK_DURATION - 1) * ticksPerSecond) →
        Call.lock
          (if (offset + blen - 1) / io.mChunkSize > offset / io.mChunkSize then Cookie.other
           else Cookie.write) (w.busy w.locks) ∈ new) := by
  obtain ⟨r, new, h1, h2, h3, h4, h5, h6, -, -⟩ :=
    realWriteInode_chunking io w buff offset blen opId hcs hlen hsum hinv
  have hck := writeCookie_count io.mChunkSize offset blen hlen
  rw [hck] at h5 h6
  refine ⟨r, new, h1, h2, fun hib del => ?_, h3, h4, ?_, fun k hk => ?_, rfl,
    pieceBefore_count _ _ _ hcs, h5, h6⟩
  · exact (realWrite_of_noInline io w buff offset blen del opId hib).trans h1
  · unfold pieceCount
    rw [if_neg (by omega)]
  · have hsucc := pieceBefore_succ io.mChunkSize offset blen k hcs
    have hble := pieceBefore_le io.mChunkSize offset blen (k + 1)
    refine ⟨rfl, rfl, pieceLength_pos _ _ _ k hcs hk, pieceLength_fit _ _ _ k hcs, hsucc, ?_⟩
    intro hbuf
    rw [List.length_take, List.length_drop]
    omega

set_option maxRecDepth 100000 in
theorem write_chunking_witness :
    (0 < demoIO.mChunkSize ∧ 0 < 7 ∧ 6 + 7 < 2 ^ 64) ∧
    (∃ r new,
      realWriteInode demoIO demoWorld [1, 2, 3, 4, 5, 6, 7] 6 7 "op" = some r ∧ r.1 = 0 ∧
      r.2.2.trace = demoWorld.trace ++ new ∧
      List.Forall₂
        (fun (a : Nat × ObjOp) (k : Nat) => a.1 = 6 / demoIO.mChunkSize + k ∧
          IsChunkWrite demoIO.mPool.hasAlignment (pieceLocal demoIO.mChunkSize 6 k)
            ((([1, 2, 3, 4, 5, 6, 7] : List Byte).drop (pieceBefore demoIO.mChunkSize 6 7 k)).take
              (pieceLength demoIO.mChunkSize 6 7 k)) a.2)
        (chunkOps new) (List.range (pieceCount demoIO.mChunkSize 6 7))) ∧
    (realWriteInode demoIO demoWorld [1, 2, 3, 4, 5, 6, 7] 6 7 "op").map
        (fun r => chunkOps r.2.2.trace)
      = some [(1, ObjOp.write 2 [1, 2]), (2, ObjOp.write 0 [3, 4, 5, 6]),
              (3, ObjOp.write 0 [7])] :=
  ⟨⟨by decide, by decide, by decide⟩,
   (write_chunking demoIO demoWorld [1, 2, 3, 4, 5, 6, 7] 6 7 "op" (by decide) (by decide)
      (by decide) (fun h => absurd h (by decide))).imp
     (fun _ h => h.imp (fun _ h' => ⟨h'.1, h'.2.1, h'.2.2.2.1, h'.2.2.2.2.1⟩)),
   by decide⟩

theorem truncateLoop_step (opId : String) (nl tail i : Nat) (io : FileIO) (w : World) :
    truncateLoop opId nl tail (i + 1 + 1) io w =
      truncateLoop opId nl tail (i + 1)
        { (lockExclusive io w opId).1 with
            mOpManager := OpsManager.modify (lockExclusive io w opId).1.mOpManager opId
              (·.addCompletion
                (operate (lockExclusive io w opId).1 (lockExclusive io w opId).2
                  (Target.chunk (uadd nl (i + 1))) ObjOp.remove).1) }
        (operate (lockExclusive io w opId).1 (lockExclusive io w opId).2
          (Target.chunk (uadd nl (i + 1))) ObjOp.remove).2 := by
  conv_lhs => rw [truncateLoop]
  rw [if_neg (Nat.succ_ne_zero i)]

theorem truncateLoop_aligned (opId : String) (newLastChunk tail cs : Nat) (pool : Pool)
    (cn : Nat → String) (htail : tail ≤ cs) (hal : pool.hasAlignment = true) :
    ∀ (n : Nat) (io : FileIO) (w : World),
      io.mChunkSize = cs → io.mPool = pool → io.chunkName = cn →
      newLastChunk + (n + 1) ≤ 2 ^ 64 →
      (∀ o, w.objects (cn newLastChunk) = some o → o.data = [] ∨ cs ≤ o.data.length) →
      ∃ r, truncateLoop opId newLastChunk tail (n + 1) io w = some r ∧
        (r.2.objects (cn newLastChunk)).map (·.data.length) = some cs := by
  intro n
  induction n with
  | zero =>
      intro io w e1 e2 e3 hwrap hdata
      obtain ⟨f1, f2, f3, f4, -⟩ := lockExclusive_frame io w opId
      have hobj := lockExclusive_objects io w opId
      have hk : uadd newLastChunk 0 = newLastChunk := by
        rw [uadd_of_lt _ _ (by omega)]
        rfl
      have hal' : io.mPool.hasAlignment = true := by rw [e2]; exact hal
      simp only [truncateLoop]
      rw [if_pos True.intro, if_pos hal', hk]
      have hd : ∀ o, (lockExclusive io w opId).2.objects
          ((lockExclusive io w opId).1.chunkName newLastChunk) = some o →
          o.data = [] ∨ (lockExclusive io w opId).1.mChunkSize ≤ o.data.length := by
        rw [hobj, f4, f3, e3, e1]
        exact hdata
      have ho : tail + (List.replicate (io.mChunkSize - tail) (0 : Byte)).length
          ≤ (lockExclusive io w opId).1.mChunkSize := by
        rw [f3, e1, List.length_replicate]
        omega
      obtain ⟨e, he, hlen⟩ := setAligned_exact (lockExclusive io w opId).1
        (lockExclusive io w opId).2 newLastChunk tail _ true hd ho
      rw [he]
      refine ⟨_, rfl, ?_⟩
      simp only [truncateLoop, operate, objName, World.log, applyOp, f4, e3, if_true]
      exact congrArg some (hlen.trans (f3.trans e1))
  | succ i ih =>
      intro io w e1 e2 e3 hwrap hdata
      obtain ⟨f1, f2, f3, f4, -⟩ := lockExclusive_frame io w opId
      have hobj := lockExclusive_objects io w opId
      rw [truncateLoop_step]
      apply ih
      · exact f3.trans e1
      · exact f1.trans e2
      · exact f4.trans e3
      · omega
      · intro o ho
        simp only [operate, objName, f4, e3, hobj] at ho
        by_cases hn : cn newLastChunk = cn (uadd newLastChunk (i + 1))
        · rw [if_pos hn] at ho
          cases hx : w.objects (cn (uadd newLastChunk (i + 1))) with
          | none =>
              rw [hx] at ho
              cases ho
          | some x =>
              rw [hx] at ho
              cases ho
        · rw [if_neg hn] at ho
          exact hdata o ho

theorem truncateRounds_pos (io : FileIO) (N S : Nat) (hcs : 0 < io.mChunkSize)
    (hN : N < 2 ^ 63) (hS : S < 2 ^ 63) :
    1 ≤ truncateRounds (truncateTotalChunks io N S ((lastChunkOf io.mChunkSize S : Nat) : Int)) := by
  have hnl := truncateNewLastChunk_eq io N hcs
  unfold truncateTotalChunks
  by_cases hlt : S > N
  · rw [if_pos hlt, hnl]
    have hlast : lastChunkOf io.mChunkSize S = (S - 1) / io.mChunkSize := by
      unfold lastChunkOf
      rw [if_pos (by omega)]
    have hL : (S - 1) / io.mChunkSize ≤ S - 1 := Nat.div_le_self _ _
    have hle : (if N = 0 then 0 else (N - 1) / io.mChunkSize) ≤ (S - 1) / io.mChunkSize := by
      split_ifs
      · exact Nat.zero_le _
      · exact Nat.div_le_div_right (by omega)
    rw [hlast, toSizeT_natCast _ (by omega)]
    generalize (S - 1) / io.mChunkSize = l at hL hle ⊢
    generalize (if N = 0 then 0 else (N - 1) / io.mChunkSize) = f at hle ⊢
    rw [usub_of_le _ _ hle (by omega), uadd_of_lt _ _ (by omega),
      truncateRounds_of_pos _ (by omega) (by omega)]
    omega
  · rw [if_neg hlt, truncateRounds_of_pos 1 (by omega) (by norm_num)]

theorem truncate_aligned_length (io : FileIO) (w : World) (N junk S : Nat)
    (hwf : WellFormed io w) (hN : N ≤ io.mPool.size) (hal : io.mPool.hasAlignment = true)
    (hS : (w.objects io.mInode).bind (·.size) = some S) :
    ∃ r, truncate io w N junk = some r ∧
      (r.2.2.objects (io.chunkName (truncateNewLastChunk io N))).map (·.data.length)
        = some io.mChunkSize := by
  have hN2 : N < 2 ^ 63 := lt_of_le_of_lt hN hwf.poolSize_lt
  have hnot : ¬ N > io.mPool.size := by omega
  have hS2 : S < 2 ^ 63 := by
    cases hobj : w.objects io.mInode with
    | none =>
        rw [hobj] at hS
        cases hS
    | some o =>
        rw [hobj] at hS
        exact hwf.size_lt o S hobj hS
  obtain ⟨io', w', pre, opId, heq, e1, e2, e3, e4, ht, hpre, hobj⟩ :=
    truncate_prepare io w N junk hnot
  -- the inode object at the size query
  have hino : ∃ o, w'.objects io'.mInode = some o ∧ o.size = some S := by
    rw [hobj, e3]
    dsimp only
    rw [if_pos rfl]
    cases hx : w.objects io.mInode with
    | none =>
        rw [hx] at hS
        cases hS
    | some x =>
        rw [hx] at hS
        exact ⟨x, rfl, hS⟩
  obtain ⟨o, ho, hos⟩ := hino
  have hq := getLast_size io' w' o S ho hos hS2
  have hcneg : ¬ ((((if S > 0 then (S - 1) / io'.mChunkSize else 0 : Nat)) : Int) < 0 ∧
      ¬ ((((if S > 0 then (S - 1) / io'.mChunkSize else 0 : Nat)) : Int) = -ENOENT ∨
         (((if S > 0 then (S - 1) / io'.mChunkSize else 0 : Nat)) : Int) = -ENODATA)) := by
    intro h
    have := h.1
    omega
  have hchunks := truncateChunks_eq io' w' _ N junk opId _ _ hq hcneg
  have hc0 : (if (((if S > 0 then (S - 1) / io'.mChunkSize else 0 : Nat)) : Int) < 0 then 0
      else (((if S > 0 then (S - 1) / io'.mChunkSize else 0 : Nat)) : Int))
      = ((lastChunkOf io'.mChunkSize S : Nat) : Int) := by
    rw [if_neg (by omega)]
    rfl
  rw [hc0] at hchunks
  have hcs' : 0 < io'.mChunkSize := by rw [e1]; exact hwf.chunkSize_pos
  have hpos := truncateRounds_pos io' N S hcs' hN2 hS2
  have hle := truncateRounds_le
    (truncateTotalChunks io' N S ((lastChunkOf io'.mChunkSize S : Nat) : Int))
  obtain ⟨n, hn⟩ : ∃ n, truncateRounds
      (truncateTotalChunks io' N S ((lastChunkOf io'.mChunkSize S : Nat) : Int)) = n + 1 :=
    ⟨_, (Nat.sub_add_cancel hpos).symm⟩
  have hnl : truncateNewLastChunk io' N ≤ N := by
    rw [truncateNewLastChunk_eq io' N hcs']
    split_ifs
    · omega
    · exact le_trans (Nat.div_le_self _ _) (Nat.sub_le _ _)
  obtain ⟨s1, s2, s3, s4, s5, -, s7⟩ := setSize_spec io'
    (w'.log (Call.query Target.inode Query.sizeXAttr)) N
  have hloop := truncateLoop_aligned opId (truncateNewLastChunk io' N) (N % io'.mChunkSize)
    io'.mChunkSize io'.mPool io'.chunkName (le_of_lt (Nat.mod_lt _ hcs'))
    (by rw [e2]; exact hal) n
    { (setSize io' (w'.log (Call.query Target.inode Query.sizeXAttr)) N).2.1 with
        mOpManager := OpsManager.addOperation
          (setSize io' (w'.log (Call.query Target.inode Query.sizeXAttr)) N).2.1.mOpManager
          { id := opId, completions := [], ready := false } }
    (setSize io' (w'.log (Call.query Target.inode Query.sizeXAttr)) N).2.2
    s4 s2 s5
    (by
      rw [← hn]
      exact le_trans (Nat.add_le_add (le_trans hnl (Nat.le_of_lt hN2)) hle) (by norm_num))
    (by
      intro o1 ho1
      rcases setSize_data io' _ N _ o1 ho1 with h0 | ⟨o2, ho2, hd⟩
      · exact Or.inl h0
      · rw [← hd]
        have ho3 : w'.objects (io'.chunkName (truncateNewLastChunk io' N)) = some o2 := ho2
        rw [hobj, e4] at ho3
        dsimp only at ho3
        rw [e1]
        by_cases hk : io.chunkName (truncateNewLastChunk io' N) = io.mInode
        · rw [if_pos hk] at ho3
          cases hx : w.objects io.mInode with
          | none =>
              rw [hx] at ho3
              cases ho3
              exact Or.inl rfl
          | some x =>
              rw [hx] at ho3
              cases ho3
              exact hwf.aligned hal _ x (by rw [hk]; exact hx)
        · rw [if_neg hk] at ho3
          exact hwf.aligned hal _ o2 ho3)
  obtain ⟨r, hr, hrlen⟩ := hloop
  rw [← hn] at hr
  have happly := truncateApply_of_loop io' (w'.log (Call.query Target.inode Query.sizeXAttr)) N S
    ((lastChunkOf io'.mChunkSize S : Nat) : Int) opId r hr
  refine ⟨_, heq.trans (hchunks.trans happly), ?_⟩
  rw [truncateNewLastChunk_congr io io' N e1] at hrlen
  rw [← e4, ← e1]
  exact hrlen

theorem demoS3File_wellFormed : WellFormed demoS3IO demoS3FileWorld :=
  { chunkSize_pos := by decide
    poolSize_lt := by decide
    chunkName_inj := demoIO_chunkName_inj
    inode_chunk := demoIO_inode_chunk
    size_lt := by
      intro o s ho hs
      have ho2 : some ({ data := List.replicate 126 120, size := some 200 } : Obj) = some o := ho
      cases ho2
      cases hs
      decide
    aligned := by
      intro _ k o ho
      have ho2 : (if demoIO.chunkName k = "ino" then
            some ({ data := List.replicate 126 120, size := some 200 } : Obj)
          else if demoIO.chunkName k = "c" then
            some ({ data := List.replicate 126 120, size := none } : Obj)
          else none) = some o := ho
      split_ifs at ho2
      · cases ho2
        right
        show 126 ≤ (List.replicate 126 (120 : Byte)).length
        rw [List.length_replicate]
      · cases ho2
        right
        show 126 ≤ (List.replicate 126 (120 : Byte)).length
        rw [List.length_replicate] }

/-- C17: for every chunk size CS > 0, every slice `s` with
`offset + len(s) ≤ CS` and a chunk whose stored content `e` is absent, empty or
of length CS, `setAlignedChunkWriteOp` returns the operation that re-applies the
attributes read and appends the reference buffer: the base (`e` if it is not
empty, CS zero bytes otherwise) with the bytes `[offset, offset + len(s))`
replaced by `s`.  That buffer has length CS, holds `s` at `offset` and the bytes
of the base everywhere else, and after the operation the chunk's stored length is
CS, a multiple of the pool's alignment when the chunk size is one.  Consequently,
on a pool with alignment whose chunk objects are empty or hold a whole chunk,
every chunk the chunk loop of `realWrite` writes (the chunks `offset / CS + k`
for `k` below the number of pieces) and the chunk `truncate` rewrites (the new
last chunk) have the stored length CS afterwards. -/
theorem aligned_write_reference (io : FileIO) (w : World) (chunk offset : Nat)
    (s : List Byte) (ae : Bool) (hcs : 0 < io.mChunkSize)
    (hmul : io.mPool.alignment ∣ io.mChunkSize)
    (he : chunkData io w chunk = [] ∨ (chunkData io w chunk).length = io.mChunkSize)
    (hfit : offset + s.length ≤ io.mChunkSize) :
    setAlignedChunkWriteOp io w chunk offset s ae
      = some (ObjOp.alignedWrite ((w.objects (io.chunkName chunk)).bind (·.size))
                (alignedReference io.mChunkSize (chunkData io w chunk) offset s) ae,
              w.log (Call.query (Target.chunk chunk) Query.alignedRead)) ∧
    (alignedReference io.mChunkSize (chunkData io w chunk) offset s).length = io.mChunkSize ∧
    (∀ i, i < s.length →
      (alignedReference io.mChunkSize (chunkData io w chunk) offset s)[offset + i]? = s[i]?) ∧
    (∀ i, i < offset ∨ offset + s.length ≤ i →
      (alignedReference io.mChunkSize (chunkData io w chunk) offset s)[i]?
        = (if chunkData io w chunk ≠ [] then chunkData io w chunk
           else List.replicate io.mChunkSize 0)[i]?) ∧
    (∀ r, setAlignedChunkWriteOp io w chunk offset s ae = some r →
      storedLength io (operate io r.2 (Target.chunk chunk) r.1).2 chunk = some io.mChunkSize ∧
      (∃ n, storedLength io (operate io r.2 (Target.chunk chunk) r.1).2 chunk = some n ∧
        io.mPool.alignment ∣ n)) ∧
    (io.mPool.hasAlignment = true → WellFormed io w →
      (∀ buff off blen opId, 0 < blen → off + blen < 2 ^ 64 →
        ∃ r, realWriteInode io w buff off blen opId = some r ∧
          ∀ k, k < pieceCount io.mChunkSize off blen →
            storedLength io r.2.2 (off / io.mChunkSize + k) = some io.mChunkSize) ∧
      (∀ newSize junk size, newSize ≤ io.mPool.size →
        (w.objects io.mInode).bind (·.size) = some size →
        ∃ r, truncate io w newSize junk = some r ∧
          storedLength io r.2.2 (truncateNewLastChunk io newSize) = some io.mChunkSize)) := by
  have href := setAligned_reference io w chunk offset s ae he hfit
  have hlen := alignedReference_length io.mChunkSize (chunkData io w chunk) offset s he hfit
  refine ⟨href, hlen, fun i hi => alignedReference_inside _ _ _ _ i hi hfit he,
    fun i hi => alignedReference_outside _ _ _ _ i hi hfit he, ?_, ?_⟩
  · intro r hr
    rw [href] at hr
    cases hr
    have hst : storedLength io
        (operate io (w.log (Call.query (Target.chunk chunk) Query.alignedRead))
          (Target.chunk chunk)
          (ObjOp.alignedWrite ((w.objects (io.chunkName chunk)).bind (·.size))
            (alignedReference io.mChunkSize (chunkData io w chunk) offset s) ae)).2 chunk
        = some io.mChunkSize := by
      unfold storedLength operate applyOp objName
      dsimp only
      rw [if_pos rfl]
      exact congrArg some hlen
    exact ⟨hst, _, hst, hmul⟩
  · intro hal hwf
    refine ⟨?_, ?_⟩
    · intro buff off blen opId hblen hsum
      obtain ⟨r, new, h1, -, -, -, -, -, h7, -⟩ :=
        realWriteInode_chunking io w buff off blen opId hcs hblen hsum hwf.aligned
      exact ⟨r, h1, fun k hk => h7 hal k hk⟩
    · intro newSize junk size hN hS
      exact truncate_aligned_length io w newSize junk size hwf hN hal hS

set_option maxRecDepth 1000000 in
theorem aligned_write_reference_witness :
    (0 < demoS3IO.mChunkSize ∧ demoS3IO.mPool.alignment ∣ demoS3IO.mChunkSize ∧
      (chunkData demoS3IO demoS3World 1).length = demoS3IO.mChunkSize ∧
      120 + ([1, 2, 3] : List Byte).length ≤ demoS3IO.mChunkSize) ∧
    setAlignedChunkWriteOp demoS3IO demoS3World 1 120 [1, 2, 3] false
      = some (ObjOp.alignedWrite ((demoS3World.objects ( demoS3IO.chunkName 1)).bind (·.size))
                (alignedReference demoS3IO.mChunkSize (chunkData demoS3IO demoS3World 1) 120
                  [1, 2, 3]) false,
              demoS3World.log (Call.query (Target.chunk 1) Query.alignedRead)) ∧
    alignedReference demoS3IO.mChunkSize (chunkData demoS3IO demoS3World 1) 120 [1, 2, 3]
      = List.replicate 120 7 ++ [1, 2, 3] ++ List.replicate 3 7 ∧
    (∃ r, truncate demoS3IO demoS3FileWorld 130 0 = some r ∧
      storedLength demoS3IO r.2.2 (truncateNewLastChunk demoS3IO 130)
        = some demoS3IO.mChunkSize) :=
  ⟨⟨by decide, by decide, by decide, by decide⟩,
   (aligned_write_reference demoS3IO demoS3World 1 120 [1, 2, 3] false (by decide) (by decide)
      (Or.inr (by decide)) (by decide)).1,
   by decide,
   ((aligned_write_reference demoS3IO demoS3FileWorld 1 120 [1, 2, 3] false (by decide)
      (by decide) (Or.inr (by decide)) (by decide)).2.2.2.2.2 (by decide)
      demoS3File_wellFormed).2 130 0 200 (by decide) (by decide)⟩

theorem truncateRounds_down (io : FileIO) (N S : Nat) (hcs : 0 < io.mChunkSize)
    (hS : S < 2 ^ 63) (hlt : N < S) :
    (if N = 0 then 0 else (N - 1) / io.mChunkSize) ≤ lastChunkOf io.mChunkSize S ∧
    lastChunkOf io.mChunkSize S = (S - 1) / io.mChunkSize ∧
    truncateTotalChunks io N S ((lastChunkOf io.mChunkSize S : Nat) : Int)
      = lastChunkOf io.mChunkSize S - (if N = 0 then 0 else (N - 1) / io.mChunkSize) + 1 ∧
    truncateRounds (truncateTotalChunks io N S ((lastChunkOf io.mChunkSize S : Nat) : Int))
      = lastChunkOf io.mChunkSize S - (if N = 0 then 0 else (N - 1) / io.mChunkSize) + 1 := by
  have hnl := truncateNewLastChunk_eq io N hcs
  have hlast : lastChunkOf io.mChunkSize S = (S - 1) / io.mChunkSize := by
    unfold lastChunkOf
    rw [if_pos (by omega)]
  have hL : (S - 1) / io.mChunkSize ≤ S - 1 := Nat.div_le_self _ _
  have hle : (if N = 0 then 0 else (N - 1) / io.mChunkSize) ≤ (S - 1) / io.mChunkSize := by
    split_ifs
    · exact Nat.zero_le _
    · exact Nat.div_le_div_right (by omega)
  have htotal : truncateTotalChunks io N S ((lastChunkOf io.mChunkSize S : Nat) : Int)
      = (S - 1) / io.mChunkSize - (if N = 0 then 0 else (N - 1) / io.mChunkSize) + 1 := by
    unfold truncateTotalChunks
    rw [if_pos hlt, hnl, hlast, toSizeT_natCast _ (by omega),
      usub_of_le _ _ hle (by omega), uadd_of_lt _ _ (by omega)]
  refine ⟨by rw [hlast]; exact hle, hlast, by rw [htotal, hlast], ?_⟩
  rw [htotal, truncateRounds_of_pos _ (by omega) (by omega), hlast]

theorem truncateRounds_up (io : FileIO) (N S : Nat) (L : Int) (hle : ¬ N < S) :
    truncateRounds (truncateTotalChunks io N S L) = 1 := by
  unfold truncateTotalChunks
  rw [if_neg hle, truncateRounds_of_pos 1 (by omega) (by norm_num)]

theorem truncateLoop_kind (opId : String) (newLastChunk tail : Nat) (pool : Pool) :
    ∀ (n : Nat) (io : FileIO) (w : World) (r : FileIO × World),
      truncateLoop opId newLastChunk tail n io w = some r → io.mPool = pool →
      ∃ new, r.2.trace = w.trace ++ new ∧
        ∀ p ∈ chunkOps new, p.2 = ObjOp.remove ∨ IsKeptChunkOp pool tail p.2 := by
  intro n
  induction n with
  | zero =>
      intro io w r h _
      simp only [truncateLoop] at h
      cases h
      exact ⟨[], by simp, fun p hp => absurd hp (List.not_mem_nil p)⟩
  | succ i ih =>
      intro io w r h hpool
      simp only [truncateLoop] at h
      obtain ⟨lnew, hl, hlops⟩ := lockExclusive_new io w opId
      split at h
      · cases h
      · rename_i b hb
        obtain ⟨new, hnew, hops⟩ := ih _ _ _ h
          ((lockExclusive_frame io w opId).1.trans hpool)
        rw [operate_trace] at hnew
        have hb2 : ∃ bnew, b.2.trace = (lockExclusive io w opId).2.trace ++ bnew ∧
            chunkOps bnew = [] ∧ (b.1 = ObjOp.remove ∨ IsKeptChunkOp pool tail b.1) := by
          by_cases hi : i = 0
          · rw [if_pos hi] at hb
            by_cases ha : io.mPool.hasAlignment = true
            · rw [if_pos ha] at hb
              obtain ⟨x, c, hx⟩ := setAligned_op _ _ _ _ _ _ _ hb
              refine ⟨_, setAligned_trace _ _ _ _ _ _ _ hb, rfl, Or.inr ?_⟩
              unfold IsKeptChunkOp
              rw [← hpool, if_pos ha]
              exact ⟨x, c, hx⟩
            · rw [if_neg ha] at hb
              cases hb
              refine ⟨[], by simp, rfl, Or.inr ?_⟩
              unfold IsKeptChunkOp
              rw [← hpool, if_neg ha]
          · rw [if_neg hi] at hb
            cases hb
            exact ⟨[], by simp, rfl, Or.inl rfl⟩
        obtain ⟨bnew, hbt, hbops, hbop⟩ := hb2
        refine ⟨lnew ++ bnew ++ [Call.op (Target.chunk (uadd newLastChunk i)) b.1] ++ new, ?_, ?_⟩
        · rw [hnew, hbt, hl]
          simp
        · intro p hp
          simp only [chunkOps_append, hlops, hbops, List.nil_append, List.mem_append] at hp
          rcases hp with hp | hp
          · have hp2 : p = (uadd newLastChunk i, b.1) := by
              simpa [chunkOps] using hp
            rw [hp2]
            exact hbop
          · exact hops p hp

theorem getLast_world (io : FileIO) (w : World) :
    (getLastChunkIndexAndSize io w).2.2 = w.log (Call.query Target.inode Query.sizeXAttr) := by
  unfold getLastChunkIndexAndSize
  dsimp only
  cases w.objects io.mInode with
  | none => rfl
  | some o =>
      dsimp only
      cases o.size <;> rfl

theorem truncateApply_kind (io : FileIO) (w : World) (N cur : Nat) (L : Int) (opId : String)
    (r : Int × FileIO × World) (h : truncateApply io w N cur L opId = some r) :
    ∃ new, r.2.2.trace = w.trace ++ new ∧
      ∀ p ∈ chunkOps new, p.2 = ObjOp.remove ∨ IsKeptChunkOp io.mPool (N % io.mChunkSize) p.2 := by
  unfold truncateApply at h
  split at h
  · cases h
  · rename_i r1 hr1
    cases h
    obtain ⟨-, s2, -, -, -, ⟨bl, s6⟩, -⟩ := setSize_spec io w N
    obtain ⟨new, hnew, hops⟩ := truncateLoop_kind opId _ _ io.mPool _ _ _ _ hr1 s2
    refine ⟨[Call.op Target.inode (ObjOp.setSize N bl)] ++ new, ?_, ?_⟩
    · show r1.2.trace = _
      rw [hnew, s6, List.append_assoc]
    · intro p hp
      have e : chunkOps [Call.op Target.inode (ObjOp.setSize N bl)] = [] := rfl
      rw [chunkOps_append, e, List.nil_append] at hp
      exact hops p hp

theorem truncate_kind (io : FileIO) (w : World) (N junk : Nat) (r : Int × FileIO × World)
    (h : truncate io w N junk = some r) :
    ∃ new, r.2.2.trace = w.trace ++ new ∧
      ∀ p ∈ chunkOps new, p.2 = ObjOp.remove ∨ IsKeptChunkOp io.mPool (N % io.mChunkSize) p.2 := by
  by_cases hbig : N > io.mPool.size
  · unfold truncate at h
    rw [if_pos hbig] at h
    cases h
    exact ⟨[], by simp, fun p hp => absurd hp (List.not_mem_nil p)⟩
  · obtain ⟨io1, w1, pre, opId, heq, e1, e2, e3, e4, ht, hpre, hobj⟩ :=
      truncate_prepare io w N junk hbig
    rw [heq] at h
    unfold truncateChunks at h
    rw [getLast_world] at h
    by_cases hc : (getLastChunkIndexAndSize io1 w1).1 < 0 ∧
        ¬ ((getLastChunkIndexAndSize io1 w1).1 = -ENOENT ∨
           (getLastChunkIndexAndSize io1 w1).1 = -ENODATA)
    · rw [if_pos hc] at h
      cases h
      refine ⟨pre ++ [Call.query Target.inode Query.sizeXAttr], ?_, ?_⟩
      · show w1.trace ++ [_] = _
        rw [ht, List.append_assoc]
      · intro p hp
        rw [chunkOps_append, hpre] at hp
        exact absurd hp (List.not_mem_nil p)
    · rw [if_neg hc] at h
      obtain ⟨new, hnew, hops⟩ := truncateApply_kind _ _ _ _ _ _ _ h
      refine ⟨pre ++ [Call.query Target.inode Query.sizeXAttr] ++ new, ?_, ?_⟩
      · rw [hnew]
        show (w1.trace ++ [_]) ++ new = _
        rw [ht]
        simp
      · intro p hp
        rw [chunkOps_append, chunkOps_append, hpre] at hp
        have e : chunkOps [Call.query Target.inode Query.sizeXAttr] = [] := rfl
        rw [e] at hp
        rw [← e1, ← e2]
        exact hops p (by simpa using hp)

/-- C21 (amended): for a well-formed state whose inode carries the size `S` and
every `N` up to the pool size, the chunk operations of `truncate(N)` are, in this
order: when the file shrinks (`N < S`), object removes for the chunk indices
`last_chunk`, ..., `new_last + 1` in descending order (`last_chunk =
(S - 1) / CS`, `new_last = (N == 0) ? 0 : (N - 1) / CS`), and then, in every case,
one operation on chunk `new_last`, whatever its index: it is not removed but
truncated to `N mod CS` with `assert_exists` on a pool without alignment, and
rewritten by the aligned read-modify-write with `assert_exists` on a pool with
alignment. -/
theorem truncate_chunk_rule (io : FileIO) (w : World) (N junk S : Nat)
    (hwf : WellFormed io w) (hN : N ≤ io.mPool.size)
    (hS : (w.objects io.mInode).bind (·.size) = some S) :
    ∃ r new last, truncate io w N junk = some r ∧ r.2.2.trace = w.trace ++ new ∧
      chunkOps new =
        (List.range' ((if N = 0 then 0 else (N - 1) / io.mChunkSize) + 1)
            (if N < S then (S - 1) / io.mChunkSize
               - (if N = 0 then 0 else (N - 1) / io.mChunkSize) else 0)).reverse.map
          (fun j => (j, ObjOp.remove))
        ++ [((if N = 0 then 0 else (N - 1) / io.mChunkSize), last)] ∧
      (io.mPool.hasAlignment = false → last = ObjOp.truncate (N % io.mChunkSize)) ∧
      (io.mPool.hasAlignment = true →
        ∃ xattr contents, last = ObjOp.alignedWrite xattr contents true) := by
  obtain ⟨r, new, last, h1, -, h3, h4, h5, -, -⟩ := truncate_spec io w N junk hwf hN
  have hN2 : N < 2 ^ 63 := lt_of_le_of_lt hN hwf.poolSize_lt
  have hnl := truncateNewLastChunk_eq io N hwf.chunkSize_pos
  have hS2 : S < 2 ^ 63 := by
    cases hobj : w.objects io.mInode with
    | none =>
        rw [hobj] at hS
        cases hS
    | some o =>
        rw [hobj] at hS
        exact hwf.size_lt o S hobj hS
  have hnlN : (if N = 0 then 0 else (N - 1) / io.mChunkSize) ≤ N := by
    split_ifs
    · omega
    · exact le_trans (Nat.div_le_self _ _) (Nat.sub_le _ _)
  rw [hS] at h5
  have h5' : chunkOps new = truncateLoopOps (truncateNewLastChunk io N) last
      (truncateRounds (truncateTotalChunks io N S ((lastChunkOf io.mChunkSize S : Nat) : Int))) :=
    h5
  have hops : chunkOps new =
      (List.range' ((if N = 0 then 0 else (N - 1) / io.mChunkSize) + 1)
          (if N < S then (S - 1) / io.mChunkSize
             - (if N = 0 then 0 else (N - 1) / io.mChunkSize) else 0)).reverse.map
        (fun j => (j, ObjOp.remove))
      ++ [((if N = 0 then 0 else (N - 1) / io.mChunkSize), last)] := by
    rw [h5', hnl]
    by_cases hlt : N < S
    · obtain ⟨d1, d2, -, d4⟩ := truncateRounds_down io N S hwf.chunkSize_pos hS2 hlt
      have hL : (S - 1) / io.mChunkSize ≤ S - 1 := Nat.div_le_self _ _
      rw [d4, if_pos hlt, d2]
      rw [d2] at d1
      exact truncateLoopOps_succ _ last _ (by omega)
    · rw [truncateRounds_up io N S _ hlt, if_neg hlt]
      exact truncateLoopOps_succ _ last 0 (by omega)
  obtain ⟨new2, hn2, hkind⟩ := truncate_kind io w N junk r h1
  have hnew : new2 = new := List.append_cancel_left (hn2.symm.trans h3)
  rw [hnew] at hkind
  have hmem : ((if N = 0 then 0 else (N - 1) / io.mChunkSize), last) ∈ chunkOps new := by
    rw [hops]
    exact List.mem_append_right _ (List.mem_singleton_self _)
  have hk : IsKeptChunkOp io.mPool (N % io.mChunkSize) last := by
    rcases hkind _ hmem with hrem | hk
    · have hrem2 : last = ObjOp.remove := hrem
      rw [hrem2] at h4
      rcases h4 with h4 | ⟨x, c, h4⟩
      · cases h4
      · cases h4
    · exact hk
  refine ⟨r, new, last, h1, h3, hops, fun ha => ?_, fun ha => ?_⟩
  · unfold IsKeptChunkOp at hk
    rw [ha] at hk
    exact hk
  · unfold IsKeptChunkOp at hk
    rw [ha] at hk
    exact hk

set_option maxRecDepth 100000 in
theorem truncate_chunk_rule_witness :
    (WellFormed demoIO demoFileWorld ∧ 6 ≤ demoIO.mPool.size ∧
      (demoFileWorld.objects demoIO.mInode).bind (·.size) = some 10) ∧
    ∃ r new last, truncate demoIO demoFileWorld 6 0 = some r ∧
      r.2.2.trace = demoFileWorld.trace ++ new ∧
      chunkOps new =
        (List.range' ((if 6 = 0 then 0 else (6 - 1) / demoIO.mChunkSize) + 1)
            (if 6 < 10 then (10 - 1) / demoIO.mChunkSize
               - (if 6 = 0 then 0 else (6 - 1) / demoIO.mChunkSize) else 0)).reverse.map
          (fun j => (j, ObjOp.remove))
        ++ [((if 6 = 0 then 0 else (6 - 1) / demoIO.mChunkSize), last)] ∧
      ( demoIO.mPool.hasAlignment = false → last = ObjOp.truncate (6 % demoIO.mChunkSize)) ∧
      ( demoIO.mPool.hasAlignment = true →
        ∃ xattr contents, last = ObjOp.alignedWrite xattr contents true) :=
  ⟨⟨demoFile_wellFormed, by decide, by decide⟩,
   truncate_chunk_rule demoIO demoFileWorld 6 0 10 demoFile_wellFormed (by decide) (by decide)⟩

set_option maxRecDepth 100000 in
/-- C21, counterexample: for the file of 10 bytes in three chunks of 4 bytes,
`truncate(6)` reaches `new_last = 1`, which is not the base chunk, and still does
not remove it: its chunk operations are the remove of chunk 2 and the truncate of
chunk 1 to 2 bytes, not the removes of the chunks 2 and 1. -/
theorem truncate_chunk_rule_counterexample :
    (truncate demoIO demoFileWorld 6 0).map (fun r => chunkOps r.2.2.trace)
      = some [(2, ObjOp.remove), (1, ObjOp.truncate 2)] ∧
    (truncate demoIO demoFileWorld 6 0).map (fun r => chunkOps r.2.2.trace)
      ≠ some [(2, ObjOp.remove), (1, ObjOp.remove)] := by
  refine ⟨by decide, by decide⟩

theorem keepLock_keep (io : FileIO) (now : Int) (uuid : String)
    (hfresh : now - io.mLockStart < (FILE_LOCK_DURATION - 1) * ticksPerSecond)
    (hl : io.mLocker = "" ∨ io.mLocker = uuid) :
    keepLock io now uuid = (true, { io with mLockUpdated := now, mLocker := uuid }) := by
  unfold keepLock
  rw [if_pos hfresh]
  dsimp only
  by_cases he : io.mLocker = ""
  · rw [if_pos he]
    simp
  · rw [if_neg he]
    have hu : io.mLocker = uuid := hl.resolve_left he
    cases io
    simp only at hu
    subst hu
    simp

theorem keepLock_store (io : FileIO) (now : Int) (uuid : String)
    (h : ¬ (now - io.mLockStart < (FILE_LOCK_DURATION - 1) * ticksPerSecond ∧
            (io.mLocker = "" ∨ io.mLocker = uuid))) :
    (keepLock io now uuid).1 = false ∧
    (keepLock io now uuid).2.mPool = io.mPool ∧
    (keepLock io now uuid).2.mInode = io.mInode ∧
    (keepLock io now uuid).2.mPath = io.mPath ∧
    (keepLock io now uuid).2.mChunkSize = io.mChunkSize ∧
    (keepLock io now uuid).2.mLazyRemoval = io.mLazyRemoval ∧
    (keepLock io now uuid).2.mOpManager = io.mOpManager ∧
    (keepLock io now uuid).2.mInlineBuffer = io.mInlineBuffer ∧
    (keepLock io now uuid).2.mHasBackLink = io.mHasBackLink ∧
    (keepLock io now uuid).2.chunkName = io.chunkName := by
  unfold keepLock
  by_cases hfresh : now - io.mLockStart < (FILE_LOCK_DURATION - 1) * ticksPerSecond
  · rw [if_pos hfresh]
    dsimp only
    have hl : ¬ (io.mLocker = "" ∨ io.mLocker = uuid) := fun hl => h ⟨hfresh, hl⟩
    have h1 : ¬ io.mLocker = "" := fun e => hl (Or.inl e)
    have h2 : ¬ io.mLocker = uuid := fun e => hl (Or.inr e)
    rw [if_neg h1]
    exact ⟨decide_eq_false h2, rfl, rfl, rfl, rfl, rfl, rfl, rfl, rfl, rfl⟩
  · rw [if_neg hfresh]
    exact ⟨rfl, rfl, rfl, rfl, rfl, rfl, rfl, rfl, rfl, rfl⟩

theorem lock_keep_eq (io : FileIO) (w : World) (uuid : String)
    (h : w.clock w.ticks - io.mLockStart < (FILE_LOCK_DURATION - 1) * ticksPerSecond ∧
        (io.mLocker = "" ∨ io.mLocker = uuid)) :
    lockShared io w uuid
      = ({ io with mLockUpdated := w.clock w.ticks, mLocker := uuid },
         { w with ticks := w.ticks + 1 }) ∧
    lockExclusive io w uuid
      = ({ io with mLockUpdated := w.clock w.ticks, mLocker := uuid },
         { w with ticks := w.ticks + 1 }) := by
  have hk := keepLock_keep io (w.clock w.ticks) uuid h.1 h.2
  constructor
  · unfold lockShared World.now
    dsimp only
    rw [hk]
    rfl
  · unfold lockExclusive World.now
    dsimp only
    rw [hk]
    rfl

theorem lock_store_eq (io : FileIO) (w : World) (uuid : String)
    (h : ¬ (w.clock w.ticks - io.mLockStart < (FILE_LOCK_DURATION - 1) * ticksPerSecond ∧
        (io.mLocker = "" ∨ io.mLocker = uuid))) :
    lockShared io w uuid
      = ({ io with mLocker := uuid, mLockStart := w.clock (w.ticks + 1),
                   mLockUpdated := w.clock (w.ticks + 1) },
         { w with ticks := w.ticks + 1 + 1, lockHeld := some Cookie.write,
                  locks := w.locks + 1,
                  trace := w.trace ++ [Call.lock Cookie.write (w.busy w.locks)] }) ∧
    lockExclusive io w uuid
      = ({ io with mLocker := uuid, mLockStart := w.clock (w.ticks + 1),
                   mLockUpdated := w.clock (w.ticks + 1) },
         { w with ticks := w.ticks + 1 + 1, lockHeld := some Cookie.other,
                  locks := w.locks + 1,
                  trace := w.trace ++ [Call.lock Cookie.other (w.busy w.locks)] }) := by
  obtain ⟨k1, k2, k3, k4, k5, k6, k7, k8, k9, k10⟩ := keepLock_store io (w.clock w.ticks) uuid h
  constructor
  · unfold lockShared World.now World.lock
    dsimp only
    rw [k1]
    simp only [Bool.false_eq_true, if_false]
    rw [k2, k3, k4, k5, k6, k7, k8, k9, k10]
  · unfold lockExclusive World.now World.lock
    dsimp only
    rw [k1]
    simp only [Bool.false_eq_true, if_false]
    rw [k2, k3, k4, k5, k6, k7, k8, k9, k10]

/-- C22: for `lockShared(uuid)` and `lockExclusive(uuid)` alike, with `now` the
clock reading at entry: if `now - lock_start < LOCK_DURATION - 1` and the locker
is empty or equals `uuid`, no call is made on the pool (the trace and the lock held
at the pool are as before), `lock_start` is unchanged, `lock_updated = now` and
`locker = uuid`; otherwise (lease run out, or another locker that is not empty)
the pool's lock call is made, shared with the cookie of the writers or exclusive
with the other cookie, repeated while the pool answers busy, and then
`locker = uuid` and `lock_start = lock_updated` = the clock reading taken after
the grant, the other members being as before; in every case `locker = uuid` when
the call returns. -/
theorem lock_acquisition (io : FileIO) (w : World) (uuid : String) :
    ((w.clock w.ticks - io.mLockStart < (FILE_LOCK_DURATION - 1) * ticksPerSecond ∧
        (io.mLocker = "" ∨ io.mLocker = uuid)) →
      lockShared io w uuid
        = ({ io with mLockUpdated := w.clock w.ticks, mLocker := uuid },
           { w with ticks := w.ticks + 1 }) ∧
      lockExclusive io w uuid
        = ({ io with mLockUpdated := w.clock w.ticks, mLocker := uuid },
           { w with ticks := w.ticks + 1 })) ∧
    (¬ (w.clock w.ticks - io.mLockStart < (FILE_LOCK_DURATION - 1) * ticksPerSecond ∧
        (io.mLocker = "" ∨ io.mLocker = uuid)) →
      lockShared io w uuid
        = ({ io with mLocker := uuid, mLockStart := w.clock (w.ticks + 1),
                     mLockUpdated := w.clock (w.ticks + 1) },
           { w with ticks := w.ticks + 1 + 1, lockHeld := some Cookie.write,
                    locks := w.locks + 1,
                    trace := w.trace ++ [Call.lock Cookie.write (w.busy w.locks)] }) ∧
      lockExclusive io w uuid
        = ({ io with mLocker := uuid, mLockStart := w.clock (w.ticks + 1),
                     mLockUpdated := w.clock (w.ticks + 1) },
           { w with ticks := w.ticks + 1 + 1, lockHeld := some Cookie.other,
                    locks := w.locks + 1,
                    trace := w.trace ++ [Call.lock Cookie.other (w.busy w.locks)] })) ∧
    (lockShared io w uuid).1.mLocker = uuid ∧ (lockExclusive io w uuid).1.mLocker = uuid := by
  refine ⟨lock_keep_eq io w uuid, lock_store_eq io w uuid, ?_, ?_⟩
  · by_cases h : (w.clock w.ticks - io.mLockStart < (FILE_LOCK_DURATION - 1) * ticksPerSecond ∧
        (io.mLocker = "" ∨ io.mLocker = uuid))
    · rw [(lock_keep_eq io w uuid h).1]
    · rw [(lock_store_eq io w uuid h).1]
  · by_cases h : (w.clock w.ticks - io.mLockStart < (FILE_LOCK_DURATION - 1) * ticksPerSecond ∧
        (io.mLocker = "" ∨ io.mLocker = uuid))
    · rw [(lock_keep_eq io w uuid h).2]
    · rw [(lock_store_eq io w uuid h).2]

set_option maxRecDepth 100000 in
theorem lock_acquisition_witness :
    (¬ (demoWorld.clock demoWorld.ticks - demoIO.mLockStart
          < (FILE_LOCK_DURATION - 1) * ticksPerSecond ∧
        ( demoIO.mLocker = "" ∨ demoIO.mLocker = "u")) ∧
      (lockShared demoIO demoWorld "u").2.trace = [Call.lock Cookie.write 0] ∧
      (lockShared demoIO demoWorld "u").1.mLockStart = 1000 * ticksPerSecond + 1) ∧
    ((demoWorld.clock demoWorld.ticks - 995 * ticksPerSecond
          < (FILE_LOCK_DURATION - 1) * ticksPerSecond ∧
        ( demoIO.mLocker = "" ∨ demoIO.mLocker = "u")) ∧
      (lockExclusive { demoIO with mLockStart := 995 * ticksPerSecond } demoWorld "u").2.trace = [] ∧
      (lockExclusive { demoIO with mLockStart := 995 * ticksPerSecond } demoWorld "u").1.mLockStart
        = 995 * ticksPerSecond ∧
      (lockExclusive { demoIO with mLockStart := 995 * ticksPerSecond } demoWorld "u").1.mLockUpdated
        = 1000 * ticksPerSecond) :=
  ⟨⟨by decide,
    (congrArg (fun r => r.2.trace)
      ((lock_acquisition demoIO demoWorld "u").2.1 (by decide)).1).trans rfl,
    (congrArg (fun r => r.1.mLockStart)
      ((lock_acquisition demoIO demoWorld "u").2.1 (by decide)).1).trans rfl⟩,
   ⟨by decide,
    (congrArg (fun r => r.2.trace)
      ((lock_acquisition { demoIO with mLockStart := 995 * ticksPerSecond } demoWorld "u").1
        (by decide)).2).trans rfl,
    (congrArg (fun r => r.1.mLockStart)
      ((lock_acquisition { demoIO with mLockStart := 995 * ticksPerSecond } demoWorld "u").1
        (by decide)).2).trans rfl,
    (congrArg (fun r => r.1.mLockUpdated)
      ((lock_acquisition { demoIO with mLockStart := 995 * ticksPerSecond } demoWorld "u").1
        (by decide)).2).trans rfl⟩⟩

set_option maxRecDepth 100000 in
/-- C23, evaluation at the failing input: on the example FileIO a `writeSync` of
one byte at second 1000 takes the shared lock from the pool (the lease starts), a
second `writeSync` at second 1118 keeps the lease and refreshes `lock_updated`;
at second 1125 the locker is empty, the lease is 125 seconds old, more than
`LOCK_DURATION` = 120, and the last refresh is 7 seconds old: `manageIdleLock` and
`unlockIfTimeIsOut` with an idle timeout of 5 seconds each issue an unlock call
on the pool. -/
theorem idle_unlock_after_expiry :
    ((writeSync demoIO demoLeaseWorld [1] 0 1).bind
        (fun a => writeSync a.2.1 a.2.2 [2] 1 1)).map
      (fun b =>
        (b.2.1.mLocker,
         b.2.2.clock b.2.2.ticks - b.2.1.mLockStart,
         b.2.2.clock b.2.2.ticks - b.2.1.mLockUpdated))
      = some ("", 125 * ticksPerSecond, 7 * ticksPerSecond) ∧
    (125 * ticksPerSecond > FILE_LOCK_DURATION * ticksPerSecond) ∧
    ((writeSync demoIO demoLeaseWorld [1] 0 1).bind
        (fun a => writeSync a.2.1 a.2.2 [2] 1 1)).map
      (fun b =>
        ((manageIdleLock b.2.1 b.2.2 (5 * ticksPerSecond)).2.trace.drop b.2.2.trace.length,
         (unlockIfTimeIsOut b.2.1 b.2.2 (5 * ticksPerSecond)).2.trace.drop b.2.2.trace.length))
      = some ([Call.unlock Cookie.write], [Call.unlock Cookie.write]) := by
  refine ⟨by decide, by decide, by decide⟩

theorem unlock_spec (io : FileIO) (w : World) :
    (unlock io w).2.1 = { io with mLocker := "" } ∧
    (unlock io w).2.2.clock = w.clock ∧ (unlock io w).2.2.ticks = w.ticks ∧
    (unlock io w).2.2.busy = w.busy ∧ (unlock io w).2.2.locks = w.locks ∧
    ∃ calls, (unlock io w).2.2.trace = w.trace ++ Call.unlock Cookie.write :: calls := by
  unfold unlock unlockShared unlockExclusive World.unlock
  dsimp only
  split_ifs <;> simp

/-- C24: with `now` the clock reading at entry and the idle timeout `t`,
`manageIdleLock(t)` makes a call on the pool only if the locker is empty and
`now - lock_updated ≥ t`.  When it releases the lock (locker empty, `t ≤ now -
lock_updated ≤ LOCK_DURATION`) it issues the unlock, leaves the locker empty and
sets `lock_start = lock_updated` to `LOCK_DURATION + 1` seconds before the clock
reading taken after the unlock; on a clock that does not go back, a following
`manageIdleLock` with any timeout then makes no call on the pool and changes no
member, and a following `lockShared` or `lockExclusive` takes the lock from the
pool again. -/
theorem idle_release_once (io : FileIO) (w : World) (t : Int)
    (hmono : ∀ a b, a ≤ b → w.clock a ≤ w.clock b) :
    ((manageIdleLock io w t).2.trace ≠ w.trace →
      io.mLocker = "" ∧ w.clock w.ticks - io.mLockUpdated ≥ t) ∧
    (io.mLocker = "" → w.clock w.ticks - io.mLockUpdated ≥ t →
      ¬ (w.clock w.ticks - io.mLockUpdated > FILE_LOCK_DURATION * ticksPerSecond) →
      (∃ calls, (manageIdleLock io w t).2.trace
          = w.trace ++ Call.unlock Cookie.write :: calls) ∧
      (manageIdleLock io w t).1.mLocker = "" ∧
      (manageIdleLock io w t).1.mLockStart
        = w.clock (w.ticks + 1) - (FILE_LOCK_DURATION + 1) * ticksPerSecond ∧
      (manageIdleLock io w t).1.mLockUpdated = (manageIdleLock io w t).1.mLockStart ∧
      (∀ t2, (manageIdleLock (manageIdleLock io w t).1 (manageIdleLock io w t).2 t2).1
            = (manageIdleLock io w t).1 ∧
          (manageIdleLock (manageIdleLock io w t).1 (manageIdleLock io w t).2 t2).2.trace
            = (manageIdleLock io w t).2.trace) ∧
      (∀ uuid,
        (lockShared (manageIdleLock io w t).1 (manageIdleLock io w t).2 uuid).2.trace
          = (manageIdleLock io w t).2.trace ++ [Call.lock Cookie.write (w.busy w.locks)] ∧
        (lockExclusive (manageIdleLock io w t).1 (manageIdleLock io w t).2 uuid).2.trace
          = (manageIdleLock io w t).2.trace ++ [Call.lock Cookie.other (w.busy w.locks)])) := by
  constructor
  · intro hne
    unfold manageIdleLock at hne
    by_cases hl : io.mLocker = ""
    · rw [if_pos hl] at hne
      refine ⟨hl, ?_⟩
      by_contra hidle
      apply hne
      unfold unlockIfTimeIsOut World.now
      dsimp only
      rw [decide_eq_false hidle]
      rfl
    · rw [if_neg hl] at hne
      exact absurd rfl hne
  · intro hl hidle hnot
    obtain ⟨u1, u2, u3, u4, u5, calls, u6⟩ := unlock_spec io { w with ticks := w.ticks + 1 }
    have hm : manageIdleLock io w t
        = ({ (unlock io { w with ticks := w.ticks + 1 }).2.1 with
              mLockStart := (expiredLockDuration (unlock io { w with ticks := w.ticks + 1 }).2.2).1,
              mLockUpdated := (expiredLockDuration (unlock io { w with ticks := w.ticks + 1 }).2.2).1 },
           (expiredLockDuration (unlock io { w with ticks := w.ticks + 1 }).2.2).2) := by
      unfold manageIdleLock
      rw [if_pos hl]
      unfold unlockIfTimeIsOut World.now
      dsimp only
      rw [decide_eq_true hidle, decide_eq_false hnot]
      rfl
    have he1 : (expiredLockDuration (unlock io { w with ticks := w.ticks + 1 }).2.2).1
        = w.clock (w.ticks + 1) - (FILE_LOCK_DURATION + 1) * ticksPerSecond := by
      unfold expiredLockDuration World.now
      dsimp only
      rw [u2, u3]
    have hstart : (manageIdleLock io w t).1.mLockStart
        = w.clock (w.ticks + 1) - (FILE_LOCK_DURATION + 1) * ticksPerSecond := by
      rw [hm]
      exact he1
    have hupd : (manageIdleLock io w t).1.mLockUpdated
        = w.clock (w.ticks + 1) - (FILE_LOCK_DURATION + 1) * ticksPerSecond := by
      rw [hm]
      exact he1
    have hlocker : (manageIdleLock io w t).1.mLocker = "" := by
      rw [hm]
      show (unlock io { w with ticks := w.ticks + 1 }).2.1.mLocker = ""
      rw [u1]
    have hclock : (manageIdleLock io w t).2.clock = w.clock := by
      rw [hm]
      exact u2
    have hticks : (manageIdleLock io w t).2.ticks = w.ticks + 1 + 1 := by
      rw [hm]
      show (unlock io { w with ticks := w.ticks + 1 }).2.2.ticks + 1 = _
      rw [u3]
    have hbusy : (manageIdleLock io w t).2.busy = w.busy := by
      rw [hm]
      exact u4
    have hlocks : (manageIdleLock io w t).2.locks = w.locks := by
      rw [hm]
      exact u5
    have hlater := hmono (w.ticks + 1) (w.ticks + 1 + 1) (Nat.le_succ _)
    have htps : ticksPerSecond = 1000000000 := rfl
    have hdur : FILE_LOCK_DURATION = 120 := rfl
    refine ⟨⟨calls, ?_⟩, hlocker, hstart, hupd.trans hstart.symm, ?_, ?_⟩
    · rw [hm]
      exact u6
    · intro t2
      generalize manageIdleLock io w t = r at hstart hupd hlocker hclock hticks
      have htimed : r.2.clock r.2.ticks - r.1.mLockUpdated
          > FILE_LOCK_DURATION * ticksPerSecond := by
        rw [hclock, hticks, hupd, htps, hdur]
        omega
      unfold manageIdleLock
      rw [if_pos hlocker]
      unfold unlockIfTimeIsOut World.now
      dsimp only
      rw [decide_eq_true htimed]
      simp
    · intro uuid
      generalize manageIdleLock io w t = r at hstart hupd hlocker hclock hticks hbusy hlocks
      have hexp : ¬ (r.2.clock r.2.ticks - r.1.mLockStart
            < (FILE_LOCK_DURATION - 1) * ticksPerSecond ∧
          (r.1.mLocker = "" ∨ r.1.mLocker = uuid)) := by
        intro h
        have h1 := h.1
        rw [hclock, hticks, hstart, htps, hdur] at h1
        omega
      obtain ⟨s1, s2⟩ := lock_store_eq r.1 r.2 uuid hexp
      rw [s1, s2, hbusy, hlocks]
      exact ⟨rfl, rfl⟩

set_option maxRecDepth 100000 in
theorem idle_release_once_witness :
    (∀ a b, a ≤ b → demoWorld.clock a ≤ demoWorld.clock b) ∧
    (∃ calls, (manageIdleLock { demoIO with mLockUpdated := 990 * ticksPerSecond } demoWorld
        (5 * ticksPerSecond)).2.trace = demoWorld.trace ++ Call.unlock Cookie.write :: calls) ∧
    (manageIdleLock { demoIO with mLockUpdated := 990 * ticksPerSecond } demoWorld
        (5 * ticksPerSecond)).1.mLockStart
      = demoWorld.clock (demoWorld.ticks + 1) - (FILE_LOCK_DURATION + 1) * ticksPerSecond :=
  ⟨fun a b h => by
      show 1000 * ticksPerSecond + (a : Int) ≤ 1000 * ticksPerSecond + (b : Int)
      omega,
   ((idle_release_once { demoIO with mLockUpdated := 990 * ticksPerSecond } demoWorld
      (5 * ticksPerSecond)
      (fun a b h => by
        show 1000 * ticksPerSecond + (a : Int) ≤ 1000 * ticksPerSecond + (b : Int)
        omega)).2 rfl (by decide) (by decide)).1,
   ((idle_release_once { demoIO with mLockUpdated := 990 * ticksPerSecond } demoWorld
      (5 * ticksPerSecond)
      (fun a b h => by
        show 1000 * ticksPerSecond + (a : Int) ≤ 1000 * ticksPerSecond + (b : Int)
        omega)).2 rfl (by decide) (by decide)).2.2.1⟩

set_option maxRecDepth 100000 in
/-- C25, evaluation at the failing input: on the example FileIO with chunks of 4
bytes and an inode without size attribute, the size query of `truncate(6)` fails
(`-ENODATA`) and stores nothing in the local `currentSize`; when the value that
variable happens to hold is 7, greater than 6, `truncate(6)` returns 0 without
any chunk operation, and when it is 0 it issues the one truncate of chunk
`new_last` = 1 to 2 bytes. -/
theorem truncate_uninitialized_size :
    (getLastChunkIndexAndSize demoIO
        (operate demoIO demoWorld Target.inode ObjOp.updateTime).2).1 = -ENODATA ∧
    (getLastChunkIndexAndSize demoIO
        (operate demoIO demoWorld Target.inode ObjOp.updateTime).2).2.1 = none ∧
    (truncate demoIO demoWorld 6 7).map (fun r => (r.1, chunkOps r.2.2.trace)) = some (0, []) ∧
    (truncate demoIO demoWorld 6 0).map (fun r => (r.1, chunkOps r.2.2.trace))
      = some (0, [(1, ObjOp.truncate 2)]) := by
  refine ⟨by decide, by decide, by decide, by decide⟩

set_option maxRecDepth 100000 in
/-- C26, evaluation at the failing input: on the example pool of maximum object
size 100, `verifyWriteParams` returns 0 for the offset -1 with the length 2 (the
sum wraps to 1 in `size_t`), and for the offset `2^63 - 1` with the length
`2^63 + 2` (the sum `2^64 + 1` wraps to 1). -/
theorem validation_wraps :
    verifyWriteParams demoIO (-1) 2 = 0 ∧
    verifyWriteParams demoIO 9223372036854775807 9223372036854775810 = 0 ∧
    demoIO.mPool.size = 100 := by
  refine ⟨by decide, by decide, by decide⟩

set_option maxRecDepth 100000 in
/-- C27, evaluation at the failing input: on the example FileIO with chunks of 4
bytes, after `writeSync` of the bytes 1, 2, 3 at offset 0 and the `setSize(1)`
with which a `truncate(1)` starts (chunk 0 still holds its 3 bytes, the size
attribute is 1), `read(buf, 0, 4)` gets 3 bytes from chunk 0, less than the 4
asked for, and `assignRemainingReadData` computes the zero-fill length
`min(4, 1 - 0) - 3`, which wraps to `2^64 - 2`: the bytes after the caller's
buffer of 4 bytes (addresses 4 to 7 here, and 1000000) are set to 0; the read
returns 3. -/
theorem zero_fill_underflow :
    usub (min 4 (1 - 0)) 3 = 18446744073709551614 ∧
    (writeSync demoIO demoWorld [1, 2, 3] 0 3).map
        (fun a => ((a.2.2.objects a.2.1.mInode).map (·.data),
          (getSize (setSize a.2.1 a.2.2 1).2.1 (setSize a.2.1 a.2.2 1).2.2).1))
      = some (some [1, 2, 3], 1) ∧
    (writeSync demoIO demoWorld [1, 2, 3] 0 3).map
        (fun a =>
          ((read (setSize a.2.1 a.2.2 1).2.1 (setSize a.2.1 a.2.2 1).2.2 0 0 4).1,
           (List.range 8).map
             (read (setSize a.2.1 a.2.2 1).2.1 (setSize a.2.1 a.2.2 1).2.2 0 0 4).2.2.mem,
           (read (setSize a.2.1 a.2.2 1).2.1 (setSize a.2.1 a.2.2 1).2.2 0 0 4).2.2.mem 1000000))
      = some (3, [1, 2, 3, 0, 0, 0, 0, 0], 0) ∧
    (List.range 8).map demoWorld.mem = [7, 7, 7, 7, 7, 7, 7, 7] ∧
    demoWorld.mem 1000000 = 7 := by
  refine ⟨by decide, by decide, by decide, by decide, by decide⟩

set_option maxRecDepth 100000 in
/-- C28, evaluation at the failing input: `remove()` on the example FileIO whose
inode object does not exist returns `-ENOENT` and leaves the locker set to its op
id, so that a following `manageIdleLock` makes no call on the pool although the
lock taken by `lockExclusive` is held; after a `writeSync` that returns 0 the
locker is empty. -/
theorem remove_keeps_locker :
    ((remove demoIO demoWorld).1, (remove demoIO demoWorld).2.1.mLocker,
      (remove demoIO demoWorld).2.2.lockHeld) = (-ENOENT, "u", some Cookie.other) ∧
    (manageIdleLock (remove demoIO demoWorld).2.1 (remove demoIO demoWorld).2.2 0).2.trace
      = (remove demoIO demoWorld).2.2.trace ∧
    (writeSync demoIO demoWorld [1] 0 1).map (fun r => (r.1, r.2.1.mLocker)) = some (0, "") := by
  refine ⟨by decide, by decide, by decide⟩

/-- C30: for every chunk size `CS > 0`, every current size `S` in the range of
`ssize_t` and every new size `N < S`, the last chunk index the size query derives
from `S`, `(S > 0) ? (S - 1) / CS : 0`, is at least `new_last = (N == 0) ? 0 :
(N - 1) / CS`, which is the index `truncate` takes; `totalChunks = last_chunk -
new_last + 1` is computed without wrap-around and is at least 1, the loop makes
`totalChunks` rounds, and every chunk index `new_last + i` it visits is computed
without wrap-around and lies in `[new_last, last_chunk]`. -/
theorem truncate_count_no_underflow (io : FileIO) (N S : Nat) (hcs : 0 < io.mChunkSize)
    (hS : S < 2 ^ 63) (hlt : N < S) :
    (∀ w o, w.objects io.mInode = some o → o.size = some S →
      (getLastChunkIndexAndSize io w).1 = ((lastChunkOf io.mChunkSize S : Nat) : Int) ∧
      (getLastChunkIndexAndSize io w).2.1 = some S) ∧
    lastChunkOf io.mChunkSize S = (if S > 0 then (S - 1) / io.mChunkSize else 0) ∧
    truncateNewLastChunk io N = (if N = 0 then 0 else (N - 1) / io.mChunkSize) ∧
    truncateNewLastChunk io N ≤ lastChunkOf io.mChunkSize S ∧
    truncateTotalChunks io N S ((lastChunkOf io.mChunkSize S : Nat) : Int)
      = lastChunkOf io.mChunkSize S - truncateNewLastChunk io N + 1 ∧
    1 ≤ truncateTotalChunks io N S ((lastChunkOf io.mChunkSize S : Nat) : Int) ∧
    truncateRounds (truncateTotalChunks io N S ((lastChunkOf io.mChunkSize S : Nat) : Int))
      = truncateTotalChunks io N S ((lastChunkOf io.mChunkSize S : Nat) : Int) ∧
    (∀ i, i < truncateRounds
          (truncateTotalChunks io N S ((lastChunkOf io.mChunkSize S : Nat) : Int)) →
      uadd (truncateNewLastChunk io N) i = truncateNewLastChunk io N + i ∧
      truncateNewLastChunk io N ≤ truncateNewLastChunk io N + i ∧
      truncateNewLastChunk io N + i ≤ lastChunkOf io.mChunkSize S) ∧
    (∀ last, ∀ p ∈ truncateLoopOps (truncateNewLastChunk io N) last
        (truncateRounds
          (truncateTotalChunks io N S ((lastChunkOf io.mChunkSize S : Nat) : Int))),
      truncateNewLastChunk io N ≤ p.1 ∧ p.1 ≤ lastChunkOf io.mChunkSize S) := by
  obtain ⟨d1, d2, d3, d4⟩ := truncateRounds_down io N S hcs hS hlt
  have hnl := truncateNewLastChunk_eq io N hcs
  have hL : (S - 1) / io.mChunkSize ≤ S - 1 := Nat.div_le_self _ _
  rw [← hnl] at d1 d3 d4
  have hlastlt : lastChunkOf io.mChunkSize S < 2 ^ 63 := by
    rw [d2]
    omega
  refine ⟨fun w o ho hs => ?_, rfl, hnl, d1, d3, by rw [d3]; omega, by rw [d4, d3],
    fun i hi => ?_, fun last p hp => ?_⟩
  · rw [getLast_size io w o S ho hs hS]
    exact ⟨rfl, rfl⟩
  · rw [d4] at hi
    refine ⟨uadd_of_lt _ _ (by omega), Nat.le_add_right _ _, by omega⟩
  · rw [d4] at hp
    rcases truncateLoopOps_mem (truncateNewLastChunk io N) last (by omega) _ (by omega) p hp
      with h | ⟨-, h1, h2⟩
    · rw [h]
      exact ⟨le_refl _, d1⟩
    · exact ⟨le_of_lt h1, by omega⟩

set_option maxRecDepth 100000 in
theorem truncate_count_no_underflow_witness :
    (0 < demoIO.mChunkSize ∧ (10 : Nat) < 2 ^ 63 ∧ 6 < 10) ∧
    (truncateNewLastChunk demoIO 6 = 1 ∧ lastChunkOf demoIO.mChunkSize 10 = 2) ∧
    truncateTotalChunks demoIO 6 10 ((lastChunkOf demoIO.mChunkSize 10 : Nat) : Int)
      = lastChunkOf demoIO.mChunkSize 10 - truncateNewLastChunk demoIO 6 + 1 ∧
    truncateRounds (truncateTotalChunks demoIO 6 10 ((lastChunkOf demoIO.mChunkSize 10 : Nat) : Int))
      = 2 :=
  ⟨⟨by decide, by decide, by decide⟩, ⟨by decide, by decide⟩,
   (truncate_count_no_underflow demoIO 6 10 (by decide) (by decide) (by decide)).2.2.2.2.1,
   (truncate_count_no_underflow demoIO 6 10 (by decide) (by decide)
      (by decide)).2.2.2.2.2.2.1.trans (by decide)⟩

theorem realWriteLoop_noAlign (opId : String) (buff : List Byte) (blen first total : Nat) :
    ∀ (n i cur btw : Nat) (io : FileIO) (w : World), io.mPool.hasAlignment = false →
      ∃ r, realWriteLoop opId buff blen first total n i cur btw io w = some r := by
  intro n
  induction n with
  | zero =>
      intro i cur btw io w _
      exact ⟨_, rfl⟩
  | succ n ih =>
      intro i cur btw io w hal
      simp only [realWriteLoop, hal, Bool.false_eq_true, if_false]
      exact ih _ _ _ _ _
        ((congrArg Pool.hasAlignment (writeLock_spec total io w opId).1.1).trans hal)

theorem realWriteInode_returns (io : FileIO) (w : World) (buff : List Byte) (offset blen : Nat)
    (opId : String)
    (h : io.mPool.hasAlignment = false ∨
      (0 < io.mChunkSize ∧ 0 < blen ∧ offset + blen < 2 ^ 64 ∧
        ∀ k o, w.objects (io.chunkName k) = some o →
          o.data = [] ∨ io.mChunkSize ≤ o.data.length)) :
    ∃ r, realWriteInode io w buff offset blen opId = some r := by
  rcases h with hal | ⟨hcs, hlen, hsum, hinv⟩
  · have hloop : ∀ (n i cur btw : Nat) (io2 : FileIO) (w2 : World), io2.mPool = io.mPool →
        realWriteLoop opId buff blen (offset / io.mChunkSize)
          (uadd (usub (usub (uadd offset blen) 1 / io.mChunkSize) (offset / io.mChunkSize)) 1)
          n i cur btw io2 w2 ≠ none := by
      intro n i cur btw io2 w2 hp hnone
      obtain ⟨r, hr⟩ := realWriteLoop_noAlign opId buff blen (offset / io.mChunkSize)
        (uadd (usub (usub (uadd offset blen) 1 / io.mChunkSize) (offset / io.mChunkSize)) 1)
        n i cur btw io2 w2 ((congrArg Pool.hasAlignment hp).trans hal)
      rw [hr] at hnone
      cases hnone
    unfold realWriteInode
    dsimp only
    split
    · rename_i hnone
      refine absurd hnone (hloop _ _ _ _ _ _ ?_)
      exact (writeLock_spec
        (uadd (usub (usub (uadd offset blen) 1 / io.mChunkSize) (offset / io.mChunkSize)) 1)
        io (operate io w Target.inode ObjOp.updateTime).2 opId).1.1
    · exact ⟨_, rfl⟩
  · obtain ⟨r, -, hr, -⟩ :=
      realWriteInode_chunking io w buff offset blen opId hcs hlen hsum (fun _ => hinv)
    exact ⟨r, hr⟩

theorem realWriteAfterInline_returns (io : FileIO) (w : World) (buff : List Byte)
    (offset blen : Nat) (opResult : Int) (ics : Nat) (opId : String)
    (h : io.mPool.hasAlignment = false ∨ opResult < 0 ∨
      (0 < io.mChunkSize ∧ ics ≤ blen ∧ offset + blen < 2 ^ 64 ∧
        ∀ k o, w.objects (io.chunkName k) = some o →
          o.data = [] ∨ io.mChunkSize ≤ o.data.length)) :
    ∃ r, realWriteAfterInline io w buff offset blen opResult ics opId = some r := by
  unfold realWriteAfterInline
  by_cases hneg : opResult < 0
  · rw [if_pos hneg]
    exact ⟨_, rfl⟩
  · rw [if_neg hneg]
    by_cases hz : usub blen ics = 0
    · rw [if_pos hz]
      exact ⟨_, rfl⟩
    · rw [if_neg hz]
      apply realWriteInode_returns
      rcases h with hal | hn | ⟨hcs, hle, hsum, hinv⟩
      · exact Or.inl hal
      · exact absurd hn hneg
      · right
        have e1 : usub blen ics = blen - ics := usub_of_le _ _ hle (by omega)
        have e2 : uadd offset ics = offset + ics := uadd_of_lt _ _ (by omega)
        rw [e1] at hz
        rw [e1, e2]
        exact ⟨hcs, by omega, by omega, hinv⟩

theorem realWrite_returns (io : FileIO) (w : World) (buff : List Byte) (offset blen : Nat)
    (del : Bool) (opId : String)
    (h : io.mPool.hasAlignment = false ∨
      (0 < io.mChunkSize ∧ 0 < blen ∧ offset + blen < 2 ^ 64 ∧
        (∀ k o, w.objects (io.chunkName k) = some o →
          o.data = [] ∨ io.mChunkSize ≤ o.data.length) ∧
        ∀ e, w.inlineFault = some e → e < 0)) :
    ∃ r, realWrite io w buff offset blen del opId = some r := by
  have hinode : ∃ r, realWriteInode io w buff offset blen opId = some r := by
    apply realWriteInode_returns
    rcases h with hal | ⟨hcs, hlen, hsum, hinv, -⟩
    · exact Or.inl hal
    · exact Or.inr ⟨hcs, hlen, hsum, hinv⟩
  unfold realWrite
  split
  · exact hinode
  · rename_i ib _
    split_ifs
    · apply realWriteAfterInline_returns
      rcases h with hal | ⟨hcs, hlen, hsum, hinv, hfault⟩
      · exact Or.inl hal
      · right
        unfold inlineWrite
        cases hf : w.inlineFault with
        | some e => exact Or.inl (hfault e hf)
        | none =>
            right
            dsimp only
            rw [toSizeT_natCast _ (lt_of_le_of_lt (Nat.min_le_left _ _) (by omega))]
            exact ⟨hcs, Nat.min_le_left _ _, hsum, hinv⟩
    · apply realWriteAfterInline_returns
      rcases h with hal | ⟨hcs, hlen, hsum, hinv, hfault⟩
      · exact Or.inl hal
      · right
        unfold fillRemainingInlineBuffer
        cases hf : w.inlineFault with
        | some e => exact Or.inl (hfault e hf)
        | none => exact Or.inr ⟨hcs, Nat.zero_le _, hsum, hinv⟩
    · exact hinode

/-- C29: whenever `writeSync` returns, its value is `-EINVAL`, `-EFBIG` or 0: the
code of `verifyWriteParams` when that is not 0, and 0 once validation passes,
`realWrite` returning 0 on each of its paths, whatever the inline buffer adapter
and the operations on the pool return.  And `writeSync` does return: when
validation fails, on a pool without alignment, and on a pool with alignment
whose chunk objects are empty or hold a whole chunk, for an offset that is not
negative with `offset + blen < 2^64` and an adapter whose forced result, if any,
is a failure. -/
theorem writeSync_return_codes (io : FileIO) (w : World) (buff : List Byte) (offset : Int)
    (blen : Nat) :
    (∀ r, writeSync io w buff offset blen = some r →
      (r.1 = -EINVAL ∨ r.1 = -EFBIG ∨ r.1 = 0) ∧
      (verifyWriteParams io offset blen ≠ 0 → r.1 = verifyWriteParams io offset blen) ∧
      (verifyWriteParams io offset blen = 0 → r.1 = 0)) ∧
    (∀ del opId r, realWrite io w buff (toSizeT offset) blen del opId = some r → r.1 = 0) ∧
    ((verifyWriteParams io offset blen ≠ 0 ∨ io.mPool.hasAlignment = false ∨
        (0 < io.mChunkSize ∧ 0 ≤ offset ∧ offset + blen < 2 ^ 64 ∧
          (∀ k o, w.objects (io.chunkName k) = some o →
            o.data = [] ∨ io.mChunkSize ≤ o.data.length) ∧
          ∀ e, w.inlineFault = some e → e < 0)) →
      ∃ r, writeSync io w buff offset blen = some r) := by
  have hv : ∀ m, verifyWriteParams { io with mOpManager := m } offset blen
      = verifyWriteParams io offset blen := fun _ => rfl
  have hcode : verifyWriteParams io offset blen = -EINVAL ∨
      verifyWriteParams io offset blen = -EFBIG ∨ verifyWriteParams io offset blen = 0 := by
    unfold verifyWriteParams
    dsimp only
    split_ifs <;> simp
  refine ⟨fun r hr => ?_, fun del opId r hr => realWrite_fst _ _ _ _ _ _ _ _ hr, fun h => ?_⟩
  · by_cases hz : verifyWriteParams io offset blen = 0
    · have h0 : r.1 = 0 := by
        unfold writeSync at hr
        dsimp only at hr
        rw [hv, hz, if_neg (fun h => h rfl)] at hr
        exact realWrite_fst _ _ _ _ _ _ _ _ hr
      exact ⟨Or.inr (Or.inr h0), fun hne => absurd hz hne, fun _ => h0⟩
    · have h1 := writeSync_of_invalid io w buff offset blen hz
      rw [hr] at h1
      have h2 : r.1 = verifyWriteParams io offset blen := Option.some.inj h1
      refine ⟨?_, fun _ => h2, fun h0 => absurd h0 hz⟩
      rw [h2]
      rcases hcode with hc | hc | hc
      · exact Or.inl hc
      · exact Or.inr (Or.inl hc)
      · exact absurd hc hz
  · by_cases hz : verifyWriteParams io offset blen = 0
    · unfold writeSync
      dsimp only
      rw [hv, hz, if_neg (fun h => h rfl)]
      apply realWrite_returns
      rcases h with hne | hal | ⟨hcs, h0, hsum, hinv, hfault⟩
      · exact absurd hz hne
      · exact Or.inl hal
      · right
        have hlen : 0 < blen := by
          by_contra hb
          have hb0 : blen = 0 := by omega
          have hsum2 : offset + (blen : Nat) < 18446744073709551616 := by
            have := hsum
            norm_num at this ⊢
            exact this
          rw [verifyWriteParams_eq io offset blen h0 hsum2] at hz
          split_ifs at hz <;> simp [EFBIG, EINVAL] at hz
        have hts : toSizeT offset = offset.toNat :=
          toSizeT_of_nonneg offset h0 (by
            have := hsum
            norm_num at this ⊢
            omega)
        rw [hts]
        refine ⟨hcs, hlen, ?_, hinv, hfault⟩
        have := hsum
        norm_num at this ⊢
        omega
    · unfold writeSync
      dsimp only
      rw [hv, if_pos hz]
      exact ⟨_, rfl⟩

set_option maxRecDepth 100000 in
theorem writeSync_return_codes_witness :
    ( demoInlineIO.mPool.hasAlignment = false ∧ demoFaultWorld.inlineFault = some (-5) ∧
      verifyWriteParams demoInlineIO 0 20 = 0) ∧
    (∃ r, writeSync demoInlineIO demoFaultWorld (List.replicate 20 1) 0 20 = some r ∧ r.1 = 0) ∧
    (∃ r, writeSync demoIO demoWorld [] 0 0 = some r ∧ r.1 = -EINVAL) :=
  ⟨⟨by decide, rfl, by decide⟩,
   ((writeSync_return_codes demoInlineIO demoFaultWorld (List.replicate 20 1) 0 20).2.2
      (Or.inr (Or.inl (by decide)))).imp
     (fun r hr => ⟨hr,
       ((writeSync_return_codes demoInlineIO demoFaultWorld (List.replicate 20 1) 0 20).1 r
         hr).2.2 (by decide)⟩),
   ((writeSync_return_codes demoIO demoWorld [] 0 0).2.2 (Or.inl (by decide))).imp
     (fun r hr => ⟨hr,
       (((writeSync_return_codes demoIO demoWorld [] 0 0).1 r hr).2.1 (by decide)).trans
         (by decide)⟩)⟩

theorem mem_objOps (io : FileIO) (name : String) (o : ObjOp) :
    ∀ (t : List Call), o ∈ objOps io name t ↔ ∃ tg, Call.op tg o ∈ t ∧ objName io tg = name := by
  intro t
  induction t with
  | nil => simp [objOps]
  | cons c rest ih =>
      cases c with
      | op tg o2 =>
          by_cases hn : objName io tg = name
          · simp only [objOps, if_pos hn, List.mem_cons, ih]
            constructor
            · rintro (h | ⟨tg2, h1, h2⟩)
              · exact ⟨tg, Or.inl (by rw [h]), hn⟩
              · exact ⟨tg2, Or.inr h1, h2⟩
            · rintro ⟨tg2, h1 | h1, h2⟩
              · cases h1
                exact Or.inl rfl
              · exact Or.inr ⟨tg2, h1, h2⟩
          · simp only [objOps, if_neg hn, List.mem_cons, ih]
            constructor
            · rintro ⟨tg2, h1, h2⟩
              exact ⟨tg2, Or.inr h1, h2⟩
            · rintro ⟨tg2, h1 | h1, h2⟩
              · cases h1
                exact absurd h2 hn
              · exact ⟨tg2, h1, h2⟩
      | query tg q => simp [objOps, ih]
      | lock c n => simp [objOps, ih]
      | unlock c => simp [objOps, ih]
      | inlineSet => simp [objOps, ih]

theorem storedSize_plainOp (o : Option Obj) (op : ObjOp) (h : IsPlainWriteOp op) :
    storedSize (applyOp o op).1 = max (storedSize o) (submittedSize op) := by
  rcases h with h | ⟨n, bl, h⟩ | ⟨off, c, h⟩
  · subst h
    unfold applyOp storedSize submittedSize
    cases o <;> simp
  · subst h
    exact storedSize_setSizeIfBigger o n bl
  · subst h
    unfold applyOp storedSize submittedSize
    simp

theorem storedSize_applyOps (ops : List ObjOp) :
    ∀ o : Option Obj, (∀ p ∈ ops, IsPlainWriteOp p) →
      storedSize (applyOps o ops) = max (storedSize o) ((ops.map submittedSize).foldr max 0) := by
  induction ops with
  | nil =>
      intro o _
      simp [applyOps]
  | cons p ps ih =>
      intro o h
      have h1 := ih (applyOp o p).1 (fun q hq => h q (List.mem_cons_of_mem _ hq))
      unfold applyOps at h1 ⊢
      rw [List.foldl_cons, h1, storedSize_plainOp o p (h p (List.mem_cons_self _ _)),
        List.map_cons, List.foldr_cons]
      omega

theorem foldr_max_append (a b : List Nat) :
    (a ++ b).foldr max 0 = max (a.foldr max 0) (b.foldr max 0) := by
  induction a with
  | nil => simp
  | cons x xs ih =>
      simp only [List.cons_append, List.foldr_cons, ih]
      omega

theorem foldr_max_of_values (l : List Nat) (n : Nat) (h : ∀ x ∈ l, x = 0 ∨ x = n)
    (hex : n ∈ l) : l.foldr max 0 = n := by
  induction l with
  | nil => cases hex
  | cons x xs ih =>
      have hle : xs.foldr max 0 ≤ n := by
        clear ih hex
        induction xs with
        | nil => simp
        | cons y ys ih2 =>
            have hy := h y (List.mem_cons_of_mem _ (List.mem_cons_self _ _))
            have := ih2 (fun z hz => by
              rcases List.mem_cons.mp hz with hz | hz
              · exact h z (by rw [hz]; exact List.mem_cons_self _ _)
              · exact h z (List.mem_cons_of_mem _ (List.mem_cons_of_mem _ hz)))
            simp only [List.foldr_cons]
            omega
      simp only [List.foldr_cons]
      rcases List.mem_cons.mp hex with hx | hx
      · omega
      · have := ih (fun z hz => h z (List.mem_cons_of_mem _ hz)) hx
        have hx0 := h x (List.mem_cons_self _ _)
        omega

theorem submitted_of_writes (writes : List (List ObjOp × Nat))
    (h : ∀ wr ∈ writes,
      (∀ p ∈ wr.1, IsPlainWriteOp p ∧ (submittedSize p = 0 ∨ submittedSize p = wr.2)) ∧
      ∃ p ∈ wr.1, submittedSize p = wr.2) :
    (∀ p ∈ (writes.map (·.1)).flatten, IsPlainWriteOp p) ∧
    (((writes.map (·.1)).flatten).map submittedSize).foldr max 0
      = (writes.map (·.2)).foldr max 0 := by
  induction writes with
  | nil => exact ⟨fun p hp => by simp at hp, rfl⟩
  | cons wr rest ih =>
      obtain ⟨ih1, ih2⟩ := ih (fun x hx => h x (List.mem_cons_of_mem _ hx))
      obtain ⟨hw1, p0, hp0, hp0n⟩ := h wr (List.mem_cons_self _ _)
      constructor
      · intro p hp
        simp only [List.map_cons, List.flatten_cons, List.mem_append] at hp
        rcases hp with hp | hp
        · exact (hw1 p hp).1
        · exact ih1 p hp
      · simp only [List.map_cons, List.flatten_cons, List.map_append, List.foldr_cons]
        rw [foldr_max_append, ih2]
        have hv : (wr.1.map submittedSize).foldr max 0 = wr.2 := by
          apply foldr_max_of_values
          · intro x hx
            obtain ⟨p, hp, hpx⟩ := List.mem_map.mp hx
            rw [← hpx]
            exact (hw1 p hp).2
          · exact List.mem_map.mpr ⟨p0, hp0, hp0n⟩
        rw [hv]

theorem realWriteLoop_kind (opId : String) (buff : List Byte) (blen first total : Nat) :
    ∀ (n i cur btw : Nat) (io : FileIO) (w : World) (r : FileIO × World),
      realWriteLoop opId buff blen first total n i cur btw io w = some r →
      io.mPool.hasAlignment = false →
      ∃ new, r.2.trace = w.trace ++ new ∧
        ∀ t o, Call.op t o ∈ new → ∃ off c, o = ObjOp.write off c := by
  intro n
  induction n with
  | zero =>
      intro i cur btw io w r h _
      simp only [realWriteLoop] at h
      cases h
      exact ⟨[], by simp, fun t o ho => absurd ho (List.not_mem_nil _)⟩
  | succ n ih =>
      intro i cur btw io w r h hal
      simp only [realWriteLoop, hal, Bool.false_eq_true, if_false] at h
      obtain ⟨new, hnew, hops⟩ := ih _ _ _ _ _ _ h
        ((congrArg Pool.hasAlignment (writeLock_spec total io w opId).1.1).trans hal)
      rw [operate_trace, (writeLock_spec total io w opId).2.2] at hnew
      refine ⟨_, hnew.trans (by rw [List.append_assoc, List.append_assoc]), ?_⟩
      intro t o ho
      simp only [List.mem_append, List.mem_singleton] at ho
      rcases ho with ho | ho | ho
      · split_ifs at ho
        · cases ho
        · simp at ho
      · cases ho
        exact ⟨_, _, rfl⟩
      · exact hops t o ho

theorem realWriteInode_kind (io : FileIO) (w : World) (buff : List Byte) (offset blen : Nat)
    (opId : String) (r : Int × FileIO × World)
    (h : realWriteInode io w buff offset blen opId = some r)
    (hal : io.mPool.hasAlignment = false) :
    ∃ new, r.2.2.trace = w.trace ++ new ∧
      (∃ bl, Call.op Target.inode (ObjOp.setSizeIfBigger (uadd offset blen) bl) ∈ new) ∧
      ∀ t o, Call.op t o ∈ new →
        IsPlainWriteOp o ∧ (submittedSize o = 0 ∨ submittedSize o = uadd offset blen) := by
  unfold realWriteInode at h
  dsimp only at h
  split at h
  · cases h
  · rename_i x hx
    cases h
    have hp : (setSizeIfBigger
        (if uadd (usub (usub (uadd offset blen) 1 / io.mChunkSize) (offset / io.mChunkSize)) 1 > 1
          then lockExclusive io (operate io w Target.inode ObjOp.updateTime).2 opId
          else lockShared io (operate io w Target.inode ObjOp.updateTime).2 opId).1
        (if uadd (usub (usub (uadd offset blen) 1 / io.mChunkSize) (offset / io.mChunkSize)) 1 > 1
          then lockExclusive io (operate io w Target.inode ObjOp.updateTime).2 opId
          else lockShared io (operate io w Target.inode ObjOp.updateTime).2 opId).2
        (uadd offset blen) opId).1.mPool.hasAlignment = false :=
      (congrArg Pool.hasAlignment (writeLock_spec _ io
        (operate io w Target.inode ObjOp.updateTime).2 opId).1.1).trans hal
    obtain ⟨new, hnew, hops⟩ := realWriteLoop_kind _ _ _ _ _ _ _ _ _ _ _ _ hx hp
    have hst : ∃ bl, (setSizeIfBigger
        (if uadd (usub (usub (uadd offset blen) 1 / io.mChunkSize) (offset / io.mChunkSize)) 1 > 1
          then lockExclusive io (operate io w Target.inode ObjOp.updateTime).2 opId
          else lockShared io (operate io w Target.inode ObjOp.updateTime).2 opId).1
        (if uadd (usub (usub (uadd offset blen) 1 / io.mChunkSize) (offset / io.mChunkSize)) 1 > 1
          then lockExclusive io (operate io w Target.inode ObjOp.updateTime).2 opId
          else lockShared io (operate io w Target.inode ObjOp.updateTime).2 opId).2
        (uadd offset blen) opId).2.trace
        = (if uadd (usub (usub (uadd offset blen) 1 / io.mChunkSize) (offset / io.mChunkSize)) 1 > 1
          then lockExclusive io (operate io w Target.inode ObjOp.updateTime).2 opId
          else lockShared io (operate io w Target.inode ObjOp.updateTime).2 opId).2.trace
          ++ [Call.op Target.inode (ObjOp.setSizeIfBigger (uadd offset blen) bl)] :=
      ⟨_, rfl⟩
    obtain ⟨bl, hst⟩ := hst
    obtain ⟨L, hL, hLops⟩ : ∃ L,
        (if uadd (usub (usub (uadd offset blen) 1 / io.mChunkSize) (offset / io.mChunkSize)) 1 > 1
          then lockExclusive io (operate io w Target.inode ObjOp.updateTime).2 opId
          else lockShared io (operate io w Target.inode ObjOp.updateTime).2 opId).2.trace
          = (operate io w Target.inode ObjOp.updateTime).2.trace ++ L ∧
        ∀ t o, Call.op t o ∉ L := by
      refine ⟨_, (writeLock_spec _ io (operate io w Target.inode ObjOp.updateTime).2 opId).2.2, ?_⟩
      intro t o ho
      split_ifs at ho
      · cases ho
      · simp at ho
    rw [hst, hL, operate_trace] at hnew
    refine ⟨[Call.op Target.inode ObjOp.updateTime] ++ L ++
      [Call.op Target.inode (ObjOp.setSizeIfBigger (uadd offset blen) bl)] ++ new,
      hnew.trans (by simp only [List.append_assoc]), ⟨bl, by simp⟩, ?_⟩
    intro t o ho
    simp only [List.mem_append, List.mem_singleton, List.mem_cons, List.not_mem_nil,
      or_false] at ho
    rcases ho with ((ho | ho) | ho) | ho
    · cases ho
      exact ⟨Or.inl rfl, Or.inl rfl⟩
    · exact absurd ho (hLops t o)
    · cases ho
      exact ⟨Or.inr (Or.inl ⟨_, _, rfl⟩), Or.inr rfl⟩
    · obtain ⟨off, c, hoc⟩ := hops t o ho
      rw [hoc]
      exact ⟨Or.inr (Or.inr ⟨_, _, rfl⟩), Or.inl rfl⟩

theorem realWrite_reaches (io : FileIO) (w : World) (buff : List Byte) (offset blen : Nat)
    (del : Bool) (opId : String) (hlen : 0 < blen) (hsum : offset + blen < 2 ^ 64)
    (hreach : reachesChunks io w offset blen) :
    ∃ (w1 : World) (buff1 : List Byte) (offset1 blen1 : Nat) (pre : List Call),
      realWrite io w buff offset blen del opId = realWriteInode io w1 buff1 offset1 blen1 opId ∧
      w1.trace = w.trace ++ pre ∧ (∀ t o, Call.op t o ∉ pre) ∧
      uadd offset1 blen1 = offset + blen ∧
      offset ≤ offset1 ∧ 0 < blen1 ∧ offset1 + blen1 = offset + blen ∧
      w1.objects = w.objects := by
  have hdirect : ∃ (w1 : World) (buff1 : List Byte) (offset1 blen1 : Nat) (pre : List Call),
      realWriteInode io w buff offset blen opId = realWriteInode io w1 buff1 offset1 blen1 opId ∧
      w1.trace = w.trace ++ pre ∧ (∀ t o, Call.op t o ∉ pre) ∧
      uadd offset1 blen1 = offset + blen ∧
      offset ≤ offset1 ∧ 0 < blen1 ∧ offset1 + blen1 = offset + blen ∧
      w1.objects = w.objects :=
    ⟨w, buff, offset, blen, [], rfl, by simp, fun t o ho => absurd ho (List.not_mem_nil _),
      uadd_of_lt _ _ hsum, le_refl _, hlen, rfl, rfl⟩
  unfold realWrite
  unfold reachesChunks at hreach
  cases hib : io.mInlineBuffer with
  | none => exact hdirect
  | some ib =>
      rw [hib] at hreach
      dsimp only at hreach ⊢
      by_cases hcap : ib.capacity > 0
      · rw [if_pos hcap]
        have hf : w.inlineFault = none ∧ ib.capacity < offset + blen := by
          rcases hreach with h0 | h1
          · omega
          · exact h1
        by_cases hoff : offset < ib.capacity
        · rw [if_pos hoff]
          have hw : inlineWrite ib w buff offset blen =
              (((min blen (ib.capacity - offset) : Nat) : Int),
               { w with inlineEntry := some (writeAt (w.inlineEntry.getD []) offset
                                              (buff.take (min blen (ib.capacity - offset)))),
                        trace := w.trace ++ [Call.inlineSet] }) := by
            unfold inlineWrite
            rw [hf.1]
          rw [hw]
          dsimp only
          have hmin : min blen (ib.capacity - offset) = ib.capacity - offset := by omega
          rw [hmin]
          have hts : toSizeT ((ib.capacity - offset : Nat) : Int) = ib.capacity - offset := by
            rw [toSizeT_of_nonneg _ (by omega) (by omega)]
            simp
          rw [hts]
          unfold realWriteAfterInline
          rw [if_neg (by omega)]
          have hsub : usub blen (ib.capacity - offset) = blen - (ib.capacity - offset) :=
            usub_of_le _ _ (by omega) (by omega)
          rw [hsub, if_neg (by omega), uadd_of_lt _ _ (by omega)]
          refine ⟨_, _, _, _, [Call.inlineSet], rfl, rfl, ?_, ?_, by omega, by omega, by omega,
            rfl⟩
          · intro t o ho
            simp at ho
          · rw [uadd_of_lt _ _ (by omega)]
            omega
        · rw [if_neg hoff]
          have hw : fillRemainingInlineBuffer ib w =
              (0, { w with inlineEntry := some (truncateTo (w.inlineEntry.getD [])
                                     (max ib.capacity (w.inlineEntry.getD []).length)),
                           trace := w.trace ++ [Call.inlineSet] }) := by
            unfold fillRemainingInlineBuffer
            rw [hf.1]
          rw [hw]
          dsimp only
          unfold realWriteAfterInline
          rw [if_neg (by omega)]
          have hsub : usub blen 0 = blen := by
            rw [usub_of_le _ _ (by omega) (by omega)]; rfl
          have hadd : uadd offset 0 = offset := by
            rw [uadd_of_lt _ _ (by omega)]; rfl
          rw [hsub, if_neg (by omega), hadd]
          refine ⟨_, _, _, _, [Call.inlineSet], rfl, rfl, ?_, uadd_of_lt _ _ hsum, le_refl _,
            hlen, rfl, rfl⟩
          intro t o ho
          simp at ho
      · rw [if_neg hcap]
        exact hdirect

theorem realWrite_kind (io : FileIO) (w : World) (buff : List Byte) (offset blen : Nat)
    (del : Bool) (opId : String) (hlen : 0 < blen) (hsum : offset + blen < 2 ^ 64)
    (hreach : reachesChunks io w offset blen) (hal : io.mPool.hasAlignment = false)
    (r : Int × FileIO × World) (h : realWrite io w buff offset blen del opId = some r) :
    ∃ new, r.2.2.trace = w.trace ++ new ∧
      (∃ bl, Call.op Target.inode (ObjOp.setSizeIfBigger (offset + blen) bl) ∈ new) ∧
      ∀ t o, Call.op t o ∈ new →
        IsPlainWriteOp o ∧ (submittedSize o = 0 ∨ submittedSize o = offset + blen) := by
  obtain ⟨w1, buff1, offset1, blen1, pre, heq, htr, hpre, hval, -⟩ :=
    realWrite_reaches io w buff offset blen del opId hlen hsum hreach
  rw [heq] at h
  obtain ⟨new, hnew, ⟨bl, hbl⟩, hops⟩ :=
    realWriteInode_kind io w1 buff1 offset1 blen1 opId r h hal
  rw [hval] at hbl hops
  refine ⟨pre ++ new, by rw [hnew, htr, List.append_assoc], ⟨bl, List.mem_append_right _ hbl⟩, ?_⟩
  intro t o ho
  rcases List.mem_append.mp ho with ho | ho
  · exact absurd ho (hpre t o)
  · exact hops t o ho

set_option maxRecDepth 1000000 in
/-- On a pool with alignment the operations of a write are not all of these
kinds: for the example FileIO of scenario S3, whose base chunk is the inode
object, `writeSync` of 10 bytes at offset 0 issues on the inode object the update
of the modification time, the compare-and-swap of the size 10 and the aligned
rewrite of chunk 0, which re-applies the size attribute read when the operation
was built (10).  Applied after the compare-and-swap of a later write with the
size 310, that rewrite leaves the size 10. -/
theorem aligned_rewrite_stale_size :
    (writeSync demoS3IO demoWorld (List.replicate 10 120) 0 10).map
        (fun r => objOps demoS3IO demoS3IO.mInode r.2.2.trace)
      = some [ObjOp.updateTime, ObjOp.setSizeIfBigger 10 none,
              ObjOp.alignedWrite (some 10) (List.replicate 10 120 ++ List.replicate 116 0) false] ∧
    storedSize (applyOps none
        [ObjOp.updateTime, ObjOp.setSizeIfBigger 10 none, ObjOp.updateTime,
         ObjOp.setSizeIfBigger 310 none]) = 310 ∧
    storedSize (applyOps none
        [ObjOp.updateTime, ObjOp.setSizeIfBigger 10 none, ObjOp.updateTime,
         ObjOp.setSizeIfBigger 310 none,
         ObjOp.alignedWrite (some 10) (List.replicate 10 120 ++ List.replicate 116 0) false])
      = 10 := by
  refine ⟨by decide, by decide, by decide⟩

theorem realWriteLoop_targets (opId : String) (buff : List Byte) (blen first total : Nat) :
    ∀ (n i cur btw : Nat) (io : FileIO) (w : World) (r : FileIO × World),
      realWriteLoop opId buff blen first total n i cur btw io w = some r →
      ∃ new, r.2.trace = w.trace ++ new ∧
        ∀ t o, Call.op t o ∈ new → ∃ j, t = Target.chunk j ∧ first + i ≤ j := by
  intro n
  induction n with
  | zero =>
      intro i cur btw io w r h
      simp only [realWriteLoop] at h
      cases h
      exact ⟨[], by simp, fun t o ho => absurd ho (List.not_mem_nil _)⟩
  | succ n ih =>
      intro i cur btw io w r h
      simp only [realWriteLoop] at h
      split at h
      · cases h
      · rename_i b hb
        obtain ⟨new, hnew, hops⟩ := ih _ _ _ _ _ _ h
        obtain ⟨L, hL, hLops⟩ : ∃ L,
            (if total > 1 then lockExclusive io w opId else lockShared io w opId).2.trace
              = w.trace ++ L ∧ ∀ t o, Call.op t o ∉ L := by
          refine ⟨_, (writeLock_spec total io w opId).2.2, ?_⟩
          intro t o ho
          split_ifs at ho
          · cases ho
          · simp at ho
        obtain ⟨B, hB, hBops⟩ : ∃ B,
            b.2.trace = (if total > 1 then lockExclusive io w opId
                         else lockShared io w opId).2.trace ++ B ∧
            ∀ t o, Call.op t o ∉ B := by
          by_cases ha : io.mPool.hasAlignment = true
          · rw [if_pos ha] at hb
            refine ⟨_, setAligned_trace _ _ _ _ _ _ _ hb, ?_⟩
            intro t o ho
            simp at ho
          · rw [if_neg ha] at hb
            cases hb
            exact ⟨[], by simp, fun t o ho => absurd ho (List.not_mem_nil _)⟩
        rw [operate_trace, hB, hL] at hnew
        refine ⟨L ++ B ++ [Call.op (Target.chunk (first + i)) b.1] ++ new,
          hnew.trans (by simp only [List.append_assoc]), ?_⟩
        intro t o ho
        simp only [List.mem_append, List.mem_singleton] at ho
        rcases ho with ((ho | ho) | ho) | ho
        · exact absurd ho (hLops t o)
        · exact absurd ho (hBops t o)
        · cases ho
          exact ⟨_, rfl, le_refl _⟩
        · obtain ⟨j, hj, hle⟩ := hops t o ho
          exact ⟨j, hj, by omega⟩

theorem realWriteInode_targets (io : FileIO) (w : World) (buff : List Byte) (offset blen : Nat)
    (opId : String) (r : Int × FileIO × World)
    (h : realWriteInode io w buff offset blen opId = some r) :
    ∃ new, r.2.2.trace = w.trace ++ new ∧
      (∃ bl, Call.op Target.inode (ObjOp.setSizeIfBigger (uadd offset blen) bl) ∈ new) ∧
      ∀ t o, Call.op t o ∈ new →
        (t = Target.inode ∧ IsPlainWriteOp o ∧
          (submittedSize o = 0 ∨ submittedSize o = uadd offset blen)) ∨
        ∃ j, t = Target.chunk j ∧ offset / io.mChunkSize ≤ j := by
  unfold realWriteInode at h
  dsimp only at h
  split at h
  · cases h
  · rename_i x hx
    cases h
    obtain ⟨new, hnew, hops⟩ := realWriteLoop_targets _ _ _ _ _ _ _ _ _ _ _ _ hx
    have hst : ∃ bl, (setSizeIfBigger
        (if uadd (usub (usub (uadd offset blen) 1 / io.mChunkSize) (offset / io.mChunkSize)) 1 > 1
          then lockExclusive io (operate io w Target.inode ObjOp.updateTime).2 opId
          else lockShared io (operate io w Target.inode ObjOp.updateTime).2 opId).1
        (if uadd (usub (usub (uadd offset blen) 1 / io.mChunkSize) (offset / io.mChunkSize)) 1 > 1
          then lockExclusive io (operate io w Target.inode ObjOp.updateTime).2 opId
          else lockShared io (operate io w Target.inode ObjOp.updateTime).2 opId).2
        (uadd offset blen) opId).2.trace
        = (if uadd (usub (usub (uadd offset blen) 1 / io.mChunkSize) (offset / io.mChunkSize)) 1 > 1
          then lockExclusive io (operate io w Target.inode ObjOp.updateTime).2 opId
          else lockShared io (operate io w Target.inode ObjOp.updateTime).2 opId).2.trace
          ++ [Call.op Target.inode (ObjOp.setSizeIfBigger (uadd offset blen) bl)] :=
      ⟨_, rfl⟩
    obtain ⟨bl, hst⟩ := hst
    obtain ⟨L, hL, hLops⟩ : ∃ L,
        (if uadd (usub (usub (uadd offset blen) 1 / io.mChunkSize) (offset / io.mChunkSize)) 1 > 1
          then lockExclusive io (operate io w Target.inode ObjOp.updateTime).2 opId
          else lockShared io (operate io w Target.inode ObjOp.updateTime).2 opId).2.trace
          = (operate io w Target.inode ObjOp.updateTime).2.trace ++ L ∧
        ∀ t o, Call.op t o ∉ L := by
      refine ⟨_, (writeLock_spec _ io (operate io w Target.inode ObjOp.updateTime).2 opId).2.2, ?_⟩
      intro t o ho
      split_ifs at ho
      · cases ho
      · simp at ho
    rw [hst, hL, operate_trace] at hnew
    refine ⟨[Call.op Target.inode ObjOp.updateTime] ++ L ++
      [Call.op Target.inode (ObjOp.setSizeIfBigger (uadd offset blen) bl)] ++ new,
      hnew.trans (by simp only [List.append_assoc]), ⟨bl, by simp⟩, ?_⟩
    intro t o ho
    simp only [List.mem_append, List.mem_singleton, List.mem_cons, List.not_mem_nil,
      or_false] at ho
    rcases ho with ((ho | ho) | ho) | ho
    · cases ho
      exact Or.inl ⟨rfl, Or.inl rfl, Or.inl rfl⟩
    · exact absurd ho (hLops t o)
    · cases ho
      exact Or.inl ⟨rfl, Or.inr (Or.inl ⟨_, _, rfl⟩), Or.inr rfl⟩
    · obtain ⟨j, hj, hle⟩ := hops t o ho
      exact Or.inr ⟨j, hj, by omega⟩

theorem realWrite_beyond_base (io : FileIO) (w : World) (buff : List Byte) (offset blen : Nat)
    (del : Bool) (opId : String) (hlen : 0 < blen) (hsum : offset + blen < 2 ^ 64)
    (hreach : reachesChunks io w offset blen)
    (hino : ∀ i, io.chunkName i = io.mInode → i = 0) (hcs : 0 < io.mChunkSize)
    (hoff : io.mChunkSize ≤ offset)
    (hinv : ∀ k o, w.objects (io.chunkName k) = some o →
      o.data = [] ∨ io.mChunkSize ≤ o.data.length) :
    ∃ r new, realWrite io w buff offset blen del opId = some r ∧
      r.2.2.trace = w.trace ++ new ∧
      (∃ bl, Call.op Target.inode (ObjOp.setSizeIfBigger (offset + blen) bl) ∈ new) ∧
      (∀ p ∈ objOps io io.mInode new,
        IsPlainWriteOp p ∧ (submittedSize p = 0 ∨ submittedSize p = offset + blen)) ∧
      (∃ p ∈ objOps io io.mInode new, submittedSize p = offset + blen) := by
  obtain ⟨w1, buff1, offset1, blen1, pre, heq, htr, hpre, hval, hle, hpos, hs1, hobj⟩ :=
    realWrite_reaches io w buff offset blen del opId hlen hsum hreach
  obtain ⟨r, hr⟩ := realWriteInode_returns io w1 buff1 offset1 blen1 opId
    (Or.inr ⟨hcs, hpos, by omega, by rw [hobj]; exact hinv⟩)
  obtain ⟨new, hnew, ⟨bl, hbl⟩, hops⟩ := realWriteInode_targets io w1 buff1 offset1 blen1 opId r hr
  rw [hval] at hbl hops
  have hbl2 : Call.op Target.inode (ObjOp.setSizeIfBigger (offset + blen) bl) ∈ pre ++ new :=
    List.mem_append_right _ hbl
  have hfirst : 1 ≤ offset1 / io.mChunkSize :=
    (Nat.one_le_div_iff hcs).mpr (le_trans hoff hle)
  refine ⟨r, pre ++ new, heq.trans hr, by rw [hnew, htr, List.append_assoc], ⟨bl, hbl2⟩,
    fun p hp => ?_, ⟨_, (mem_objOps io io.mInode _ _).mpr ⟨Target.inode, hbl2, rfl⟩, rfl⟩⟩
  obtain ⟨tg, htg, hname⟩ := (mem_objOps io io.mInode p (pre ++ new)).mp hp
  rcases List.mem_append.mp htg with htg | htg
  · exact absurd htg (hpre tg p)
  · rcases hops tg p htg with ⟨-, h1, h2⟩ | ⟨j, hj, hjle⟩
    · exact ⟨h1, h2⟩
    · rw [hj] at hname
      have hj0 : j = 0 := hino j hname
      omega

/-- C7 (amended): among the calls of a write that is left with bytes for the
chunks after the inline buffer block is the compare-and-swap of the size on the
inode object with the value `offset + blen` of the original request (unchanged by
the bytes the inline buffer absorbed).  On a pool without alignment the write
returns and every operation it issues is the update of the modification time,
that compare-and-swap or a chunk write; and on any pool, when the write begins at
or beyond the chunk size (it does not touch the base chunk, which is the inode
object) and the chunk objects are empty or hold a whole chunk, the write returns
and the operations that reach the inode object are the update of the modification
time and that compare-and-swap: in both cases the operations on the inode object
submit the size 0 (none) or `offset + blen`.  The compare-and-swap leaves the
larger of the stored size and its value and the other operations of these kinds
leave the size attribute as it is: none of them lowers the stored size.  Hence for
every list of writes, each with operations of these kinds on the inode object and
its size value among them, and every order in which all their operations are
applied to the inode object, the size observed afterwards is the maximum of the
size stored before (0 if none) and the values `off_i + len_i`. -/
theorem size_updates_monotonic (io : FileIO) (w : World) (buff : List Byte) (offset blen : Nat)
    (del : Bool) (opId : String) (hlen : 0 < blen) (hsum : offset + blen < 2 ^ 64)
    (hreach : reachesChunks io w offset blen) :
    (∀ r, realWrite io w buff offset blen del opId = some r →
      ∃ new, r.2.2.trace = w.trace ++ new ∧
        ∃ bl, Call.op Target.inode (ObjOp.setSizeIfBigger (offset + blen) bl) ∈ new) ∧
    (io.mPool.hasAlignment = false →
      ∃ r new, realWrite io w buff offset blen del opId = some r ∧
        r.2.2.trace = w.trace ++ new ∧
        (∃ bl, Call.op Target.inode (ObjOp.setSizeIfBigger (offset + blen) bl) ∈ new) ∧
        (∀ t o, Call.op t o ∈ new →
          IsPlainWriteOp o ∧ (submittedSize o = 0 ∨ submittedSize o = offset + blen)) ∧
        (∀ p ∈ objOps io io.mInode new,
          IsPlainWriteOp p ∧ (submittedSize p = 0 ∨ submittedSize p = offset + blen)) ∧
        (∃ p ∈ objOps io io.mInode new, submittedSize p = offset + blen)) ∧
    ((∀ i, io.chunkName i = io.mInode → i = 0) → 0 < io.mChunkSize →
      io.mChunkSize ≤ offset →
      (∀ k o, w.objects (io.chunkName k) = some o →
        o.data = [] ∨ io.mChunkSize ≤ o.data.length) →
      ∃ r new, realWrite io w buff offset blen del opId = some r ∧
        r.2.2.trace = w.trace ++ new ∧
        (∃ bl, Call.op Target.inode (ObjOp.setSizeIfBigger (offset + blen) bl) ∈ new) ∧
        (∀ p ∈ objOps io io.mInode new,
          IsPlainWriteOp p ∧ (submittedSize p = 0 ∨ submittedSize p = offset + blen)) ∧
        (∃ p ∈ objOps io io.mInode new, submittedSize p = offset + blen)) ∧
    (∀ (o : Option Obj) (n : Nat) (bl : Option String),
      storedSize (applyOp o (ObjOp.setSizeIfBigger n bl)).1 = max (storedSize o) n ∧
      storedSize o ≤ storedSize (applyOp o (ObjOp.setSizeIfBigger n bl)).1) ∧
    (∀ (o : Option Obj) (op : ObjOp), IsPlainWriteOp op →
      storedSize (applyOp o op).1 = max (storedSize o) (submittedSize op) ∧
      storedSize o ≤ storedSize (applyOp o op).1) ∧
    (∀ (o : Option Obj) (sizes sizes' : List Nat), sizes'.Perm sizes →
      storedSize (applySizeUpdates o sizes') = max (storedSize o) (sizes.foldr max 0)) ∧
    (∀ (o : Option Obj) (writes : List (List ObjOp × Nat)) (ops : List ObjOp),
      (∀ wr ∈ writes,
        (∀ p ∈ wr.1, IsPlainWriteOp p ∧ (submittedSize p = 0 ∨ submittedSize p = wr.2)) ∧
        ∃ p ∈ wr.1, submittedSize p = wr.2) →
      ops.Perm (writes.map (·.1)).flatten →
      storedSize (applyOps o ops) = max (storedSize o) ((writes.map (·.2)).foldr max 0)) := by
  refine ⟨fun r hr => ?_, fun hal => ?_, fun hino hcs hoff hinv => ?_, fun o n bl => ?_,
    fun o op hop => ?_, fun o sizes sizes' hp => ?_, fun o writes ops hw hp => ?_⟩
  · obtain ⟨w1, buff1, offset1, blen1, pre, heq, htr, -, hval, -⟩ :=
      realWrite_reaches io w buff offset blen del opId hlen hsum hreach
    rw [heq] at hr
    obtain ⟨new, hnew, ⟨bl, hbl⟩, -⟩ :=
      realWriteInode_targets io w1 buff1 offset1 blen1 opId r hr
    rw [hval] at hbl
    exact ⟨pre ++ new, by rw [hnew, htr, List.append_assoc], bl, List.mem_append_right _ hbl⟩
  · obtain ⟨r, hr⟩ := realWrite_returns io w buff offset blen del opId (Or.inl hal)
    obtain ⟨new, hnew, ⟨bl, hbl⟩, hops⟩ :=
      realWrite_kind io w buff offset blen del opId hlen hsum hreach hal r hr
    refine ⟨r, new, hr, hnew, ⟨bl, hbl⟩, hops, fun p hp => ?_, ?_⟩
    · obtain ⟨tg, htg, -⟩ := (mem_objOps io io.mInode p new).mp hp
      exact hops tg p htg
    · exact ⟨_, (mem_objOps io io.mInode _ new).mpr ⟨Target.inode, hbl, rfl⟩, rfl⟩
  · exact realWrite_beyond_base io w buff offset blen del opId hlen hsum hreach hino hcs hoff hinv
  · rw [storedSize_setSizeIfBigger]
    exact ⟨rfl, le_max_left _ _⟩
  · rw [storedSize_plainOp o op hop]
    exact ⟨rfl, le_max_left _ _⟩
  · rw [storedSize_applySizeUpdates, foldr_max_perm hp]
  · obtain ⟨h1, h2⟩ := submitted_of_writes writes hw
    rw [storedSize_applyOps ops o (fun p hpm => h1 p (hp.mem_iff.mp hpm)),
      foldr_max_perm (hp.map submittedSize), h2]

set_option maxRecDepth 1000000 in
theorem size_updates_monotonic_witness :
    (0 < 5 ∧ 0 + 5 < 2 ^ 64 ∧ reachesChunks demoIO demoWorld 0 5 ∧
      demoIO.mPool.hasAlignment = false) ∧
    (∃ r new, realWrite demoIO demoWorld [1, 2, 3, 4, 5] 0 5 false "op" = some r ∧
      r.2.2.trace = demoWorld.trace ++ new ∧
      (∃ bl, Call.op Target.inode (ObjOp.setSizeIfBigger (0 + 5) bl) ∈ new) ∧
      (∀ p ∈ objOps demoIO demoIO.mInode new,
        IsPlainWriteOp p ∧ (submittedSize p = 0 ∨ submittedSize p = 0 + 5))) ∧
    (realWrite demoIO demoWorld [1, 2, 3, 4, 5] 0 5 false "op").map
        (fun r => objOps demoIO demoIO.mInode r.2.2.trace)
      = some [ObjOp.updateTime, ObjOp.setSizeIfBigger 5 none, ObjOp.write 0 [1, 2, 3, 4]] ∧
    ((0 < 10 ∧ 130 + 10 < 2 ^ 64 ∧ reachesChunks demoS3IO demoWorld 130 10 ∧
        demoS3IO.mChunkSize ≤ 130 ∧ demoS3IO.mPool.hasAlignment = true) ∧
      ∃ r new, realWrite demoS3IO demoWorld (List.replicate 10 120) 130 10 false "op" = some r ∧
        r.2.2.trace = demoWorld.trace ++ new ∧
        (∀ p ∈ objOps demoS3IO demoS3IO.mInode new,
          IsPlainWriteOp p ∧ (submittedSize p = 0 ∨ submittedSize p = 130 + 10))) ∧
    storedSize (applyOps (some { data := [], size := some 3 })
        [ObjOp.write 0 [1, 2, 3, 4], ObjOp.setSizeIfBigger 9 none, ObjOp.updateTime,
         ObjOp.setSizeIfBigger 5 none, ObjOp.updateTime, ObjOp.write 0 [7]]) = 9 :=
  ⟨⟨by decide, by decide, trivial, by decide⟩,
   ((size_updates_monotonic demoIO demoWorld [1, 2, 3, 4, 5] 0 5 false "op"
      (by decide) (by decide) trivial).2.1 (by decide)).imp
     (fun _ h => h.imp (fun _ h' => ⟨h'.1, h'.2.1, h'.2.2.1, h'.2.2.2.2.1⟩)),
   by decide,
   ⟨⟨by decide, by decide, trivial, by decide, by decide⟩,
    ((size_updates_monotonic demoS3IO demoWorld (List.replicate 10 120) 130 10 false "op"
      (by decide) (by decide) trivial).2.2.1 demoIO_inode_chunk (by decide) (by decide)
      (fun _ _ h => Option.noConfusion h)).imp
     (fun _ h => h.imp (fun _ h' => ⟨h'.1, h'.2.1, h'.2.2.2.1⟩))⟩,
   by decide⟩

end RadosFs
